import Mathlib

/-!
# Verification of the buddy allocator in `src/buddy.h`

Shallow embedding of the buddy allocator (`balloc` / `bfree` / `brealloc`
and their helpers `grow`, `split`, `join`) from `src/buddy.h`.

Modelling conventions:

* Addresses are byte offsets from `start` (so `start = 0`); `BYTEDIFF(start, b)`
  is just `b`; `end` is the field `endp`.
* The C code stores block headers inside the managed memory.  We model the
  header fields as total maps `hsize : Nat → Nat` and `hused : Nat → Bool`;
  writing a header updates the map at that offset and nothing is ever erased,
  exactly as header bytes persist in raw memory.  `sbrk`-fresh memory is
  zero-filled, so the maps default to `0` / `false` at never-written offsets.
* Payload bytes are a separate map `mem : Nat → Nat`.  The allocator itself
  only ever writes headers (at block-start offsets) and, in `brealloc`, payload
  bytes — on the heaps the allocator maintains the two never collide.
* The host growth primitive (`sbrk`) is an oracle `sbrks : List Bool`: each
  call consumes one entry, `true` = the increment was granted; an exhausted
  oracle denies.  This models "fails only under genuine resource exhaustion".
* Machine integers: sizes and offsets are `Nat`.  `size_t` subtraction appears
  only as `x - MEMOFFSET` (`MEMSIZE`, `HALFMEMSIZE`); the C value underflows
  (huge) exactly when `x < 16`, where `Nat` truncates to `0`.  On every state
  the allocator itself produces, block sizes are powers of two `≥ 16`, and on
  the residual garbage cases the C code either loops forever or crashes; the
  two semantics agree on all states reached in the theorems below.
* `while` loops become fuel-indexed structural recursions; the fuel chosen at
  each call site dominates the number of iterations the C loop performs
  whenever it terminates (each loop either halves a size, doubles a size
  bounded by the target, consumes one oracle entry, or steps through blocks of
  size ≥ 16 inside `[0, endp)`), so exhaustion only hits states where the C
  loop would not terminate.

Constants from the source: `MEMOFFSET = offsetof(struct block, mem) = 16`
(8-byte `size_t`, 4-byte `int`, payload aligned to `max_align_t = 16`),
`MINBLOCKSIZE = 16`, `BUDDY_BLOCK_INIT_SIZE = 4096` by default (any power of
two passes the `_Static_assert`; theorems take it as a parameter `B`).
-/

/-- `MEMOFFSET`: offset of the payload inside a block (header overhead). -/
def MEMOFFSET : Nat := 16

/-- `MINBLOCKSIZE`: the smallest size a block can be. -/
def MINBLOCKSIZE : Nat := 16

/-- Allocator state: the three statics `start`(=0)/`end`/`next`, the header
fields of every block written so far, the payload bytes, and the host oracle. -/
structure Heap where
  hsize : Nat → Nat
  hused : Nat → Bool
  mem   : Nat → Nat
  endp  : Nat
  next  : Nat
  sbrks : List Bool

/-- Write the `size` field of the header at offset `b`. -/
def setHsize (h : Heap) (b v : Nat) : Heap :=
  { h with hsize := fun o => if o = b then v else h.hsize o }

/-- Write the `used` field of the header at offset `b`. -/
def setHused (h : Heap) (b : Nat) (v : Bool) : Heap :=
  { h with hused := fun o => if o = b then v else h.hused o }

/-- Write one payload byte. -/
def setMem (h : Heap) (a v : Nat) : Heap :=
  { h with mem := fun o => if o = a then v else h.mem o }

/-- `MEMSIZE(block)`: usable bytes of the block at offset `b`. -/
def memsize (h : Heap) (b : Nat) : Nat := h.hsize b - MEMOFFSET

/-- One `sbrk` call: consume the next oracle entry (`true` = grant).  An empty
oracle denies, modelling a host that has run out of memory. -/
def sbrk (h : Heap) : Bool × Heap :=
  match h.sbrks with
  | [] => (false, h)
  | g :: rest => (g, { h with sbrks := rest })

/-- The state right after `init()` succeeded: one free block of size `B`
(`BUDDY_BLOCK_INIT_SIZE`) spanning the region, cursor at `start`.  Fresh
`sbrk` memory is zero-filled. -/
def initHeap (B : Nat) (gs : List Bool) : Heap :=
  { hsize := fun o => if o = 0 then B else 0
    hused := fun _ => false
    mem   := fun _ => 0
    endp  := B
    next  := 0
    sbrks := gs }

/-- The `while (size < required) size *= 2;` loop in `grow`'s single-block
case.  Fuel dominates the iteration count whenever `size ≥ 1`. -/
def doubleUntil (required : Nat) : Nat → Nat → Nat
  | size, 0 => size
  | size, fuel + 1 => if size < required then doubleUntil required (size * 2) fuel else size

/-- The `do { ... } while (current_size < required);` loop of `grow`'s general
case: append one free block of the current region size at `end` per granted
increment.  Each iteration consumes one oracle entry, so fuel
`h.sbrks.length + 1` is never exhausted. -/
def growLoop (required : Nat) : Nat → Heap → Option Nat × Heap
  | 0, h => (none, h)
  | fuel + 1, h =>
    let currentSize := h.endp
    match sbrk h with
    | (false, h1) => (none, h1)
    | (true, h1) =>
      let b := h1.endp
      let h2 := setHused (setHsize h1 b currentSize) b false
      let h3 := { h2 with endp := b + currentSize }
      if currentSize < required then growLoop required fuel h3 else (some b, h3)

/-- `grow(required)` from `src/buddy.h`: if the region is exactly one free
block, double it in place until it holds the request; otherwise append
region-sized free blocks until the last one is big enough.  Returns the block
to use, or `none` if an increment was denied. -/
def grow (required0 : Nat) (h : Heap) : Option Nat × Heap :=
  let required := required0 + MEMOFFSET
  if 0 + h.hsize 0 = h.endp ∧ h.hused 0 = false then
    let size := doubleUntil required (h.hsize 0) (required + 1)
    match sbrk h with
    | (false, h1) => (none, h1)
    | (true, h1) =>
      let h2 := setHsize h1 0 size
      (some 0, { h2 with endp := 0 + size })
  else
    growLoop required (h.sbrks.length + 1) h

/-- `split(block)`: halve the block at `b`; the upper half becomes a new free
block header immediately following the lower half. -/
def split (b : Nat) (h : Heap) : Heap :=
  let s := h.hsize b / 2
  let h1 := setHsize h b s
  setHused (setHsize h1 (b + s) s) (b + s) false

/-- The `for (;;)` coalescing loop of `join`: starting from `(b, size)`,
compute the buddy from offset and size, and while it is inside the region,
of equal size, and free, merge (the loop itself only reads memory; `join`
writes the final header once afterwards, as in the C code).  Returns the
final block offset and size. -/
def joinLoop (h : Heap) : Nat → Nat → Nat → Nat × Nat
  | _, b, 0 => (b, 0)
  | 0, b, size => (b, size)
  | fuel + 1, b, size =>
    let buddy := if b % (size * 2) = 0 then b + size else b - size
    let joined := if b % (size * 2) = 0 then b else b - size
    if buddy = h.endp ∨ h.hsize buddy ≠ size ∨ h.hused buddy = true then
      (b, size)
    else
      joinLoop h fuel joined (size * 2)

/-- `join(block)`: coalesce the block at `b` with its buddy transitively,
then write the final header (size = accumulated size, `used = 0`).  The fuel
`h.endp + 1` dominates the iteration count on every state where the C loop
terminates, since the size doubles from at least `16` each iteration and a
buddy outside `[0, endp)` stops the loop.  (A size-`0` header would make the
C loop spin forever reading the block itself as its own buddy; the `size = 0`
fuel-independent base case mirrors that this never merges anything.) -/
def join (b : Nat) (h : Heap) : Nat × Heap :=
  let r := joinLoop h (h.endp + 1) b (h.hsize b)
  (r.1, setHused (setHsize h r.1 r.2) r.1 false)

/-- `bfree(ptr)`: recover the header, coalesce, and park the cursor at the
final (possibly merged) block. -/
def bfree (p : Nat) (h : Heap) : Heap :=
  let r := join (p - MEMOFFSET) h
  { r.2 with next := r.1 }

/-- Result of the circular first-fit scan in `balloc`. -/
inductive ScanRes where
  | found (b : Nat)
  | wrapped
  | stuck
deriving DecidableEq

/-- The search loop of `balloc`: walk blocks from `b`, wrapping from `end` to
`start`, until a free block with enough usable space is found (`found`) or the
walk returns to the cursor `h.next` (`wrapped`, the C code then grows).
`stuck` models fuel exhaustion: with fuel `h.endp + 2` it only occurs on
states where the C loop reads garbage forever (e.g. a cursor equal to `end`
with nothing to find, where the C code reads past the program break). -/
def scanLoop (sz : Nat) (h : Heap) : Nat → Nat → ScanRes
  | 0, _ => .stuck
  | fuel + 1, b =>
    if memsize h b < sz ∨ h.hused b = true then
      let b1 := b + h.hsize b
      let b2 := if b1 = h.endp then 0 else b1
      if b2 = h.next then .wrapped else scanLoop sz h fuel b2
    else
      .found b

/-- The best-fit split loop of `balloc`:
`while (HALFMEMSIZE(block) >= size && block->size > MINBLOCKSIZE) split(block);`.
Fuel `h.hsize b + 1` dominates the iteration count since the size strictly
halves from a value `> 16` each iteration. -/
def splitLoopA (sz b : Nat) : Nat → Heap → Heap
  | 0, h => h
  | fuel + 1, h =>
    if h.hsize b / 2 - MEMOFFSET ≥ sz ∧ h.hsize b > MINBLOCKSIZE then
      splitLoopA sz b fuel (split b h)
    else h

/-- The tail of `balloc` once a fitting free block `b` is in hand (from the
scan or from `grow`): split to best fit, advance the cursor past the block
(wrapping `end` to `start`), mark it used, return its payload address. -/
def ballocAt (sz b : Nat) (h : Heap) : Option Nat × Heap :=
  let h1 := splitLoopA sz b (h.hsize b + 1) h
  let n1 := b + h1.hsize b
  let h2 := { h1 with next := if n1 = h1.endp then 0 else n1 }
  (some (b + MEMOFFSET), setHused h2 b true)

/-- `balloc(size)`: circular first-fit scan from the cursor; on a full wrap,
grow the region; then best-fit split, cursor rotation, and mark used. -/
def balloc (sz : Nat) (h : Heap) : Option Nat × Heap :=
  match scanLoop sz h (h.endp + 2) h.next with
  | .found b => ballocAt sz b h
  | .stuck => (none, h)
  | .wrapped =>
    match grow sz h with
    | (none, h1) => (none, h1)
    | (some b, h1) => ballocAt sz b h1

/-- The shrink loop of `brealloc`:
`while ((block->size / 2 - MEMOFFSET) >= size) split(block);`.
Fuel `h.hsize b + 1` dominates the iteration count whenever `sz ≥ 1` (the
only way `brealloc` reaches this loop); at `sz = 0` the C loop would split
forever. -/
def splitLoopR (sz b : Nat) : Nat → Heap → Heap
  | 0, h => h
  | fuel + 1, h =>
    if h.hsize b / 2 - MEMOFFSET ≥ sz then splitLoopR sz b fuel (split b h) else h

/-- The in-place growth loop of `brealloc`: from the block's current size,
keep checking that the block is aligned for a right-hand buddy and that the
immediate right neighbour at the current size is inside the region, of equal
size, and free; double the candidate size while so.  Returns `some` of the
first candidate size that holds the request (the C code then commits it), or
`none` when merging fails first (the C code falls back to free/alloc/copy).
The loop only reads; fuel `sz + MEMOFFSET + 1` dominates the iteration count
whenever the starting size is `≥ 1`. -/
def growRight (sz b : Nat) (h : Heap) : Nat → Nat → Option Nat
  | 0, _ => none
  | fuel + 1, blockSize =>
    if blockSize ≥ sz + MEMOFFSET then some blockSize
    else
      let buddy := b + blockSize
      if b % (blockSize * 2) > 0 ∨ buddy = h.endp ∨ h.hsize buddy ≠ blockSize ∨
          h.hused buddy = true then
        none
      else
        growRight sz b h fuel (blockSize * 2)

/-- The forward copy `for (i = 0; i < n; i++) new_ptr[i] = ptr[i];`
(`i` counts up; `r` is the remaining count). -/
def copyF (dst src : Nat) (h : Heap) : Nat → Nat → Heap
  | _, 0 => h
  | i, r + 1 => copyF dst src (setMem h (dst + i) (h.mem (src + i))) (i + 1) r

/-- The backward copy `for (i = n; i > 0; i--) new_ptr[i-1] = ptr[i-1];`. -/
def copyB (dst src : Nat) (h : Heap) : Nat → Heap
  | 0 => h
  | i + 1 => copyB dst src (setMem h (dst + i) (h.mem (src + i))) i

/-- `brealloc(ptr, size)` from `src/buddy.h`:
`size = 0` frees; a block already big enough is shrunk in place by splitting;
otherwise try in-place growth by right-buddy merging; otherwise free,
allocate anew, copy `MEMSIZE(block)` bytes (reading the old header *after*
the free and the new allocation) in the overlap-safe direction, and on
allocation failure restore the old header fields and report failure. -/
def brealloc (p sz : Nat) (h : Heap) : Option Nat × Heap :=
  if sz = 0 then (none, bfree p h)
  else
    let b := p - MEMOFFSET
    if memsize h b ≥ sz then
      let h1 := splitLoopR sz b (h.hsize b + 1) h
      (some (b + MEMOFFSET), { h1 with next := b + h1.hsize b })
    else
      match growRight sz b h (sz + MEMOFFSET + 1) (h.hsize b) with
      | some ns =>
        let h1 := setHsize h b ns
        (some (b + MEMOFFSET), { h1 with next := b + ns })
      | none =>
        let saved := h.hsize b
        let h1 := bfree p h
        match balloc sz h1 with
        | (none, h2) => (none, setHused (setHsize h2 b saved) b true)
        | (some np, h2) =>
          let cnt := memsize h2 b
          let h3 := if np < p then copyF np p h2 0 cnt else copyB np p h2 cnt
          (some np, h3)

/-- A caller writing one byte into payload it owns (not allocator code; used
to set up scenarios that observe payload contents). -/
def store (a v : Nat) (h : Heap) : Heap := setMem h a v

/-! ## Basic update lemmas -/

theorem setHsize_mem (h : Heap) (b v : Nat) : (setHsize h b v).mem = h.mem := rfl

theorem setHused_mem (h : Heap) (b : Nat) (v : Bool) : (setHused h b v).mem = h.mem := rfl

theorem setHsize_endp (h : Heap) (b v : Nat) : (setHsize h b v).endp = h.endp := rfl

theorem setHused_endp (h : Heap) (b : Nat) (v : Bool) : (setHused h b v).endp = h.endp := rfl

theorem setHsize_hsize (h : Heap) (b v o : Nat) :
    (setHsize h b v).hsize o = if o = b then v else h.hsize o := rfl

theorem setHused_hused (h : Heap) (b : Nat) (v : Bool) (o : Nat) :
    (setHused h b v).hused o = if o = b then v else h.hused o := rfl

theorem setHsize_hused (h : Heap) (b v : Nat) : (setHsize h b v).hused = h.hused := rfl

theorem setHused_hsize (h : Heap) (b : Nat) (v : Bool) : (setHused h b v).hsize = h.hsize := rfl

theorem sbrk_mem (h : Heap) : ((sbrk h).2).mem = h.mem := by
  unfold sbrk; cases h.sbrks <;> rfl

theorem sbrk_hsize (h : Heap) : ((sbrk h).2).hsize = h.hsize := by
  unfold sbrk; cases h.sbrks <;> rfl

theorem sbrk_hused (h : Heap) : ((sbrk h).2).hused = h.hused := by
  unfold sbrk; cases h.sbrks <;> rfl

theorem sbrk_endp (h : Heap) : ((sbrk h).2).endp = h.endp := by
  unfold sbrk; cases h.sbrks <;> rfl

theorem sbrk_next (h : Heap) : ((sbrk h).2).next = h.next := by
  unfold sbrk; cases h.sbrks <;> rfl

theorem split_mem (b : Nat) (h : Heap) : (split b h).mem = h.mem := rfl

/-! ## The allocator never writes payload bytes
(`mem` is only touched by `brealloc`'s copy loops). -/

theorem growLoop_mem (required : Nat) :
    ∀ (fuel : Nat) (h : Heap), ((growLoop required fuel h).2).mem = h.mem := by
  intro fuel
  induction fuel with
  | zero => intro h; rfl
  | succ n ih =>
    intro h
    unfold growLoop
    rcases hs : sbrk h with ⟨g, h1⟩
    have hm : h1.mem = h.mem := by
      have := sbrk_mem h; rw [hs] at this; exact this
    cases g with
    | false => simpa using hm
    | true =>
      simp only []
      split
      · rw [ih]; simpa using hm
      · simpa using hm

theorem grow_mem (required0 : Nat) (h : Heap) : ((grow required0 h).2).mem = h.mem := by
  unfold grow
  split
  · rcases hs : sbrk h with ⟨g, h1⟩
    have hm : h1.mem = h.mem := by
      have := sbrk_mem h; rw [hs] at this; exact this
    cases g <;> simpa using hm
  · exact growLoop_mem _ _ _

theorem splitLoopA_mem (sz b : Nat) :
    ∀ (fuel : Nat) (h : Heap), (splitLoopA sz b fuel h).mem = h.mem := by
  intro fuel
  induction fuel with
  | zero => intro h; rfl
  | succ n ih =>
    intro h
    unfold splitLoopA
    split
    · rw [ih]; rfl
    · rfl

theorem splitLoopR_mem (sz b : Nat) :
    ∀ (fuel : Nat) (h : Heap), (splitLoopR sz b fuel h).mem = h.mem := by
  intro fuel
  induction fuel with
  | zero => intro h; rfl
  | succ n ih =>
    intro h
    unfold splitLoopR
    split
    · rw [ih]; rfl
    · rfl

theorem ballocAt_mem (sz b : Nat) (h : Heap) : ((ballocAt sz b h).2).mem = h.mem := by
  unfold ballocAt
  simp only [setHused_mem]
  exact splitLoopA_mem _ _ _ _

theorem join_mem (b : Nat) (h : Heap) : ((join b h).2).mem = h.mem := rfl

theorem bfree_mem (p : Nat) (h : Heap) : (bfree p h).mem = h.mem := rfl

theorem balloc_mem (sz : Nat) (h : Heap) : ((balloc sz h).2).mem = h.mem := by
  unfold balloc
  rcases hscan : scanLoop sz h (h.endp + 2) h.next with b | _ | _
  · simp only []
    exact ballocAt_mem _ _ _
  · rcases hg : grow sz h with ⟨r, h1⟩
    have hm : h1.mem = h.mem := by
      have := grow_mem sz h; rw [hg] at this; exact this
    cases r with
    | none => simpa using hm
    | some b => simp only []; rw [ballocAt_mem]; exact hm
  · rfl

/-! ## Split-loop lemmas -/

theorem split_hsize_self (b : Nat) (h : Heap) (hpos : 0 < h.hsize b / 2) :
    (split b h).hsize b = h.hsize b / 2 := by
  unfold split setHsize setHused
  simp only []
  have : ¬ (b = b + h.hsize b / 2) := by omega
  simp [this]

theorem split_endp (b : Nat) (h : Heap) : (split b h).endp = h.endp := rfl

theorem split_next (b : Nat) (h : Heap) : (split b h).next = h.next := rfl

/-- With a positive requested size, `brealloc`'s shrink loop and `balloc`'s
best-fit loop are the same function: the `block->size > MINBLOCKSIZE` guard
of the latter is implied (`size/2 - MEMOFFSET ≥ sz ≥ 1` forces `size ≥ 34`). -/
theorem splitLoopR_eq_splitLoopA (sz b : Nat) (hsz : 1 ≤ sz) :
    ∀ (fuel : Nat) (h : Heap), splitLoopR sz b fuel h = splitLoopA sz b fuel h := by
  intro fuel
  induction fuel with
  | zero => intro h; rfl
  | succ n ih =>
    intro h
    unfold splitLoopR splitLoopA
    by_cases hg : h.hsize b / 2 - MEMOFFSET ≥ sz
    · have hbig : h.hsize b > MINBLOCKSIZE := by
        unfold MEMOFFSET at hg; unfold MINBLOCKSIZE; omega
      simp [hg, hbig, ih]
    · simp [hg]

theorem splitLoopR_skip (sz b fuel : Nat) (h : Heap)
    (hg : ¬ (h.hsize b / 2 - MEMOFFSET ≥ sz)) : splitLoopR sz b fuel h = h := by
  cases fuel with
  | zero => rfl
  | succ n => unfold splitLoopR; simp [hg]

/-- Exit properties of the shrink loop with sufficient fuel: the exit guard
fails, the block still fits the request, and region bound and cursor are
untouched. -/
theorem splitLoopR_exit (sz b : Nat) (hsz : 1 ≤ sz) :
    ∀ (fuel : Nat) (h : Heap), h.hsize b < fuel → sz ≤ memsize h b →
      (splitLoopR sz b fuel h).hsize b / 2 - MEMOFFSET < sz ∧
      sz ≤ memsize (splitLoopR sz b fuel h) b ∧
      (splitLoopR sz b fuel h).endp = h.endp ∧
      (splitLoopR sz b fuel h).next = h.next := by
  intro fuel
  induction fuel with
  | zero => intro h hf; omega
  | succ n ih =>
    intro h hf hfit
    by_cases hg : h.hsize b / 2 - MEMOFFSET ≥ sz
    · have hbig : 34 ≤ h.hsize b := by unfold MEMOFFSET at hg; omega
      have hhs : (split b h).hsize b = h.hsize b / 2 := split_hsize_self b h (by omega)
      have hstep : splitLoopR sz b (n + 1) h = splitLoopR sz b n (split b h) := by
        simp only [splitLoopR]; simp [hg]
      have hf' : (split b h).hsize b < n := by omega
      have hfit' : sz ≤ memsize (split b h) b := by
        unfold memsize; rw [hhs]; exact hg
      have := ih (split b h) hf' hfit'
      rw [hstep]
      refine ⟨this.1, this.2.1, ?_, ?_⟩
      · rw [this.2.2.1, split_endp]
      · rw [this.2.2.2, split_next]
    · rw [splitLoopR_skip sz b (n+1) h hg]
      unfold memsize at hfit ⊢
      exact ⟨by omega, hfit, rfl, rfl⟩

/-- A committed in-place growth size always holds the request plus header. -/
theorem growRight_some_ge (sz b : Nat) (h : Heap) :
    ∀ (fuel bs ns : Nat), growRight sz b h fuel bs = some ns → sz + MEMOFFSET ≤ ns := by
  intro fuel
  induction fuel with
  | zero => intro bs ns hx; simp [growRight] at hx
  | succ n ih =>
    intro bs ns hx
    unfold growRight at hx
    by_cases hg : bs ≥ sz + MEMOFFSET
    · simp [hg] at hx; omega
    · simp only [hg, if_false] at hx
      split at hx
      · exact absurd hx (by simp)
      · exact ih _ _ hx

/-! ## Claim C4: rollback on reallocation fallback failure -/

/-- **C4.** For every `brealloc` call that takes the fallback
(free / allocate / copy) path and whose fallback allocation fails, the call
returns the failure sentinel `BNULL`, the original block's `size` and `used`
fields are restored exactly (the block was `used` before the call by the
free-contract), and no payload byte anywhere has changed, so the original
pointer still addresses the caller's unchanged data. -/
theorem C4_rollback_on_fallback_failure (h : Heap) (p sz : Nat)
    (hsz : sz ≠ 0)
    (hsmall : memsize h (p - MEMOFFSET) < sz)
    (hgrow : growRight sz (p - MEMOFFSET) h (sz + MEMOFFSET + 1)
      (h.hsize (p - MEMOFFSET)) = none)
    (hfail : (balloc sz (bfree p h)).1 = none) :
    (brealloc p sz h).1 = none ∧
    ((brealloc p sz h).2).hsize (p - MEMOFFSET) = h.hsize (p - MEMOFFSET) ∧
    ((brealloc p sz h).2).hused (p - MEMOFFSET) = true ∧
    ((brealloc p sz h).2).mem = h.mem := by
  have hb : ¬ (memsize h (p - MEMOFFSET) ≥ sz) := by omega
  rcases hbal : balloc sz (bfree p h) with ⟨r, h2⟩
  have hr : r = none := by rw [hbal] at hfail; exact hfail
  subst hr
  have hmem2 : h2.mem = h.mem := by
    have h1 := balloc_mem sz (bfree p h)
    rw [hbal] at h1
    rw [h1, bfree_mem]
  unfold brealloc
  simp only [hsz, if_false, hb, hgrow, hbal]
  refine ⟨trivial, ?_, ?_, ?_⟩
  · simp [setHused, setHsize]
  · simp [setHused, setHsize]
  · simpa [setHused, setHsize] using hmem2

/-- Witness for C4: from a fresh 4096-byte region with an exhausted host,
allocate the whole region (`balloc 4080`, payload pointer 16), then
`brealloc 16 5000`: in-place growth fails (the right neighbour is `end`),
the freed block is restored to `size = 4096`, `used`, and the call fails. -/
theorem C4_rollback_on_fallback_failure_witness :
    (brealloc 16 5000 ((balloc 4080 (initHeap 4096 [])).2)).1 = none ∧
    ((brealloc 16 5000 ((balloc 4080 (initHeap 4096 [])).2)).2).hsize (16 - MEMOFFSET) =
      ((balloc 4080 (initHeap 4096 [])).2).hsize (16 - MEMOFFSET) ∧
    ((brealloc 16 5000 ((balloc 4080 (initHeap 4096 [])).2)).2).hused (16 - MEMOFFSET) = true ∧
    ((brealloc 16 5000 ((balloc 4080 (initHeap 4096 [])).2)).2).mem =
      ((balloc 4080 (initHeap 4096 [])).2).mem :=
  C4_rollback_on_fallback_failure ((balloc 4080 (initHeap 4096 [])).2) 16 5000
    (by decide) (by decide) (by decide) (by decide)

/-! ## Claim C8: in-place growth by right-buddy merging -/

/-- **C8.** For every `brealloc` call on a block whose usable capacity is
below the requested size, if the in-place growth loop (repeated merging with
the free, equal-size, buddy-aligned immediate right neighbour) reaches a
size `ns` that holds the request, then `brealloc` commits exactly that size
in place and returns the original payload address, with the cursor just past
the enlarged block and not a single payload byte changed. -/
theorem C8_grow_in_place (h : Heap) (p sz ns : Nat)
    (hp : MEMOFFSET ≤ p)
    (hsz : sz ≠ 0)
    (hsmall : memsize h (p - MEMOFFSET) < sz)
    (hgrow : growRight sz (p - MEMOFFSET) h (sz + MEMOFFSET + 1)
      (h.hsize (p - MEMOFFSET)) = some ns) :
    brealloc p sz h =
      (some p, { setHsize h (p - MEMOFFSET) ns with next := (p - MEMOFFSET) + ns }) ∧
    sz + MEMOFFSET ≤ ns ∧
    ((brealloc p sz h).2).hsize (p - MEMOFFSET) = ns ∧
    ((brealloc p sz h).2).mem = h.mem := by
  have hb : ¬ (memsize h (p - MEMOFFSET) ≥ sz) := by omega
  have heq : brealloc p sz h =
      (some (p - MEMOFFSET + MEMOFFSET),
        { setHsize h (p - MEMOFFSET) ns with next := (p - MEMOFFSET) + ns }) := by
    unfold brealloc
    simp only [hsz, if_false, hb, hgrow]
  have hpp : p - MEMOFFSET + MEMOFFSET = p := by omega
  rw [hpp] at heq
  refine ⟨heq, growRight_some_ge sz (p - MEMOFFSET) h _ _ _ hgrow, ?_, ?_⟩
  · rw [heq]; simp [setHsize]
  · rw [heq]; rfl

/-- Witness for C8: fresh region, `balloc 16` gives the block at offset 0
(size 32, payload 16) with a free size-32 right buddy at 32; `brealloc 16 40`
merges right twice in concept (32 → 64), commits 64 in place, and returns
the same pointer 16. -/
theorem C8_grow_in_place_witness :
    brealloc 16 40 ((balloc 16 (initHeap 4096 [])).2) =
      (some 16,
        { setHsize ((balloc 16 (initHeap 4096 [])).2) (16 - MEMOFFSET) 64 with
            next := (16 - MEMOFFSET) + 64 }) ∧
    40 + MEMOFFSET ≤ 64 ∧
    ((brealloc 16 40 ((balloc 16 (initHeap 4096 [])).2)).2).hsize (16 - MEMOFFSET) = 64 ∧
    ((brealloc 16 40 ((balloc 16 (initHeap 4096 [])).2)).2).mem =
      ((balloc 16 (initHeap 4096 [])).2).mem :=
  C8_grow_in_place ((balloc 16 (initHeap 4096 [])).2) 16 40 64
    (by decide) (by decide) (by decide) (by decide)

/-! ## Claim C9: shrinking reallocation (corrected at `n = 0`) -/

/-- **C9, counterexample.** The claim quantifies over every `n` at most the
block's current usable capacity, but at `n = 0` `brealloc` frees the block
and returns the failure sentinel, not the same payload address: after
`balloc 16` (payload pointer 16, usable capacity 16 ≥ 0),
`brealloc 16 0` returns `none`, and the block is free afterwards. -/
theorem C9_counterexample :
    (brealloc 16 0 ((balloc 16 (initHeap 4096 [])).2)).1 = none ∧
    ((brealloc 16 0 ((balloc 16 (initHeap 4096 [])).2)).2).hused 0 = false ∧
    0 ≤ memsize ((balloc 16 (initHeap 4096 [])).2) (16 - MEMOFFSET) := by
  decide

/-- **C9, amended** (restricted to `1 ≤ n`, as the `n = 0` counterexample
forces — `reallocate(p, 0)` is specified to free).  For `1 ≤ n ≤` current
usable capacity, `brealloc p n` returns the same payload address `p`, the
state change is exactly `balloc`'s best-fit split loop on the block plus the
cursor moving to the block following the (possibly split) block, no payload
byte moves, and an immediate second `brealloc p n` returns `p` again and
changes nothing at all. -/
theorem C9_shrink_idempotent (h : Heap) (p sz : Nat)
    (hp : MEMOFFSET ≤ p)
    (hsz : 1 ≤ sz)
    (hfit : sz ≤ memsize h (p - MEMOFFSET)) :
    brealloc p sz h =
      (some p,
        { splitLoopA sz (p - MEMOFFSET) (h.hsize (p - MEMOFFSET) + 1) h with
            next := (p - MEMOFFSET) +
              (splitLoopA sz (p - MEMOFFSET) (h.hsize (p - MEMOFFSET) + 1) h).hsize
                (p - MEMOFFSET) }) ∧
    ((brealloc p sz h).2).mem = h.mem ∧
    brealloc p sz ((brealloc p sz h).2) = (some p, (brealloc p sz h).2) := by
  have hsz0 : sz ≠ 0 := by omega
  have hb : memsize h (p - MEMOFFSET) ≥ sz := hfit
  set b := p - MEMOFFSET with hbdef
  have hpp : b + MEMOFFSET = p := by omega
  have heq : brealloc p sz h =
      (some p,
        { splitLoopR sz b (h.hsize b + 1) h with
            next := b + (splitLoopR sz b (h.hsize b + 1) h).hsize b }) := by
    unfold brealloc
    simp only [hsz0, if_false]
    rw [if_pos hb]
    simp only [hpp]
  have hexit := splitLoopR_exit sz b hsz (h.hsize b + 1) h (by omega) hfit
  set h1 := splitLoopR sz b (h.hsize b + 1) h with h1def
  have hRA : splitLoopR sz b (h.hsize b + 1) h = splitLoopA sz b (h.hsize b + 1) h :=
    splitLoopR_eq_splitLoopA sz b hsz _ h
  have hmem1 : h1.mem = h.mem := splitLoopR_mem sz b _ h
  constructor
  · rw [heq, ← hRA]
  constructor
  · rw [heq]; exact hmem1
  · -- the second call: the block already has best-fit size, so nothing splits
    set h2 : Heap := { h1 with next := b + h1.hsize b } with h2def
    have hh2 : (brealloc p sz h).2 = h2 := by rw [heq]
    rw [hh2]
    have hfit2 : memsize h2 b ≥ sz := hexit.2.1
    have hnos : ∀ fuel, splitLoopR sz b fuel h2 = h2 := by
      intro fuel
      apply splitLoopR_skip
      have : h2.hsize b = h1.hsize b := rfl
      omega
    have heq2 : brealloc p sz h2 =
        (some p, { h2 with next := b + h2.hsize b }) := by
      unfold brealloc
      simp only [hsz0, if_false]
      rw [if_pos hfit2, hnos]
      simp only [hpp]
    rw [heq2]

/-- Witness for C9 (amended): fresh region, `balloc 4080` takes the whole
region as one used 4096-block; `brealloc 16 16` shrinks it down to a
32-block by repeated splitting, returns pointer 16 both times, and the
second call is a no-op. -/
theorem C9_shrink_idempotent_witness :
    brealloc 16 16 ((balloc 4080 (initHeap 4096 [])).2) =
      (some 16,
        { splitLoopA 16 (16 - MEMOFFSET)
            (((balloc 4080 (initHeap 4096 [])).2).hsize (16 - MEMOFFSET) + 1)
            ((balloc 4080 (initHeap 4096 [])).2) with
            next := (16 - MEMOFFSET) +
              (splitLoopA 16 (16 - MEMOFFSET)
                (((balloc 4080 (initHeap 4096 [])).2).hsize (16 - MEMOFFSET) + 1)
                ((balloc 4080 (initHeap 4096 [])).2)).hsize (16 - MEMOFFSET) }) ∧
    ((brealloc 16 16 ((balloc 4080 (initHeap 4096 [])).2)).2).mem =
      ((balloc 4080 (initHeap 4096 [])).2).mem ∧
    brealloc 16 16 ((brealloc 16 16 ((balloc 4080 (initHeap 4096 [])).2)).2) =
      (some 16, (brealloc 16 16 ((balloc 4080 (initHeap 4096 [])).2)).2) :=
  C9_shrink_idempotent ((balloc 4080 (initHeap 4096 [])).2) 16 16
    (by decide) (by decide) (by decide)

/-! ## Claim C3 (counterexample part): coalescing cascades beyond double size -/

/-- Scenario for C3: four 16-byte allocations split the fresh region into
used 32-blocks at 0, 32, 64 (after one split), 96; the blocks at 64 and 96
are buddies of one another (64 is 64-aligned).  The first two allocations
are freed again, so everything except the two buddies is free. -/
def heapC3pre : Heap :=
  bfree 48 (bfree 16
    ((balloc 16 ((balloc 16 ((balloc 16 ((balloc 16 (initHeap 4096 [])).2)).2)).2)).2))

/-- The C3 state after freeing both buddies (payload pointers 80 and 112). -/
def heapC3 : Heap := bfree 112 (bfree 80 heapC3pre)

/-- **C3, counterexample.**  In `heapC3pre` the buddy blocks at offsets 64
and 96 (both size 32, both used) are exactly the claim's configuration.
Freeing both does *not* leave "one free block of double size (64) at the
lower address (64)": coalescing cascades transitively through the already
free surroundings until the whole region is a single free 4096-byte block
at offset 0, and no block of size 64 exists at offset 64. -/
theorem C3_counterexample :
    (heapC3pre.hsize 64 = 32 ∧ heapC3pre.hused 64 = true ∧
     heapC3pre.hsize 96 = 32 ∧ heapC3pre.hused 96 = true) ∧
    heapC3.hsize 0 = 4096 ∧ heapC3.hused 0 = false ∧ heapC3.endp = 4096 ∧
    heapC3.hsize 64 ≠ 64 := by decide

/-! ## Claim C5 (counterexample part): failed growth can move the region bound -/

/-- Scenario for C5: fresh region whose host grants one increment and then
fails; the whole region is allocated, so the next allocation must grow. -/
def heapC5 : Heap := (balloc 4080 (initHeap 4096 [true, false])).2

/-- **C5, counterexample.**  `balloc 8200` scans without success and grows:
the first appended increment is granted (the region bound moves from 4096
to 8192), the second is denied, and the allocation fails.  The claim's
"returns the failure sentinel with the region bounds … unchanged" is false:
the failure sentinel comes back but `end` has moved. -/
theorem C5_counterexample :
    (balloc 8200 heapC5).1 = none ∧ heapC5.endp = 4096 ∧
    ((balloc 8200 heapC5).2).endp = 8192 := by decide

/-! ## Claim C10 (counterexample part): `brealloc` can park the cursor at `end` -/

/-- Scenario for C10: the whole fresh region is allocated as one block, then
shrunk-in-place reallocated to the same size; the block is the last block of
the region, and `brealloc`'s shrink path sets `next = NEXT(block)` without
the wrap-around check `balloc` has. -/
def heapC10 : Heap := (brealloc 16 4080 ((balloc 4080 (initHeap 4096 [])).2)).2

/-- **C10, counterexample.**  After the `brealloc` the cursor `next` equals
`end` (4096): it does not point at a block header strictly inside the
region, contradicting `start ≤ next < end`. -/
theorem C10_counterexample :
    (brealloc 16 4080 ((balloc 4080 (initHeap 4096 [])).2)).1 = some 16 ∧
    heapC10.next = 4096 ∧ heapC10.endp = 4096 := by decide

/-! ## Claim C6: the relocation copy uses a stale block size (code bug) -/

/-- Scenario for C6.  From a fresh region: `balloc 16` (block 0, size 32,
payload 16, the block to be reallocated), `balloc 16` (block 32, payload
48); the caller writes the pattern 171,172 at bytes 48,49, then frees
pointer 48 (block 32 becomes free).  `balloc 20` takes the size-64 block at
64, making the in-place growth of block 0 stop there.  Finally the caller
writes 99 at byte 16.  State right before the reallocation: block 0 (size
32, used, usable 16), its free buddy at 32, a used block at 64, a free
128-block at 128. -/
def heapC6pre : Heap :=
  store 16 99
    ((balloc 20 (bfree 48 (store 49 172 (store 48 171
      ((balloc 16 ((balloc 16 (initHeap 4096 [])).2)).2))))).2)

/-- The C6 state after `brealloc 16 100` (which must relocate: in-place
growth stops at the used block at 64, so the code frees block 0 — coalescing
it with its free buddy into a 64-block — and allocates the 128-block at 128,
returning payload pointer 144). -/
def heapC6 : Heap := (brealloc 16 100 heapC6pre).2

/-- **C6.**  The claim (and §4.5 of the spec) requires the relocation copy
to move exactly `min(old usable size, new size) = min(16, 100) = 16` bytes.
The code instead copies `MEMSIZE(block)` re-reading the old header *after*
`bfree` has coalesced it (here 64−16 = 48 bytes): destination bytes beyond
the first 16 are written, dragging bytes of the freed neighbour block
(the stale pattern 171,172 at source offsets 48,49) into the new payload at
offsets 176,177 — which the claim says must stay untouched (they were 0). -/
theorem C6_stale_size_copy :
    (brealloc 16 100 heapC6pre).1 = some 144 ∧
    memsize heapC6pre 0 = 16 ∧
    heapC6pre.hsize 0 = 32 ∧ heapC6pre.hused 0 = true ∧
    heapC6.mem 144 = 99 ∧
    heapC6pre.mem 176 = 0 ∧ heapC6pre.mem 177 = 0 ∧
    heapC6.mem 176 = 171 ∧ heapC6.mem 177 = 172 := by decide

/-! ## Block tiling: the data-model invariant

`Seg h o e l` says the blocks `l` tile the address range `[o, e)` back to
back, each with a header whose recorded size is a power of two `≥`
`MINBLOCKSIZE` and whose offset is a multiple of its own size — the
invariants of §3 of the spec, instantiated to the headers stored in `h`. -/

/-- A block as seen in the tiling: offset, size, `used` flag. -/
structure Blk where
  off : Nat
  size : Nat
  used : Bool
deriving DecidableEq

/-- `n` is a power of two. -/
def isPow2 (n : Nat) : Prop := ∃ k, n = 2 ^ k

theorem isPow2_pos {n : Nat} (hp : isPow2 n) : 0 < n := by
  obtain ⟨k, rfl⟩ := hp; exact Nat.pos_pow_of_pos k (by omega)

theorem isPow2_double {n : Nat} (hp : isPow2 n) : isPow2 (n * 2) := by
  obtain ⟨k, rfl⟩ := hp; exact ⟨k + 1, by ring⟩

theorem isPow2_half {n : Nat} (hp : isPow2 n) (hn : 2 ≤ n) : isPow2 (n / 2) := by
  obtain ⟨k, rfl⟩ := hp
  cases k with
  | zero => omega
  | succ k => exact ⟨k, by omega⟩

/-- Among powers of two, smaller divides larger. -/
theorem isPow2_dvd {a b : Nat} (ha : isPow2 a) (hb : isPow2 b) (hab : a ≤ b) : a ∣ b := by
  obtain ⟨i, rfl⟩ := ha
  obtain ⟨j, rfl⟩ := hb
  exact pow_dvd_pow 2 ((Nat.pow_le_pow_iff_right (by omega)).mp hab)

/-- A power of two strictly above half of another power of two is at least it. -/
theorem isPow2_gt_half {a b : Nat} (ha : isPow2 a) (hb : isPow2 b) (h2 : 2 ≤ b)
    (hab : b / 2 < a) : b ≤ a := by
  obtain ⟨i, rfl⟩ := ha
  obtain ⟨j, rfl⟩ := hb
  have hj : 1 ≤ j := by
    by_contra hx
    have hj0 : j = 0 := by omega
    subst hj0
    simp at h2
  have hhalf : (2 : Nat) ^ j / 2 = 2 ^ (j - 1) := by
    conv_lhs => rw [show j = (j - 1) + 1 by omega]
    rw [pow_succ, Nat.mul_div_cancel _ (by omega)]
  rw [hhalf] at hab
  have hji : j - 1 < i := (Nat.pow_lt_pow_iff_right (by omega)).mp hab
  exact Nat.pow_le_pow_right (by omega) (by omega)

/-- The tiling predicate. -/
inductive Seg (h : Heap) : Nat → Nat → List Blk → Prop where
  | nil (o : Nat) : Seg h o o []
  | cons {o e : Nat} {s : Nat} {u : Bool} {l : List Blk}
      (hs : h.hsize o = s) (hu : h.hused o = u)
      (hp : isPow2 s) (h16 : MINBLOCKSIZE ≤ s) (hal : o % s = 0)
      (hle : o + s ≤ e) (tl : Seg h (o + s) e l) :
      Seg h o e (⟨o, s, u⟩ :: l)

theorem Seg.le {h : Heap} {o e : Nat} {l : List Blk} (hs : Seg h o e l) : o ≤ e := by
  induction hs with
  | nil => exact le_refl _
  | cons hs hu hp h16 hal hle tl ih => omega

theorem Seg.nil_eq {h : Heap} {o e : Nat} (hs : Seg h o e []) : o = e := by
  cases hs; rfl

/-- Facts carried by each tiling member. -/
theorem Seg.mem_facts {h : Heap} {o e : Nat} {l : List Blk} (hs : Seg h o e l) :
    ∀ blk ∈ l, h.hsize blk.off = blk.size ∧ h.hused blk.off = blk.used ∧
      isPow2 blk.size ∧ MINBLOCKSIZE ≤ blk.size ∧ blk.off % blk.size = 0 ∧
      o ≤ blk.off ∧ blk.off + blk.size ≤ e := by
  induction hs with
  | nil => intro blk hblk; simp at hblk
  | cons hs hu hp h16 hal hle tl ih =>
    intro blk hblk
    rcases List.mem_cons.mp hblk with hhd | htl
    · subst hhd
      exact ⟨hs, hu, hp, h16, hal, le_refl _, hle⟩
    · have := ih blk htl
      refine ⟨this.1, this.2.1, this.2.2.1, this.2.2.2.1, this.2.2.2.2.1, by omega,
        this.2.2.2.2.2.2⟩

/-- Concatenating tilings of adjacent ranges. -/
theorem Seg.append {h : Heap} {o m e : Nat} {l₁ l₂ : List Blk}
    (h1 : Seg h o m l₁) (h2 : Seg h m e l₂) : Seg h o e (l₁ ++ l₂) := by
  induction h1 with
  | nil => simpa using h2
  | cons hs hu hp h16 hal hle tl ih =>
    exact Seg.cons hs hu hp h16 hal (by have := h2.le; omega) (ih h2)

/-- Splitting a tiling at a list decomposition. -/
theorem Seg.append_inv {h : Heap} {o e : Nat} :
    ∀ {l₁ l₂ : List Blk}, Seg h o e (l₁ ++ l₂) →
      ∃ m, Seg h o m l₁ ∧ Seg h m e l₂ := by
  intro l₁
  induction l₁ generalizing o with
  | nil => intro l₂ hs; exact ⟨o, Seg.nil o, by simpa using hs⟩
  | cons blk l₁' ih =>
    intro l₂ hs
    cases hs with
    | cons hsz hu hp h16 hal hle tl =>
      obtain ⟨m, hm1, hm2⟩ := ih tl
      exact ⟨m, Seg.cons hsz hu hp h16 hal (by have := hm1.le; omega) hm1, hm2⟩

/-- A tiling only looks at headers of its member blocks, so any heap that
agrees there carries the same tiling. -/
theorem Seg.frame {h h' : Heap} {o e : Nat} {l : List Blk} (hs : Seg h o e l)
    (hagree : ∀ blk ∈ l, h'.hsize blk.off = h.hsize blk.off ∧
      h'.hused blk.off = h.hused blk.off) : Seg h' o e l := by
  induction hs with
  | nil => exact Seg.nil _
  | cons hs hu hp h16 hal hle tl ih =>
    rename_i o' e' s' u' l'
    refine Seg.cons ?_ ?_ hp h16 hal hle (ih ?_)
    · exact ((hagree ⟨o', s', u'⟩ (List.mem_cons_self _ _)).1).trans hs
    · exact ((hagree ⟨o', s', u'⟩ (List.mem_cons_self _ _)).2).trans hu
    · intro blk hblk; exact hagree blk (List.mem_cons_of_mem _ hblk)

/-- Each address inside a tiled range lies inside some member block. -/
theorem Seg.containing {h : Heap} {o e : Nat} {l : List Blk} (hs : Seg h o e l) :
    ∀ x, o ≤ x → x < e → ∃ blk ∈ l, blk.off ≤ x ∧ x < blk.off + blk.size := by
  induction hs with
  | nil => intro x h1 h2; omega
  | cons hs hu hp h16 hal hle tl ih =>
    intro x h1 h2
    rename_i o e s u l'
    by_cases hx : x < o + s
    · exact ⟨⟨o, s, u⟩, by simp, h1, hx⟩
    · obtain ⟨blk, hblk, hb1, hb2⟩ := ih x (by omega) h2
      exact ⟨blk, by simp [hblk], hb1, hb2⟩

/-- Member blocks are disjoint and in address order. -/
theorem Seg.ordered {h : Heap} {o e : Nat} {l : List Blk} (hs : Seg h o e l) :
    l.Pairwise (fun x y => x.off + x.size ≤ y.off) := by
  induction hs with
  | nil => exact List.Pairwise.nil
  | cons hs hu hp h16 hal hle tl ih =>
    refine List.Pairwise.cons ?_ ih
    intro y hy
    have := tl.mem_facts y hy
    simp only []
    omega

/-- The length of a tiling is bounded by the width of its range. -/
theorem Seg.length_le {h : Heap} {o e : Nat} {l : List Blk} (hs : Seg h o e l) :
    l.length ≤ e - o := by
  induction hs with
  | nil => simp
  | cons hs hu hp h16 hal hle tl ih =>
    have h16' : MINBLOCKSIZE ≥ 1 := by unfold MINBLOCKSIZE; omega
    simp only [List.length_cons]
    omega

/-- Decompose a tiling at a member block. -/
theorem Seg.mem_decomp {h : Heap} {o e : Nat} {l : List Blk} (hs : Seg h o e l) :
    ∀ blk ∈ l, ∃ l₁ l₂, l = l₁ ++ blk :: l₂ ∧ Seg h o blk.off l₁ ∧
      Seg h (blk.off + blk.size) e l₂ := by
  induction hs with
  | nil => intro blk hblk; simp at hblk
  | cons hs hu hp h16 hal hle tl ih =>
    intro blk hblk
    rename_i o e s u l'
    rcases List.mem_cons.mp hblk with hhd | htl
    · subst hhd
      exact ⟨[], l', rfl, Seg.nil o, by simpa using tl⟩
    · obtain ⟨l₁, l₂, heq, hseg1, hseg2⟩ := ih blk htl
      exact ⟨⟨o, s, u⟩ :: l₁, l₂, by simp [heq],
        Seg.cons hs hu hp h16 hal (by have := hseg1.le; omega) hseg1, hseg2⟩

/-- A member block ending exactly at the range end is the last block. -/
theorem Seg.last_decomp {h : Heap} {o e : Nat} {l : List Blk} (hs : Seg h o e l)
    (blk : Blk) (hblk : blk ∈ l) (hend : blk.off + blk.size = e) :
    ∃ l₁, l = l₁ ++ [blk] ∧ Seg h o blk.off l₁ := by
  obtain ⟨l₁, l₂, heq, hseg1, hseg2⟩ := hs.mem_decomp blk hblk
  rw [hend] at hseg2
  cases hseg2 with
  | nil => exact ⟨l₁, heq, hseg1⟩
  | cons hs' hu' hp' h16' hal' hle' tl' =>
    exfalso
    unfold MINBLOCKSIZE at h16'
    omega

/-- The head block of a nonempty tiling starts the range. -/
theorem Seg.head_off {h : Heap} {o e : Nat} {blk : Blk} {l : List Blk}
    (hs : Seg h o e (blk :: l)) : blk.off = o := by
  cases hs; rfl

/-! ## The allocator invariant -/

/-- The allocator's state invariant: the region `[0, endp)` is tiled by `l`;
the cursor points at a block header (or, after some `brealloc` paths, at
`end`); headers at or beyond `end` have never been written (`sbrk` memory is
zero-filled); and the region size is a power of two, at least one block big. -/
structure AllocInv (h : Heap) (l : List Blk) : Prop where
  seg : Seg h 0 h.endp l
  nx : h.next = h.endp ∨ ∃ blk ∈ l, blk.off = h.next
  high : ∀ o, h.endp ≤ o → h.hsize o = 0
  pend : isPow2 h.endp
  e16 : MINBLOCKSIZE ≤ h.endp

/-- The strict form of the cursor condition (`balloc` and `bfree` maintain
it; `brealloc` may leave the cursor at `end`). -/
def nextAt (h : Heap) (l : List Blk) : Prop := ∃ blk ∈ l, blk.off = h.next

/-- The freshly initialized region satisfies the invariant (one free block). -/
theorem initHeap_inv (B : Nat) (gs : List Bool) (hp : isPow2 B)
    (h16 : MINBLOCKSIZE ≤ B) : AllocInv (initHeap B gs) [⟨0, B, false⟩] where
  seg := by
    refine Seg.cons (by simp [initHeap]) (by simp [initHeap]) hp h16 (by simp)
      (by simp [initHeap]) ?_
    have : (0 : Nat) + B = B := by omega
    rw [this]
    exact Seg.nil B
  nx := Or.inr ⟨⟨0, B, false⟩, by simp, rfl⟩
  high := by
    intro o ho
    have hB : 0 < B := isPow2_pos hp
    simp only [initHeap] at ho ⊢
    rw [if_neg (by omega)]
  pend := hp
  e16 := h16

theorem initHeap_nextAt (B : Nat) (gs : List Bool) :
    nextAt (initHeap B gs) [⟨0, B, false⟩] := ⟨⟨0, B, false⟩, by simp, rfl⟩

/-! ## The left-buddy address computation hits a block header

If a block-aligned address `B` of size class `S` is *not* aligned to `2S`
(so `join`/`brealloc` look left), then `B - S` is the offset of a tiling
block below `B`, of size at most `S`.  This is the arithmetic heart of the
buddy scheme: buddy addresses are always headers, never block interiors. -/
theorem buddy_left (h : Heap) {B S : Nat} {l₁ : List Blk}
    (hseg : Seg h 0 B l₁) (hp : isPow2 S) (h16 : MINBLOCKSIZE ≤ S)
    (hal : B % S = 0) (hmis : B % (S * 2) ≠ 0) :
    S ≤ B ∧ ∃ blkc ∈ l₁, blkc.off = B - S ∧ blkc.size ≤ S := by
  have hS0 : 0 < S := isPow2_pos hp
  obtain ⟨q, hq⟩ := Nat.dvd_of_mod_eq_zero hal
  have hqodd : q % 2 = 1 := by
    rcases Nat.mod_two_eq_zero_or_one q with h0 | h1
    · exfalso; apply hmis; rw [hq, Nat.mul_mod_mul_left, h0, Nat.mul_zero]
    · exact h1
  have hBS : B % (S * 2) = S := by
    rw [hq, Nat.mul_mod_mul_left, hqodd, Nat.mul_one]
  have hSleB : S ≤ B := by
    have := Nat.mod_le B (S * 2); omega
  refine ⟨hSleB, ?_⟩
  obtain ⟨blkc, hmem, hc1, hc2⟩ := hseg.containing (B - S) (by omega) (by omega)
  have hf := hseg.mem_facts blkc hmem
  obtain ⟨hfs, hfu, hfp, hf16, hfal, hflo, hfhi⟩ := hf
  have hsle : blkc.size ≤ S := by
    by_contra hgt
    push_neg at hgt
    have h2S : S * 2 ≤ blkc.size := by
      obtain ⟨k, hk⟩ := isPow2_dvd hp hfp (by omega)
      have hk2 : 2 ≤ k := by
        by_contra hx
        have hk1 : k ≤ 1 := by omega
        have : S * k ≤ S * 1 := Nat.mul_le_mul_left S hk1
        omega
      calc S * 2 ≤ S * k := Nat.mul_le_mul_left S hk2
        _ = blkc.size := hk.symm
    have hdvd2 : S * 2 ∣ blkc.size := isPow2_dvd (isPow2_double hp) hfp h2S
    have hdvdoff : S * 2 ∣ blkc.off :=
      dvd_trans hdvd2 (Nat.dvd_of_mod_eq_zero hfal)
    obtain ⟨n, hn⟩ := Dvd.dvd.add hdvdoff hdvd2
    have hd : B - (blkc.off + blkc.size) < S := by omega
    have hBexp : B = S * 2 * n + (B - (blkc.off + blkc.size)) := by omega
    have : B % (S * 2) = B - (blkc.off + blkc.size) := by
      conv_lhs => rw [hBexp]
      rw [Nat.mul_add_mod]
      exact Nat.mod_eq_of_lt (by omega)
    omega
  have hdvds : blkc.size ∣ S := isPow2_dvd hfp hp hsle
  have hdvdB : blkc.size ∣ B := dvd_trans hdvds (Nat.dvd_of_mod_eq_zero hal)
  have hdvdBS : blkc.size ∣ B - S := Nat.dvd_sub' hdvdB hdvds
  have hoffd : blkc.size ∣ blkc.off := Nat.dvd_of_mod_eq_zero hfal
  obtain ⟨a3, ha3⟩ := Nat.dvd_sub' hdvdBS hoffd
  have ha3lt : B - S - blkc.off < blkc.size := by omega
  have ha30 : a3 = 0 := by
    by_contra hx
    have h1 : 1 ≤ a3 := by omega
    have : blkc.size * 1 ≤ blkc.size * a3 := Nat.mul_le_mul_left _ h1
    omega
  rw [ha30, Nat.mul_zero] at ha3
  exact ⟨blkc, hmem, by omega, hsle⟩

/-! ## Characterizing the best-fit split loop -/

theorem isPow2_halves {s : Nat} (hp : isPow2 s) (h2 : 2 ≤ s) : s / 2 + s / 2 = s := by
  obtain ⟨k, rfl⟩ := hp
  cases k with
  | zero => omega
  | succ k' =>
    have : (2 : Nat) ^ (k' + 1) / 2 = 2 ^ k' := by
      rw [pow_succ, Nat.mul_div_cancel _ (by omega)]
    rw [this, pow_succ]
    omega

theorem isPow2_ge32 {s : Nat} (hp : isPow2 s) (h17 : MINBLOCKSIZE < s) : 32 ≤ s := by
  unfold MINBLOCKSIZE at h17
  exact isPow2_gt_half hp ⟨5, rfl⟩ (by omega) (by omega)

theorem split_hsize_upper (b : Nat) (h : Heap) :
    (split b h).hsize (b + h.hsize b / 2) = h.hsize b / 2 := by
  simp [split, setHsize, setHused]

theorem split_hused_upper (b : Nat) (h : Heap) :
    (split b h).hused (b + h.hsize b / 2) = false := by
  simp [split, setHsize, setHused]

theorem split_hused_self (b : Nat) (h : Heap) (hpos : 0 < h.hsize b / 2) :
    (split b h).hused b = h.hused b := by
  simp only [split, setHsize, setHused]
  rw [if_neg (by omega)]

theorem split_frame (b : Nat) (h : Heap) (o : Nat) (h1 : o ≠ b)
    (h2 : o ≠ b + h.hsize b / 2) :
    (split b h).hsize o = h.hsize o ∧ (split b h).hused o = h.hused o := by
  simp only [split, setHsize, setHused]
  rw [if_neg h2, if_neg h1, if_neg h2]
  exact ⟨rfl, rfl⟩

theorem splitLoopA_skip (sz b fuel : Nat) (h : Heap)
    (hg : ¬ (sz ≤ h.hsize b / 2 - MEMOFFSET ∧ MINBLOCKSIZE < h.hsize b)) :
    splitLoopA sz b fuel h = h := by
  cases fuel with
  | zero => rfl
  | succ n => simp only [splitLoopA]; rw [if_neg hg]

/-- Full characterization of `balloc`'s best-fit split loop on a block whose
header at `b` records a well-formed size: everything outside `[b, b+size)`
is untouched; the loop exits exactly when halving would no longer fit or hit
the minimum size; the block keeps its offset, `used` flag, alignment and
power-of-two size; and the upper halves it peeled off tile the rest of the
original span as free blocks. -/
theorem splitLoopA_spec (sz b : Nat) :
    ∀ (fuel : Nat) (h : Heap), h.hsize b < fuel →
      isPow2 (h.hsize b) → MINBLOCKSIZE ≤ h.hsize b → b % h.hsize b = 0 →
      (∀ o, o < b ∨ b + h.hsize b ≤ o →
        (splitLoopA sz b fuel h).hsize o = h.hsize o ∧
        (splitLoopA sz b fuel h).hused o = h.hused o) ∧
      (splitLoopA sz b fuel h).endp = h.endp ∧
      (splitLoopA sz b fuel h).next = h.next ∧
      (splitLoopA sz b fuel h).sbrks = h.sbrks ∧
      (splitLoopA sz b fuel h).hused b = h.hused b ∧
      isPow2 ((splitLoopA sz b fuel h).hsize b) ∧
      MINBLOCKSIZE ≤ (splitLoopA sz b fuel h).hsize b ∧
      (splitLoopA sz b fuel h).hsize b ≤ h.hsize b ∧
      b % (splitLoopA sz b fuel h).hsize b = 0 ∧
      (sz ≤ memsize h b → sz ≤ memsize (splitLoopA sz b fuel h) b) ∧
      ¬ (sz ≤ (splitLoopA sz b fuel h).hsize b / 2 - MEMOFFSET ∧
         MINBLOCKSIZE < (splitLoopA sz b fuel h).hsize b) ∧
      ∃ tl, Seg (splitLoopA sz b fuel h) (b + (splitLoopA sz b fuel h).hsize b)
          (b + h.hsize b) tl ∧ ∀ x ∈ tl, x.used = false := by
  intro fuel
  induction fuel with
  | zero => intro h hf _ _ _; omega
  | succ n ih =>
    intro h hf hp h16 hal
    by_cases hg : sz ≤ h.hsize b / 2 - MEMOFFSET ∧ MINBLOCKSIZE < h.hsize b
    · have h32 : 32 ≤ h.hsize b := isPow2_ge32 hp hg.2
      have hhalfpos : 0 < h.hsize b / 2 := by omega
      have hstep : splitLoopA sz b (n + 1) h = splitLoopA sz b n (split b h) := by
        simp only [splitLoopA]; rw [if_pos hg]
      have hs1 : (split b h).hsize b = h.hsize b / 2 := split_hsize_self b h hhalfpos
      have hp1 : isPow2 ((split b h).hsize b) := by
        rw [hs1]; exact isPow2_half hp (by omega)
      have h161 : MINBLOCKSIZE ≤ (split b h).hsize b := by
        rw [hs1]; unfold MINBLOCKSIZE; omega
      have hdvd : h.hsize b / 2 ∣ h.hsize b := by
        have := isPow2_halves hp (by omega)
        exact ⟨2, by omega⟩
      have hal1 : b % (split b h).hsize b = 0 := by
        rw [hs1]
        have hdb : h.hsize b / 2 ∣ b :=
          dvd_trans hdvd (Nat.dvd_of_mod_eq_zero hal)
        exact Nat.mod_eq_zero_of_dvd hdb
      have hf1 : (split b h).hsize b < n := by omega
      obtain ⟨frame1, endp1, next1, sbrks1, used1, p1, m1, le1, al1, fit1, exit1,
        tl1, seg1, free1⟩ := ih (split b h) hf1 hp1 h161 hal1
      rw [hstep]
      have frameS : ∀ o, o < b ∨ b + h.hsize b ≤ o →
          (splitLoopA sz b n (split b h)).hsize o = h.hsize o ∧
          (splitLoopA sz b n (split b h)).hused o = h.hused o := by
        intro o ho
        have hne1 : o ≠ b := by omega
        have hne2 : o ≠ b + h.hsize b / 2 := by omega
        have hsp := split_frame b h o hne1 hne2
        have := frame1 o (by omega)
        exact ⟨this.1.trans hsp.1, this.2.trans hsp.2⟩
      refine ⟨frameS, endp1, next1, sbrks1, ?_, p1, m1, by omega, al1, ?_, exit1,
        ?_⟩
      · rw [used1]; exact split_hused_self b h hhalfpos
      · intro hmem
        apply fit1
        unfold memsize
        rw [hs1]
        unfold MEMOFFSET
        unfold MEMOFFSET MINBLOCKSIZE at hg
        omega
      · -- tail = loop tail ++ the upper half created by this split
        have hup1 : (splitLoopA sz b n (split b h)).hsize (b + h.hsize b / 2) =
            h.hsize b / 2 := by
          have := frame1 (b + h.hsize b / 2) (by omega)
          rw [this.1, split_hsize_upper]
        have hup2 : (splitLoopA sz b n (split b h)).hused (b + h.hsize b / 2) =
            false := by
          have := frame1 (b + h.hsize b / 2) (by omega)
          rw [this.2, split_hused_upper]
        have halup : (b + h.hsize b / 2) % (h.hsize b / 2) = 0 := by
          exact Nat.mod_eq_zero_of_dvd
            (Dvd.dvd.add (dvd_trans hdvd (Nat.dvd_of_mod_eq_zero hal)) (dvd_refl _))
        have hhalves := isPow2_halves hp (by omega)
        have segU : Seg (splitLoopA sz b n (split b h)) (b + h.hsize b / 2)
            (b + h.hsize b) [⟨b + h.hsize b / 2, h.hsize b / 2, false⟩] := by
          refine Seg.cons hup1 hup2 (isPow2_half hp (by omega))
            (by unfold MINBLOCKSIZE; omega) halup (by omega) ?_
          have : b + h.hsize b / 2 + h.hsize b / 2 = b + h.hsize b := by omega
          rw [this]
          exact Seg.nil _
        refine ⟨tl1 ++ [⟨b + h.hsize b / 2, h.hsize b / 2, false⟩], ?_, ?_⟩
        · rw [hs1] at seg1
          exact Seg.append seg1 segU
        · intro x hx
          rcases List.mem_append.mp hx with hA | hB
          · exact free1 x hA
          · simp at hB; rw [hB]
    · rw [splitLoopA_skip sz b (n+1) h hg]
      refine ⟨fun o ho => ⟨rfl, rfl⟩, rfl, rfl, rfl, rfl, hp, h16, le_refl _, hal,
        fun hx => hx, hg, [], ?_, by intro x hx; simp at hx⟩
      exact Seg.nil _

/-! ## Characterizing the circular first-fit scan -/

/-- Splitting a list at the first element satisfying `P`. -/
theorem first_sat {α : Type} (P : α → Prop) :
    ∀ (A : List α), (∃ x ∈ A, P x) →
      ∃ pre y post, A = pre ++ y :: post ∧ P y ∧ ∀ x ∈ pre, ¬ P x := by
  intro A
  induction A with
  | nil => intro hx; simp at hx
  | cons a A' ih =>
    intro hx
    by_cases ha : P a
    · exact ⟨[], a, A', rfl, ha, by intro x hxx; simp at hxx⟩
    · have : ∃ x ∈ A', P x := by
        obtain ⟨x, hx1, hx2⟩ := hx
        rcases List.mem_cons.mp hx1 with h1 | h2
        · subst h1; exact absurd hx2 ha
        · exact ⟨x, h2, hx2⟩
      obtain ⟨pre, y, post, heq, hy, hpre⟩ := ih this
      refine ⟨a :: pre, y, post, by simp [heq], hy, ?_⟩
      intro x hxx
      rcases List.mem_cons.mp hxx with h1 | h2
      · subst h1; exact ha
      · exact hpre x h2

/-- Scanning over a run of blocks in which nothing fits walks to the end of
the run: it then wraps (`end` to `start`) and stops with `wrapped` if the
address after the run is the cursor, otherwise continuing with
correspondingly less fuel. -/
theorem scan_skip (sz : Nat) (h : Heap) :
    ∀ (l₂ : List Blk) (blk : Blk) (o m fuel : Nat),
      Seg h o m (blk :: l₂) → m ≤ h.endp →
      (∀ x ∈ blk :: l₂, memsize h x.off < sz ∨ h.hused x.off = true) →
      (∀ x ∈ l₂, x.off ≠ h.next) →
      scanLoop sz h ((blk :: l₂).length + fuel) o =
        (if (if m = h.endp then 0 else m) = h.next then ScanRes.wrapped
         else scanLoop sz h fuel (if m = h.endp then 0 else m)) := by
  intro l₂
  induction l₂ with
  | nil =>
    intro blk o m fuel hseg hme hnofit hnx
    cases hseg with
    | cons hs hu hp h16 hal hle tl =>
      rename_i s u
      have hm : o + s = m := tl.nil_eq
      have hcond : memsize h o < sz ∨ h.hused o = true := by
        have := hnofit ⟨o, s, u⟩ (by simp)
        simpa using this
      have hlen : ([⟨o, s, u⟩] : List Blk).length + fuel = fuel + 1 := by
        simp only [List.length_cons, List.length_nil]; omega
      rw [hlen]
      simp only [scanLoop]
      rw [if_pos hcond, hs, hm]
  | cons y l₂' ih =>
    intro blk o m fuel hseg hme hnofit hnx
    cases hseg with
    | cons hs hu hp h16 hal hle tl =>
      rename_i s u
      have hyoff : y.off = o + s := tl.head_off
      have hyfacts := tl.mem_facts y (by simp)
      have hylt : y.off < m := by
        have := hyfacts.2.2.2.2.2.2
        have h16' := hyfacts.2.2.2.1
        unfold MINBLOCKSIZE at h16'
        omega
      have hcond : memsize h o < sz ∨ h.hused o = true := by
        have := hnofit ⟨o, s, u⟩ (by simp)
        simpa using this
      have hlen : ((⟨o, s, u⟩ : Blk) :: y :: l₂').length + fuel =
          ((y :: l₂').length + fuel) + 1 := by
        simp only [List.length_cons]; omega
      rw [hlen]
      simp only [scanLoop]
      rw [if_pos hcond, hs]
      have hb1 : o + s ≠ h.endp := by omega
      rw [if_neg hb1]
      have hb2 : ¬ (o + s = h.next) := by
        have := hnx y (by simp)
        omega
      rw [if_neg hb2]
      have hrest := ih y (o + s) m fuel tl hme
        (by intro x hx; exact hnofit x (by simp [hx]))
        (by intro x hx; exact hnx x (by simp [hx]))
      rw [← hyoff, hyoff] at hrest
      exact hrest

/-- Scanning from the start of a run whose first fitting free block is `fb`
returns `found fb.off`.  The side condition says that no block of the run
other than its very first sits at the cursor (true for the runs the scan
actually walks: offsets past the start never revisit the cursor before the
wrap). -/
theorem scan_find (sz : Nat) (h : Heap) :
    ∀ (pre : List Blk) (fb : Blk) (post : List Blk) (o m fuel : Nat),
      Seg h o m (pre ++ fb :: post) → m ≤ h.endp →
      (∀ x ∈ pre, memsize h x.off < sz ∨ h.hused x.off = true) →
      ¬ (memsize h fb.off < sz ∨ h.hused fb.off = true) →
      (∀ x ∈ pre ++ [fb], x.off = o ∨ x.off ≠ h.next) →
      pre.length < fuel →
      scanLoop sz h fuel o = ScanRes.found fb.off := by
  intro pre
  induction pre with
  | nil =>
    intro fb post o m fuel hseg hme hpre hfb hnx hfuel
    have hoff : fb.off = o := by
      simpa using (Seg.head_off (by simpa using hseg))
    cases fuel with
    | zero => omega
    | succ n =>
      simp only [scanLoop]
      rw [hoff] at hfb
      rw [if_neg hfb, hoff]
  | cons y pre' ih =>
    intro fb post o m fuel hseg hme hpre hfb hnx hfuel
    have hseg' : Seg h o m (y :: (pre' ++ fb :: post)) := by simpa using hseg
    have hyo : y.off = o := Seg.head_off hseg'
    have hycond : memsize h o < sz ∨ h.hused o = true := by
      have := hpre y (by simp)
      rw [hyo] at this
      exact this
    cases hseg' with
    | cons hs hu hp h16 hal hle tl =>
      rename_i s u
      have h16' : 16 ≤ s := by unfold MINBLOCKSIZE at h16; exact h16
      -- the rest of the run sits at o + s and below m
      have hfbfacts := tl.mem_facts fb (by simp)
      have hfblt : fb.off < m := by
        have := hfbfacts.2.2.2.2.2.2
        have := hfbfacts.2.2.2.1
        unfold MINBLOCKSIZE at this
        omega
      have hfblo : o + s ≤ fb.off := hfbfacts.2.2.2.2.2.1
      cases fuel with
      | zero => omega
      | succ n =>
        simp only [scanLoop]
        rw [if_pos hycond, hs]
        have hb1 : o + s ≠ h.endp := by omega
        rw [if_neg hb1]
        have hosnext : ¬ (o + s = h.next) := by
          intro he
          cases hpre' : pre' with
          | nil =>
            have : fb.off = o + s := by
              rw [hpre'] at tl
              simpa using (Seg.head_off (by simpa using tl))
            have := hnx fb (by simp)
            omega
          | cons p0 prest =>
            have hp0 : p0.off = o + s := by
              rw [hpre'] at tl
              simpa using (Seg.head_off (by simpa using tl))
            have := hnx p0 (by simp [hpre'])
            omega
        rw [if_neg hosnext]
        apply ih fb post (o + s) m n tl hme
        · intro x hx; exact hpre x (by simp [hx])
        · exact hfb
        · intro x hx
          have hxmem : x ∈ pre' ++ fb :: post := by
            rcases List.mem_append.mp hx with hA | hB
            · exact List.mem_append.mpr (Or.inl hA)
            · simp at hB; subst hB; exact List.mem_append.mpr (Or.inr (by simp))
          have hxlo : o + s ≤ x.off := (tl.mem_facts x hxmem).2.2.2.2.2.1
          by_cases hxz : x.off = o + s
          · exact Or.inl hxz
          · right
            have horig := hnx x (by
              rcases List.mem_append.mp hx with hA | hB
              · simp [hA]
              · simp at hB; simp [hB])
            rcases horig with h1 | h2
            · omega
            · exact h2
        · simp at hfuel ⊢; omega

theorem splitLoopA_endp (sz b : Nat) :
    ∀ (fuel : Nat) (h : Heap), (splitLoopA sz b fuel h).endp = h.endp := by
  intro fuel
  induction fuel with
  | zero => intro h; rfl
  | succ n ih =>
    intro h
    unfold splitLoopA
    split
    · rw [ih]; rfl
    · rfl

theorem ballocAt_endp (sz b : Nat) (h : Heap) :
    ((ballocAt sz b h).2).endp = h.endp := by
  unfold ballocAt
  simp only [setHused]
  exact splitLoopA_endp sz b _ h

theorem ballocAt_isSome (sz b : Nat) (h : Heap) :
    (ballocAt sz b h).1 = some (b + MEMOFFSET) := rfl

theorem scanLoop_found_step (sz : Nat) (h : Heap) (fuel b : Nat)
    (hc : ¬ (memsize h b < sz ∨ h.hused b = true)) :
    scanLoop sz h (fuel + 1) b = ScanRes.found b := by
  simp only [scanLoop]; rw [if_neg hc]

theorem scanLoop_adv_step (sz : Nat) (h : Heap) (fuel b : Nat)
    (hc : memsize h b < sz ∨ h.hused b = true) :
    scanLoop sz h (fuel + 1) b =
      (if (if b + h.hsize b = h.endp then 0 else b + h.hsize b) = h.next
       then ScanRes.wrapped
       else scanLoop sz h fuel (if b + h.hsize b = h.endp then 0 else b + h.hsize b)) := by
  simp only [scanLoop]; rw [if_pos hc]

/-- Whatever block the scan reports found is a free, fitting block of the
tiling — or the degenerate `size = 0` pseudo-block at `end` that only a
zero-byte request can "find" when the cursor was left at `end`. -/
theorem scan_found_valid (sz : Nat) (h : Heap) (l : List Blk)
    (hseg : Seg h 0 h.endp l) (hhigh : ∀ o, h.endp ≤ o → h.hsize o = 0)
    (he16 : MINBLOCKSIZE ≤ h.endp) :
    ∀ (fuel b₀ b : Nat), (b₀ = h.endp ∨ ∃ blk ∈ l, blk.off = b₀) →
      scanLoop sz h fuel b₀ = ScanRes.found b →
      (∃ blk ∈ l, blk.off = b ∧ blk.used = false ∧ sz + MEMOFFSET ≤ blk.size) ∨
      (b = h.endp ∧ sz = 0 ∧ h.hused h.endp = false) := by
  have hlne : ∃ hd tlx, l = hd :: tlx ∧ hd.off = 0 := by
    cases l with
    | nil =>
      have := hseg.nil_eq
      unfold MINBLOCKSIZE at he16
      omega
    | cons hd tlx => exact ⟨hd, tlx, rfl, Seg.head_off hseg⟩
  intro fuel
  induction fuel with
  | zero => intro b₀ b h₀ hres; simp [scanLoop] at hres
  | succ n ih =>
    intro b₀ b h₀ hres
    rcases h₀ with hb0e | ⟨blk, hmem, hboff⟩
    · subst hb0e
      have hsz0 : h.hsize h.endp = 0 := hhigh h.endp (le_refl _)
      have hmsz : memsize h h.endp = 0 := by
        simp [memsize, hsz0, MEMOFFSET]
      simp only [scanLoop] at hres
      by_cases hc : memsize h h.endp < sz ∨ h.hused h.endp = true
      · rw [if_pos hc, hsz0] at hres
        have hwrap : h.endp + 0 = h.endp := by omega
        rw [hwrap, if_pos rfl] at hres
        by_cases hnx0 : (0 : Nat) = h.next
        · rw [if_pos hnx0] at hres; cases hres
        · rw [if_neg hnx0] at hres
          obtain ⟨hd, tlx, hl, hhd⟩ := hlne
          exact ih 0 b (Or.inr ⟨hd, by rw [hl]; simp, hhd⟩) hres
      · rw [if_neg hc] at hres
        push_neg at hc
        have hsz : sz = 0 := by
          have h1 := hc.1
          rw [hmsz] at h1
          omega
        cases hres
        exact Or.inr ⟨rfl, hsz, by simpa using hc.2⟩
    · have hfacts := hseg.mem_facts blk hmem
      subst hboff
      simp only [scanLoop] at hres
      by_cases hc : memsize h blk.off < sz ∨ h.hused blk.off = true
      · rw [if_pos hc, hfacts.1] at hres
        obtain ⟨l₁, l₂, hdec, hs1, hs2⟩ := hseg.mem_decomp blk hmem
        cases l₂ with
        | nil =>
          have hend : blk.off + blk.size = h.endp := hs2.nil_eq
          rw [if_pos hend] at hres
          by_cases hnx0 : (0 : Nat) = h.next
          · rw [if_pos hnx0] at hres; cases hres
          · rw [if_neg hnx0] at hres
            obtain ⟨hd, tlx, hl, hhd⟩ := hlne
            exact ih 0 b (Or.inr ⟨hd, by rw [hl]; simp, hhd⟩) hres
        | cons z l₂' =>
          have hzoff : z.off = blk.off + blk.size := hs2.head_off
          have hzfacts := hs2.mem_facts z (by simp)
          have hzlt : z.off < h.endp := by
            have := hzfacts.2.2.2.2.2.2
            have h16z := hzfacts.2.2.2.1
            unfold MINBLOCKSIZE at h16z
            omega
          have hne : blk.off + blk.size ≠ h.endp := by omega
          rw [if_neg hne] at hres
          by_cases hnxx : blk.off + blk.size = h.next
          · rw [if_pos hnxx] at hres; cases hres
          · rw [if_neg hnxx] at hres
            have hzmem : z ∈ l := by rw [hdec]; simp
            exact ih (blk.off + blk.size) b (Or.inr ⟨z, hzmem, hzoff⟩) hres
      · rw [if_neg hc] at hres
        cases hres
        push_neg at hc
        left
        refine ⟨blk, hmem, rfl, ?_, ?_⟩
        · have : ¬ (h.hused blk.off = true) := hc.2
          rw [hfacts.2.1] at this
          simpa using this
        · have h1 := hc.1
          unfold memsize at h1
          rw [hfacts.1] at h1
          have h16b := hfacts.2.2.2.1
          unfold MINBLOCKSIZE at h16b
          unfold MEMOFFSET at h1 ⊢
          omega

/-- The scan's reject test for the block at offset `b`: too small or in use. -/
def blkMiss (sz : Nat) (h : Heap) (b : Nat) : Prop :=
  memsize h b < sz ∨ h.hused b = true

/-- The scan accepts the block `x`: free and big enough. -/
def blkHit (sz : Nat) (h : Heap) (x : Blk) : Prop := ¬ blkMiss sz h x.off

/-- If some free block of the tiling fits the request, the scan (with the
fuel `balloc` gives it) reports a found block. -/
theorem scan_finds (sz : Nat) (h : Heap) (l : List Blk) (hi : AllocInv h l)
    (hfit : ∃ blk ∈ l, blk.used = false ∧ sz + MEMOFFSET ≤ blk.size) :
    ∃ b, scanLoop sz h (h.endp + 2) h.next = ScanRes.found b := by
  have hlen := hi.seg.length_le
  have he16 : 16 ≤ h.endp := by
    have := hi.e16; unfold MINBLOCKSIZE at this; exact this
  have hfitP : ∃ x ∈ l, blkHit sz h x := by
    obtain ⟨blk, hmem, hufree, hfits⟩ := hfit
    have hfacts := hi.seg.mem_facts blk hmem
    refine ⟨blk, hmem, ?_⟩
    unfold blkHit blkMiss
    push_neg
    constructor
    · unfold memsize
      rw [hfacts.1]
      unfold MEMOFFSET at hfits ⊢
      omega
    · rw [hfacts.2.1, hufree]
      simp
  have hofflt : ∀ x ∈ l, x.off < h.endp := by
    intro x hx
    have := hi.seg.mem_facts x hx
    have h16x := this.2.2.2.1
    unfold MINBLOCKSIZE at h16x
    omega
  rcases hi.nx with hnxe | ⟨blk₀, hmem₀, hoff₀⟩
  · -- cursor parked at `end`: one degenerate step, then a full pass from 0
    have hsz0 : h.hsize h.endp = 0 := hi.high h.endp (le_refl _)
    by_cases hc : memsize h h.endp < sz ∨ h.hused h.endp = true
    · -- step over `end`, wrap to 0, then find within the full tiling
      obtain ⟨pre, fb, post, hdec, hPfb, hPpre⟩ :=
        first_sat (blkHit sz h) l hfitP
      unfold blkHit blkMiss at hPfb hPpre
      refine ⟨fb.off, ?_⟩
      have h22 : h.endp + 2 = (h.endp + 1) + 1 := by omega
      have hstep : scanLoop sz h (h.endp + 2) h.next =
          scanLoop sz h (h.endp + 1) 0 := by
        rw [h22, hnxe, scanLoop_adv_step sz h (h.endp + 1) h.endp hc, hsz0]
        have hwrap : h.endp + 0 = h.endp := by omega
        rw [hwrap, if_pos rfl, if_neg (by omega)]
      rw [hstep]
      apply scan_find sz h pre fb post 0 h.endp (h.endp + 1)
        (by rw [← hdec]; exact hi.seg) (le_refl _)
        (by intro x hx
            exact not_not.mp (hPpre x hx))
        hPfb
        (by intro x hx
            right
            have hxl : x ∈ l := by
              rw [hdec]
              rcases List.mem_append.mp hx with hA | hB
              · simp [hA]
              · simp at hB; simp [hB]
            have := hofflt x hxl
            rw [hnxe]
            omega)
        (by
          have : pre.length ≤ l.length := by
            rw [hdec]; simp
          omega)
    · -- a zero-byte request "finds" the pseudo-block at `end` directly
      refine ⟨h.endp, ?_⟩
      have h22 : h.endp + 2 = (h.endp + 1) + 1 := by omega
      rw [h22, hnxe, scanLoop_found_step sz h (h.endp + 1) h.endp hc]
  · -- cursor at a block: pass over the suffix from the cursor, then the prefix
    obtain ⟨l₁, l₂, hdec, hs1, hs2⟩ := hi.seg.mem_decomp blk₀ hmem₀
    have hfacts₀ := hi.seg.mem_facts blk₀ hmem₀
    have hrunA : Seg h h.next h.endp (blk₀ :: l₂) := by
      rw [← hoff₀]
      exact Seg.cons hfacts₀.1 hfacts₀.2.1 hfacts₀.2.2.1 hfacts₀.2.2.2.1
        hfacts₀.2.2.2.2.1 (by have := hs2.le; omega) hs2
    by_cases hA : ∃ x ∈ blk₀ :: l₂, blkHit sz h x
    · obtain ⟨pre, fb, post, hdecA, hPfb, hPpre⟩ :=
        first_sat (blkHit sz h) _ hA
      unfold blkHit blkMiss at hPfb hPpre
      refine ⟨fb.off, ?_⟩
      apply scan_find sz h pre fb post h.next h.endp (h.endp + 2)
        (by rw [← hdecA]; exact hrunA) (le_refl _)
        (by intro x hx
            exact not_not.mp (hPpre x hx))
        hPfb
        (by intro x hx
            by_cases hxn : x.off = h.next
            · exact Or.inl hxn
            · exact Or.inr hxn)
        (by
          have hA1 : pre.length ≤ (blk₀ :: l₂).length := by
            rw [hdecA]; simp
          have hA2 : (blk₀ :: l₂).length ≤ l.length := by
            rw [hdec]; simp
          omega)
    · -- nothing fits in the suffix: skip it, wrap, find in the prefix
      push_neg at hA
      have hA' : ∀ x ∈ blk₀ :: l₂, blkMiss sz h x.off := by
        intro x hx
        have := hA x hx
        unfold blkHit at this
        exact not_not.mp this
      have hfitB : ∃ x ∈ l₁, blkHit sz h x := by
        obtain ⟨x, hx, hPx⟩ := hfitP
        rw [hdec] at hx
        rcases List.mem_append.mp hx with hB | hsuf
        · exact ⟨x, hB, hPx⟩
        · exact absurd (hA' x hsuf) hPx
      have hnx0 : h.next ≠ 0 := by
        intro hz
        cases l₁ with
        | nil =>
          obtain ⟨x, hx, _⟩ := hfitB
          simp at hx
        | cons w l₁' =>
          have hw := hs1.mem_facts w (by simp)
          have h16w := hw.2.2.2.1
          unfold MINBLOCKSIZE at h16w
          rw [hoff₀] at hs1
          have := hw.2.2.2.2.2.2
          omega
      obtain ⟨preB, fbB, postB, hdecB, hPfbB, hPpreB⟩ :=
        first_sat (blkHit sz h) _ hfitB
      unfold blkHit blkMiss at hPfbB hPpreB
      refine ⟨fbB.off, ?_⟩
      have hlenA : (blk₀ :: l₂).length + (h.endp + 2 - (blk₀ :: l₂).length) =
          h.endp + 2 := by
        have : (blk₀ :: l₂).length ≤ l.length := by rw [hdec]; simp
        omega
      have hskip := scan_skip sz h l₂ blk₀ h.next h.endp
        (h.endp + 2 - (blk₀ :: l₂).length) hrunA (le_refl _)
        (by intro x hx
            have := hA' x hx
            unfold blkMiss at this
            exact this)
        (by intro x hx
            have hxfacts := hs2.mem_facts x hx
            have hlo := hxfacts.2.2.2.2.2.1
            have hsz₀ := hfacts₀.2.2.2.1
            unfold MINBLOCKSIZE at hsz₀
            omega)
      rw [hlenA] at hskip
      rw [hskip]
      rw [if_pos rfl, if_neg (by omega)]
      rw [hoff₀] at hs1
      apply scan_find sz h preB fbB postB 0 h.next
        (h.endp + 2 - (blk₀ :: l₂).length)
        (by rw [← hdecB]; exact hs1) (by omega)
        (by intro x hx
            exact not_not.mp (hPpreB x hx))
        hPfbB
        (by intro x hx
            right
            have hxl1 : x ∈ l₁ := by
              rw [hdecB]
              rcases List.mem_append.mp hx with hB | hC
              · simp [hB]
              · simp at hC; simp [hC]
            have := hs1.mem_facts x hxl1
            have h16x := this.2.2.2.1
            unfold MINBLOCKSIZE at h16x
            have := this.2.2.2.2.2.2
            omega)
        (by
          have hB1 : preB.length ≤ l₁.length := by
            rw [hdecB]; simp
          have : l₁.length + (blk₀ :: l₂).length = l.length := by
            rw [hdec]; simp
          omega)

/-! ## The allocation tail: split to best fit, rotate cursor, mark used -/

theorem Seg.eq_nil {h : Heap} {a : Nat} {l : List Blk} (hs : Seg h a a l) : l = [] := by
  cases hs with
  | nil => rfl
  | cons hsz hu hp h16 hal hle tl =>
    exfalso
    unfold MINBLOCKSIZE at h16
    omega

/-- Effect of `ballocAt` (the code after `balloc`'s scan/growth found the
free block `blk`): the block is replaced in the tiling by a best-fit used
block followed by free upper halves; everything else is untouched; the
cursor lands on the block after the allocated one (wrapping to `start`). -/
theorem ballocAt_spec (sz : Nat) (h : Heap) (l : List Blk) (blk : Blk)
    (hseg : Seg h 0 h.endp l) (hmem : blk ∈ l) (hfree : blk.used = false) :
    ∃ l₁ l₂ f tl,
      l = l₁ ++ blk :: l₂ ∧
      (ballocAt sz blk.off h).1 = some (blk.off + MEMOFFSET) ∧
      Seg (ballocAt sz blk.off h).2 0 h.endp
        (l₁ ++ (⟨blk.off, f, true⟩ :: (tl ++ l₂))) ∧
      (∀ x ∈ tl, x.used = false) ∧
      isPow2 f ∧ MINBLOCKSIZE ≤ f ∧ f ≤ blk.size ∧
      ((ballocAt sz blk.off h).2).hsize blk.off = f ∧
      (sz ≤ memsize h blk.off → sz + MEMOFFSET ≤ f) ∧
      ¬ (sz ≤ f / 2 - MEMOFFSET ∧ MINBLOCKSIZE < f) ∧
      ((ballocAt sz blk.off h).2).endp = h.endp ∧
      ((ballocAt sz blk.off h).2).mem = h.mem ∧
      ((ballocAt sz blk.off h).2).sbrks = h.sbrks ∧
      (∀ o, h.endp ≤ o → ((ballocAt sz blk.off h).2).hsize o = h.hsize o) ∧
      (∃ blk' ∈ l₁ ++ (⟨blk.off, f, true⟩ :: (tl ++ l₂)),
        blk'.off = ((ballocAt sz blk.off h).2).next) ∧
      Seg (ballocAt sz blk.off h).2 (blk.off + f) (blk.off + blk.size) tl := by
  obtain ⟨l₁, l₂, hdec, hs1, hs2⟩ := hseg.mem_decomp blk hmem
  have hfacts := hseg.mem_facts blk hmem
  obtain ⟨hfs, hfu, hfp, hf16, hfal, hflo, hfhi⟩ := hfacts
  set b := blk.off with hbdef
  have hsz16 : 16 ≤ h.hsize b := by
    rw [hfs]; unfold MINBLOCKSIZE at hf16; exact hf16
  obtain ⟨frame1, endp1, next1, sbrks1, used1, p1, m1, le1, al1, fit1, exit1,
    tl, segTl, freeTl⟩ :=
    splitLoopA_spec sz b (h.hsize b + 1) h (by omega)
      (by rw [hfs]; exact hfp) (by rw [hfs]; exact hf16)
      (by rw [hfs]; exact hfal)
  set h₁ := splitLoopA sz b (h.hsize b + 1) h with h₁def
  set f := h₁.hsize b with hfdef
  -- the final heap pieces
  have hres : ballocAt sz b h =
      (some (b + MEMOFFSET),
        setHused { h₁ with next := (if b + h₁.hsize b = h₁.endp then 0
          else b + h₁.hsize b) } b true) := rfl
  set h₂ : Heap := { h₁ with next := (if b + h₁.hsize b = h₁.endp then 0
    else b + h₁.hsize b) } with h₂def
  set h₃ := setHused h₂ b true with h₃def
  have hh3 : (ballocAt sz b h).2 = h₃ := by rw [hres]
  have hfle : f ≤ blk.size := by rw [← hfs]; exact le1
  have hf16' : MINBLOCKSIZE ≤ f := m1
  -- header agreement between h₃ and h₁ away from b, and at b
  have h3size : ∀ o, h₃.hsize o = h₁.hsize o := by
    intro o; rfl
  have h3used : ∀ o, o ≠ b → h₃.hused o = h₁.hused o := by
    intro o ho
    show (if o = b then true else h₂.hused o) = _
    rw [if_neg ho]
  have h3usedb : h₃.hused b = true := by
    show (if b = b then true else h₂.hused b) = true
    rw [if_pos rfl]
  -- blocks of l₁ sit strictly below b
  have hl₁lo : ∀ x ∈ l₁, x.off + x.size ≤ b ∧ x.off < b := by
    intro x hx
    have := hs1.mem_facts x hx
    have h16x := this.2.2.2.1
    unfold MINBLOCKSIZE at h16x
    exact ⟨this.2.2.2.2.2.2, by omega⟩
  -- blocks of l₂ sit at or above b + blk.size
  have hl₂lo : ∀ x ∈ l₂, b + blk.size ≤ x.off := by
    intro x hx
    exact (hs2.mem_facts x hx).2.2.2.2.2.1
  -- blocks of tl sit in (b, b + blk.size)
  have htllo : ∀ x ∈ tl, b + f ≤ x.off := by
    intro x hx
    have := segTl.mem_facts x hx
    exact this.2.2.2.2.2.1
  -- Seg pieces in h₃
  have hseg1 : Seg h₃ 0 b l₁ := by
    refine hs1.frame ?_
    intro x hx
    have hxb := hl₁lo x hx
    have := frame1 x.off (Or.inl hxb.2)
    rw [h3size, h3used x.off (by omega)]
    exact this
  have hseg2 : Seg h₃ (b + blk.size) h.endp l₂ := by
    refine hs2.frame ?_
    intro x hx
    have hxb := hl₂lo x hx
    have := frame1 x.off (Or.inr (by rw [hfs]; omega))
    rw [h3size, h3used x.off (by unfold MINBLOCKSIZE at hf16; omega)]
    exact this
  have hsegTl3 : Seg h₃ (b + f) (b + blk.size) tl := by
    have : Seg h₃ (b + h₁.hsize b) (b + h.hsize b) tl := by
      refine segTl.frame ?_
      intro x hx
      have hxb := htllo x hx
      rw [h3size, h3used x.off (by unfold MINBLOCKSIZE at hf16'; omega)]
      exact ⟨rfl, rfl⟩
    rw [hfs] at this
    exact this
  have hsegHead : Seg h₃ b h.endp (⟨b, f, true⟩ :: (tl ++ l₂)) := by
    refine Seg.cons ?_ h3usedb p1 m1 al1 (by omega) ?_
    · rw [h3size]
    · exact Seg.append hsegTl3 hseg2
  have hsegAll : Seg h₃ 0 h.endp (l₁ ++ (⟨b, f, true⟩ :: (tl ++ l₂))) :=
    Seg.append hseg1 hsegHead
  -- cursor lands on a block offset
  have hnx : ∃ blk' ∈ l₁ ++ (⟨b, f, true⟩ :: (tl ++ l₂)), blk'.off = h₃.next := by
    have hnxval : h₃.next = if b + f = h.endp then 0 else b + f := by
      show h₂.next = _
      rw [h₂def]
      simp only [← hfdef, endp1]
    by_cases hce : b + f = h.endp
    · rw [hnxval, if_pos hce]
      -- the first block of the new tiling starts at 0
      cases hl : l₁ with
      | nil =>
        refine ⟨⟨b, f, true⟩, by simp, ?_⟩
        rw [hl] at hs1
        have := hs1.nil_eq
        simp [← this]
      | cons w l₁' =>
        refine ⟨w, by simp [hl], ?_⟩
        rw [hl] at hs1
        have := hs1.head_off
        simp [this]
    · rw [hnxval, if_neg hce]
      -- the block after the allocation: first of tl, else first of l₂
      cases htl : tl with
      | nil =>
        have hfb : b + f = b + blk.size := by
          rw [htl] at hsegTl3
          exact hsegTl3.nil_eq
        cases hl2 : l₂ with
        | nil =>
          exfalso
          rw [hl2] at hseg2
          have := hseg2.nil_eq
          omega
        | cons w l₂' =>
          refine ⟨w, by simp [hl2], ?_⟩
          rw [hl2] at hseg2
          have := hseg2.head_off
          omega
      | cons w tl' =>
        refine ⟨w, by simp [htl], ?_⟩
        rw [htl] at hsegTl3
        have := hsegTl3.head_off
        omega
  refine ⟨l₁, l₂, f, tl, hdec, by rw [hres], by rw [hh3]; exact hsegAll,
    freeTl, p1, m1, hfle, by rw [hh3, h3size], ?_, exit1, ?_, ?_, ?_, ?_,
    ?_, by rw [hh3]; exact hsegTl3⟩
  · intro hfit
    have := fit1 hfit
    unfold memsize at this
    unfold MINBLOCKSIZE at hf16'
    unfold MEMOFFSET at this ⊢
    omega
  · rw [hh3]
    show h₁.endp = h.endp
    exact endp1
  · rw [hh3]
    show h₁.mem = h.mem
    exact splitLoopA_mem _ _ _ _
  · rw [hh3]
    show h₁.sbrks = h.sbrks
    exact sbrks1
  · intro o ho
    rw [hh3, h3size]
    exact (frame1 o (Or.inr (by rw [hfs]; omega))).1
  · rw [hh3]
    exact hnx

/-! ## Characterizing region growth -/

theorem doubleUntil_ge (required : Nat) :
    ∀ (fuel size : Nat), 1 ≤ size → required ≤ size + fuel →
      required ≤ doubleUntil required size fuel := by
  intro fuel
  induction fuel with
  | zero =>
    intro size h1 h2
    unfold doubleUntil
    omega
  | succ n ih =>
    intro size h1 h2
    unfold doubleUntil
    split
    · exact ih (size * 2) (by omega) (by omega)
    · omega

theorem doubleUntil_mul (required : Nat) :
    ∀ (fuel size : Nat), ∃ k, doubleUntil required size fuel = size * 2 ^ k := by
  intro fuel
  induction fuel with
  | zero => intro size; exact ⟨0, by unfold doubleUntil; omega⟩
  | succ n ih =>
    intro size
    unfold doubleUntil
    split
    · obtain ⟨k, hk⟩ := ih (size * 2)
      exact ⟨k + 1, by rw [hk]; ring⟩
    · exact ⟨0, by omega⟩

theorem isPow2_mul_pow2 {a : Nat} (ha : isPow2 a) (k : Nat) : isPow2 (a * 2 ^ k) := by
  obtain ⟨i, rfl⟩ := ha
  exact ⟨i + k, by rw [pow_add]⟩

/-- With the cursor parked at `end`, the wrap comparison `block == next`
never fires (the candidate is never `end` itself), so the scan cannot report
`wrapped` — it either finds a block or exhausts its fuel (the C loop would
spin or fault). -/
theorem scan_no_wrap_end (sz : Nat) (h : Heap) (he : 0 < h.endp)
    (hne : h.next = h.endp) :
    ∀ (fuel b₀ : Nat), scanLoop sz h fuel b₀ ≠ ScanRes.wrapped := by
  intro fuel
  induction fuel with
  | zero => intro b₀; simp [scanLoop]
  | succ n ih =>
    intro b₀
    by_cases hc : memsize h b₀ < sz ∨ h.hused b₀ = true
    · rw [scanLoop_adv_step sz h n b₀ hc]
      by_cases hb1 : b₀ + h.hsize b₀ = h.endp
      · rw [if_pos hb1, if_neg (by omega)]
        exact ih 0
      · rw [if_neg hb1, if_neg (by omega)]
        exact ih _
    · rw [scanLoop_found_step sz h n b₀ hc]
      simp

/-- A scan started strictly inside the region never reports `end` as the
found block. -/
theorem scan_found_ne_end (sz : Nat) (h : Heap) (he : 0 < h.endp) :
    ∀ (fuel b₀ b : Nat), b₀ ≠ h.endp → scanLoop sz h fuel b₀ = ScanRes.found b →
      b ≠ h.endp := by
  intro fuel
  induction fuel with
  | zero => intro b₀ b hb0 hres; simp [scanLoop] at hres
  | succ n ih =>
    intro b₀ b hb0 hres
    by_cases hc : memsize h b₀ < sz ∨ h.hused b₀ = true
    · rw [scanLoop_adv_step sz h n b₀ hc] at hres
      by_cases hb1 : b₀ + h.hsize b₀ = h.endp
      · rw [if_pos hb1] at hres
        split at hres
        · cases hres
        · exact ih 0 b (by omega) hres
      · rw [if_neg hb1] at hres
        split at hres
        · cases hres
        · exact ih _ b hb1 hres
    · rw [scanLoop_found_step sz h n b₀ hc] at hres
      cases hres
      exact hb0

theorem sbrk_eq_nil (h : Heap) (hs : h.sbrks = []) : sbrk h = (false, h) := by
  unfold sbrk; rw [hs]

theorem sbrk_eq_cons (h : Heap) (g : Bool) (rest : List Bool)
    (hs : h.sbrks = g :: rest) : sbrk h = (g, { h with sbrks := rest }) := by
  unfold sbrk; rw [hs]

/-- Consuming oracle entries does not disturb the invariant. -/
theorem AllocInv_sbrks (h : Heap) (l : List Blk) (hi : AllocInv h l)
    (rest : List Bool) : AllocInv { h with sbrks := rest } l where
  seg := hi.seg.frame (by intro x hx; exact ⟨rfl, rfl⟩)
  nx := hi.nx
  high := hi.high
  pend := hi.pend
  e16 := hi.e16

/-- The general growth loop: appends region-sized free blocks at `end`
(doubling the region each round) until one holds the request or an increment
is denied.  Existing headers, the cursor and all payload bytes are
untouched; the invariant extends over the appended blocks. -/
theorem growLoop_spec (req : Nat) :
    ∀ (fuel : Nat) (h : Heap) (l : List Blk), AllocInv h l →
      ((growLoop req fuel h).2).mem = h.mem ∧
      ((growLoop req fuel h).2).next = h.next ∧
      h.endp ≤ ((growLoop req fuel h).2).endp ∧
      (∀ o, o < h.endp → ((growLoop req fuel h).2).hsize o = h.hsize o ∧
        ((growLoop req fuel h).2).hused o = h.hused o) ∧
      ∃ lapp, AllocInv ((growLoop req fuel h).2) (l ++ lapp) ∧
        (∀ x ∈ lapp, x.used = false) ∧
        (∀ b, (growLoop req fuel h).1 = some b →
          ∃ blkb ∈ lapp, blkb.off = b ∧ req ≤ blkb.size) := by
  intro fuel
  induction fuel with
  | zero =>
    intro h l hi
    refine ⟨rfl, rfl, le_refl _, fun o ho => ⟨rfl, rfl⟩, [], by simpa using hi,
      by intro x hx; simp at hx, ?_⟩
    intro b hb
    simp [growLoop] at hb
  | succ n ih =>
    intro h l hi
    have he16 : 16 ≤ h.endp := by
      have := hi.e16; unfold MINBLOCKSIZE at this; exact this
    rcases hsb : h.sbrks with _ | ⟨g, rest⟩
    · have hstep : growLoop req (n + 1) h = (none, h) := by
        simp only [growLoop]
        rw [sbrk_eq_nil h hsb]
      rw [hstep]
      refine ⟨rfl, rfl, le_refl _, fun o ho => ⟨rfl, rfl⟩, [], by simpa using hi,
        by intro x hx; simp at hx, by intro b hb; cases hb⟩
    · cases g with
      | false =>
        have hstep : growLoop req (n + 1) h = (none, { h with sbrks := rest }) := by
          simp only [growLoop]
          rw [sbrk_eq_cons h false rest hsb]
        rw [hstep]
        refine ⟨rfl, rfl, le_refl _, fun o ho => ⟨rfl, rfl⟩, [],
          by simpa using AllocInv_sbrks h l hi rest,
          by intro x hx; simp at hx, by intro b hb; cases hb⟩
      | true =>
        set h1 : Heap := { h with sbrks := rest } with h1def
        set h3 : Heap :=
          { setHused (setHsize h1 h.endp h.endp) h.endp false with
              endp := h.endp + h.endp } with h3def
        have hstep : growLoop req (n + 1) h =
            (if h.endp < req then growLoop req n h3 else (some h.endp, h3)) := by
          simp only [growLoop]
          rw [sbrk_eq_cons h true rest hsb]
        have he3 : h3.endp = h.endp + h.endp := rfl
        set nb : Blk := ⟨h.endp, h.endp, false⟩ with nbdef
        have hi3 : AllocInv h3 (l ++ [nb]) := by
          refine ⟨?_, ?_, ?_, ?_, ?_⟩
          · refine Seg.append (hi.seg.frame ?_) ?_
            · intro x hx
              have hxf := hi.seg.mem_facts x hx
              have h16x := hxf.2.2.2.1
              have hxlt : x.off < h.endp := by
                unfold MINBLOCKSIZE at h16x
                omega
              constructor
              · show (if x.off = h.endp then h.endp else h.hsize x.off) = _
                rw [if_neg (by omega)]
              · show (if x.off = h.endp then false else h.hused x.off) = _
                rw [if_neg (by omega)]
            · refine Seg.cons ?_ ?_ hi.pend hi.e16 (Nat.mod_self _) (le_refl _) ?_
              · show (if h.endp = h.endp then h.endp else h.hsize h.endp) = h.endp
                rw [if_pos rfl]
              · show (if h.endp = h.endp then false else h.hused h.endp) = false
                rw [if_pos rfl]
              · exact Seg.nil _
          · rcases hi.nx with hend | ⟨x, hx, hox⟩
            · exact Or.inr ⟨nb, by simp, hend.symm⟩
            · exact Or.inr ⟨x, by simp [hx], hox⟩
          · intro o ho
            rw [he3] at ho
            show (if o = h.endp then h.endp else h.hsize o) = 0
            rw [if_neg (by omega)]
            exact hi.high o (by omega)
          · have : h.endp + h.endp = h.endp * 2 := by omega
            show isPow2 (h.endp + h.endp)
            rw [this]
            exact isPow2_double hi.pend
          · show MINBLOCKSIZE ≤ h.endp + h.endp
            unfold MINBLOCKSIZE
            omega
        by_cases hlt : h.endp < req
        · rw [hstep, if_pos hlt]
          obtain ⟨cmem, cnext, cendp, cheaders, lapp, cinv, cfree, csucc⟩ :=
            ih h3 (l ++ [nb]) hi3
          refine ⟨cmem, cnext, by
            have : h3.endp = h.endp + h.endp := rfl
            omega, ?_, [nb] ++ lapp, by
              have : l ++ [nb] ++ lapp = l ++ ([nb] ++ lapp) := by simp
              rw [← this]
              exact cinv, ?_, ?_⟩
          · intro o ho
            have hc := cheaders o (by
              have : h3.endp = h.endp + h.endp := rfl
              omega)
            have hh3s : h3.hsize o = h.hsize o := by
              show (if o = h.endp then h.endp else h.hsize o) = _
              rw [if_neg (by omega)]
            have hh3u : h3.hused o = h.hused o := by
              show (if o = h.endp then false else h.hused o) = _
              rw [if_neg (by omega)]
            exact ⟨hc.1.trans hh3s, hc.2.trans hh3u⟩
          · intro x hx
            rcases List.mem_append.mp hx with h1x | h2x
            · simp at h1x; rw [h1x]
            · exact cfree x h2x
          · intro b hb
            obtain ⟨blkb, hblkb, hoffb, hreqb⟩ := csucc b hb
            exact ⟨blkb, by simp [hblkb], hoffb, hreqb⟩
        · rw [hstep, if_neg hlt]
          refine ⟨rfl, rfl, by
            show h.endp ≤ h.endp + h.endp
            omega, ?_, [nb], hi3, by intro x hx; simp at hx; rw [hx], ?_⟩
          · intro o ho
            constructor
            · show (if o = h.endp then h.endp else h.hsize o) = _
              rw [if_neg (by omega)]
            · show (if o = h.endp then false else h.hused o) = _
              rw [if_neg (by omega)]
          · intro b hb
            have hbb : b = h.endp := by
              simpa using hb.symm
            refine ⟨nb, by simp, by rw [hbb], ?_⟩
            show req ≤ h.endp
            omega

/-- `grow` under the invariant with the cursor at a block: payload bytes and
cursor are untouched and the region only extends.  On failure, every
existing header is untouched and the invariant extends over any blocks that
were appended before the denied increment.  On success, the returned block
is a free block of the new tiling large enough for the request, and every
used block survives unchanged. -/
theorem grow_spec (sz0 : Nat) (h : Heap) (l : List Blk) (hi : AllocInv h l)
    (hnx : nextAt h l) :
    ((grow sz0 h).2).mem = h.mem ∧
    ((grow sz0 h).2).next = h.next ∧
    h.endp ≤ ((grow sz0 h).2).endp ∧
    ((grow sz0 h).1 = none →
      (∀ o, o < h.endp → ((grow sz0 h).2).hsize o = h.hsize o ∧
        ((grow sz0 h).2).hused o = h.hused o) ∧
      ∃ lapp, AllocInv ((grow sz0 h).2) (l ++ lapp) ∧
        (∀ x ∈ lapp, x.used = false)) ∧
    (∀ b, (grow sz0 h).1 = some b →
      ∃ l' blkb, AllocInv ((grow sz0 h).2) l' ∧ blkb ∈ l' ∧ blkb.off = b ∧
        blkb.used = false ∧ sz0 + MEMOFFSET ≤ blkb.size ∧
        (∀ x ∈ l, x.used = true → x ∈ l')) := by
  have he16 : 16 ≤ h.endp := by
    have := hi.e16; unfold MINBLOCKSIZE at this; exact this
  by_cases hcond : 0 + h.hsize 0 = h.endp ∧ h.hused 0 = false
  · -- the single-free-block fast path
    have hstep : grow sz0 h =
        (let size := doubleUntil (sz0 + MEMOFFSET) (h.hsize 0) (sz0 + MEMOFFSET + 1)
         match sbrk h with
         | (false, h1) => (none, h1)
         | (true, h1) =>
           (some 0, { setHsize h1 0 size with endp := 0 + size })) := by
      unfold grow
      rw [if_pos hcond]
    -- the tiling is that one block
    have hl : l = [⟨0, h.endp, false⟩] := by
      obtain ⟨blk, hblk, hb1, hb2⟩ := hi.seg.containing 0 (le_refl _) (by omega)
      have hf := hi.seg.mem_facts blk hblk
      have hboff : blk.off = 0 := by omega
      have hbsz : blk.size = h.endp := by
        have h1 : h.hsize blk.off = blk.size := hf.1
        rw [hboff] at h1
        omega
      have hbu : blk.used = false := by
        have h2 : h.hused blk.off = blk.used := hf.2.1
        rw [hboff] at h2
        rw [← h2]
        exact hcond.2
      obtain ⟨l₁, l₂, hld, hseg1, hseg2⟩ := hi.seg.mem_decomp blk hblk
      have hl1 : l₁ = [] := by
        rw [hboff] at hseg1
        exact hseg1.eq_nil
      have hl2 : l₂ = [] := by
        rw [hboff, hbsz] at hseg2
        have h0 : (0 : Nat) + h.endp = h.endp := by omega
        rw [h0] at hseg2
        exact hseg2.eq_nil
      have hblkeq : blk = ⟨0, h.endp, false⟩ := by
        cases blk
        simp only [Blk.mk.injEq]
        simp only at hboff hbsz hbu
        exact ⟨hboff, hbsz, hbu⟩
      rw [hld, hl1, hl2, hblkeq]
      rfl
    have hsz0 : h.hsize 0 = h.endp := by omega
    set size' := doubleUntil (sz0 + MEMOFFSET) (h.hsize 0) (sz0 + MEMOFFSET + 1)
      with sizedef
    have hge : sz0 + MEMOFFSET ≤ size' :=
      doubleUntil_ge _ _ _ (by omega) (by omega)
    obtain ⟨k, hk⟩ := doubleUntil_mul (sz0 + MEMOFFSET) (sz0 + MEMOFFSET + 1)
      (h.hsize 0)
    have hpw : isPow2 size' := by
      rw [sizedef, hk, hsz0]
      exact isPow2_mul_pow2 hi.pend k
    have hbigger : h.endp ≤ size' := by
      rw [sizedef, hk, hsz0]
      have h2k : 1 ≤ 2 ^ k := Nat.one_le_two_pow
      calc h.endp = h.endp * 1 := by omega
        _ ≤ h.endp * 2 ^ k := Nat.mul_le_mul_left _ h2k
    rcases hsb : h.sbrks with _ | ⟨g, rest⟩
    · have heq : grow sz0 h = (none, h) := by
        rw [hstep]
        simp only []
        rw [sbrk_eq_nil h hsb]
      rw [heq]
      refine ⟨rfl, rfl, le_refl _, ?_, by intro b hb; cases hb⟩
      intro hnone
      exact ⟨fun o ho => ⟨rfl, rfl⟩, [], by simpa using hi,
        by intro x hx; simp at hx⟩
    · cases g with
      | false =>
        have heq : grow sz0 h = (none, { h with sbrks := rest }) := by
          rw [hstep]
          simp only []
          rw [sbrk_eq_cons h false rest hsb]
        rw [heq]
        refine ⟨rfl, rfl, le_refl _, ?_, by intro b hb; cases hb⟩
        intro hnone
        exact ⟨fun o ho => ⟨rfl, rfl⟩, [],
          by simpa using AllocInv_sbrks h l hi rest,
          by intro x hx; simp at hx⟩
      | true =>
        have heq : grow sz0 h =
            (some 0, { setHsize { h with sbrks := rest } 0 size' with
              endp := 0 + size' }) := by
          rw [hstep]
          simp only []
          rw [sbrk_eq_cons h true rest hsb]
        rw [heq]
        set h' : Heap := { setHsize { h with sbrks := rest } 0 size' with
          endp := 0 + size' } with h'def
        have h'endp : h'.endp = size' := by
          show 0 + size' = size'
          omega
        have h'size0 : h'.hsize 0 = size' := by
          show (if (0 : Nat) = 0 then size' else h.hsize 0) = size'
          rw [if_pos rfl]
        have h'used0 : h'.hused 0 = false := by
          show h.hused 0 = false
          exact hcond.2
        have hinv' : AllocInv h' [⟨0, size', false⟩] := by
          refine ⟨?_, ?_, ?_, ?_, ?_⟩
          · refine Seg.cons h'size0 h'used0 hpw (by unfold MINBLOCKSIZE; omega)
              (by simp) (by rw [h'endp]; omega) ?_
            have hEe : (0 : Nat) + size' = h'.endp := by rw [h'endp]; omega
            rw [hEe]
            exact Seg.nil _
          · rcases hnx with ⟨x, hx, hox⟩
            rw [hl] at hx
            simp at hx
            refine Or.inr ⟨⟨0, size', false⟩, by simp, ?_⟩
            show (0 : Nat) = h.next
            rw [← hox, hx]
          · intro o ho
            rw [h'endp] at ho
            show (if o = 0 then size' else h.hsize o) = 0
            rw [if_neg (by omega)]
            exact hi.high o (by omega)
          · rw [h'endp]; exact hpw
          · rw [h'endp]; unfold MINBLOCKSIZE; omega
        refine ⟨rfl, rfl, by show h.endp ≤ 0 + size'; omega, ?_, ?_⟩
        · intro hb
          cases hb
        intro b hb
        have hb0 : b = 0 := by simpa using hb.symm
        subst hb0
        refine ⟨[⟨0, size', false⟩], ⟨0, size', false⟩, hinv', by simp, rfl,
          rfl, hge, ?_⟩
        intro x hx hxu
        rw [hl] at hx
        simp at hx
        rw [hx] at hxu
        cases hxu
  · -- the general path
    have hstep : grow sz0 h =
        growLoop (sz0 + MEMOFFSET) (h.sbrks.length + 1) h := by
      unfold grow
      rw [if_neg hcond]
    rw [hstep]
    obtain ⟨cmem, cnext, cendp, cheaders, lapp, cinv, cfree, csucc⟩ :=
      growLoop_spec (sz0 + MEMOFFSET) (h.sbrks.length + 1) h l hi
    refine ⟨cmem, cnext, cendp, ?_, ?_⟩
    · intro hnone
      exact ⟨cheaders, lapp, cinv, cfree⟩
    · intro b hb
      obtain ⟨blkb, hblkb, hoffb, hreqb⟩ := csucc b hb
      refine ⟨l ++ lapp, blkb, cinv, by simp [hblkb], hoffb,
        cfree blkb hblkb, hreqb, ?_⟩
      intro x hx hxu
      simp [hx]

theorem balloc_eq_found (sz b : Nat) (h : Heap)
    (hs : scanLoop sz h (h.endp + 2) h.next = ScanRes.found b) :
    balloc sz h = ballocAt sz b h := by
  unfold balloc
  rw [hs]

theorem balloc_eq_stuck (sz : Nat) (h : Heap)
    (hs : scanLoop sz h (h.endp + 2) h.next = ScanRes.stuck) :
    balloc sz h = (none, h) := by
  unfold balloc
  rw [hs]

theorem balloc_eq_grow_none (sz : Nat) (h h1 : Heap)
    (hs : scanLoop sz h (h.endp + 2) h.next = ScanRes.wrapped)
    (hg : grow sz h = (none, h1)) :
    balloc sz h = (none, h1) := by
  unfold balloc
  rw [hs, hg]

theorem balloc_eq_grow_some (sz b : Nat) (h h1 : Heap)
    (hs : scanLoop sz h (h.endp + 2) h.next = ScanRes.wrapped)
    (hg : grow sz h = (some b, h1)) :
    balloc sz h = ballocAt sz b h1 := by
  unfold balloc
  rw [hs, hg]

/-- A nonempty region's tiling starts with a block at `start`. -/
theorem AllocInv_head (h : Heap) (l : List Blk) (hi : AllocInv h l) :
    ∃ hd tl, l = hd :: tl ∧ hd.off = 0 := by
  cases l with
  | nil =>
    have h1 := hi.seg.nil_eq
    have h2 := hi.e16
    unfold MINBLOCKSIZE at h2
    omega
  | cons hd tl => exact ⟨hd, tl, rfl, Seg.head_off hi.seg⟩

/-- `ballocAt` on a free, fitting member of an invariant tiling: the
invariant survives, the cursor lands on a block, every used block is carried
over, and the chosen block reappears used at a best-fit size. -/
theorem ballocAt_inv (sz : Nat) (h : Heap) (l : List Blk) (blk : Blk)
    (hi : AllocInv h l) (hmem : blk ∈ l) (hfree : blk.used = false)
    (hfit : sz + MEMOFFSET ≤ blk.size) :
    ∃ l' f,
      AllocInv (ballocAt sz blk.off h).2 l' ∧
      (ballocAt sz blk.off h).1 = some (blk.off + MEMOFFSET) ∧
      ((ballocAt sz blk.off h).2).endp = h.endp ∧
      ((ballocAt sz blk.off h).2).mem = h.mem ∧
      nextAt (ballocAt sz blk.off h).2 l' ∧
      (∀ x ∈ l, x.used = true → x ∈ l') ∧
      (⟨blk.off, f, true⟩ : Blk) ∈ l' ∧
      sz + MEMOFFSET ≤ f ∧ isPow2 f ∧ MINBLOCKSIZE ≤ f ∧
      ((ballocAt sz blk.off h).2).hsize blk.off = f ∧
      ¬ (sz ≤ f / 2 - MEMOFFSET ∧ MINBLOCKSIZE < f) ∧
      (∀ x ∈ l, x.used = true → x.off ≠ blk.off) := by
  obtain ⟨l₁, l₂, f, tl, hdec, hres, hseg', htlfree, hpf, hmf, hfle, hhsz,
    hfit', hexit, hendp, hmemeq, hsbrks, hhigh', hnext', hsegtl⟩ :=
    ballocAt_spec sz h l blk hi.seg hmem hfree
  have hfacts := hi.seg.mem_facts blk hmem
  have hfitm : sz ≤ memsize h blk.off := by
    unfold memsize
    rw [hfacts.1]
    unfold MEMOFFSET at hfit ⊢
    omega
  have hf16 := hfit' hfitm
  refine ⟨l₁ ++ (⟨blk.off, f, true⟩ :: (tl ++ l₂)), f, ?_, hres, hendp, hmemeq,
    hnext', ?_, by simp, hf16, hpf, hmf, hhsz, hexit, ?_⟩
  · refine ⟨?_, Or.inr hnext', ?_, ?_, ?_⟩
    · rw [hendp]
      exact hseg'
    · intro o ho
      rw [hendp] at ho
      rw [hhigh' o ho]
      exact hi.high o ho
    · rw [hendp]; exact hi.pend
    · rw [hendp]; exact hi.e16
  · intro x hx hxu
    rw [hdec] at hx
    rcases List.mem_append.mp hx with hx1 | hx2
    · exact List.mem_append.mpr (Or.inl hx1)
    · rcases List.mem_cons.mp hx2 with hxb | hx2'
      · exfalso
        rw [hxb] at hxu
        rw [hfree] at hxu
        cases hxu
      · exact List.mem_append.mpr (Or.inr (List.mem_cons.mpr
          (Or.inr (List.mem_append.mpr (Or.inr hx2')))))
  · intro x hx hxu hoff
    have hxf := hi.seg.mem_facts x hx
    rw [hoff] at hxf
    have h1 : h.hused blk.off = x.used := hxf.2.1
    have h2 : h.hused blk.off = blk.used := hfacts.2.1
    rw [hxu] at h1
    rw [hfree] at h2
    rw [h1] at h2
    cases h2

/-- `balloc` preserves the allocator invariant.  On success of a nonzero
request it returns the payload address of a best-fit block of the new tiling,
marked used, at an offset no previously used block occupies; on failure all
existing headers and the cursor are untouched and the tiling is at most
extended by free blocks. -/
theorem balloc_preserves (sz : Nat) (h : Heap) (l : List Blk)
    (hi : AllocInv h l) :
    ∃ l', AllocInv (balloc sz h).2 l' ∧
      ((balloc sz h).2).mem = h.mem ∧
      h.endp ≤ ((balloc sz h).2).endp ∧
      (∀ x ∈ l, x.used = true → x ∈ l') ∧
      (((balloc sz h).1.isSome = true ∨ nextAt h l) →
        nextAt (balloc sz h).2 l') ∧
      (∀ p, (balloc sz h).1 = some p → 1 ≤ sz →
        ∃ f, p = p - MEMOFFSET + MEMOFFSET ∧
          (⟨p - MEMOFFSET, f, true⟩ : Blk) ∈ l' ∧
          sz + MEMOFFSET ≤ f ∧ isPow2 f ∧ MINBLOCKSIZE ≤ f ∧
          ((balloc sz h).2).hsize (p - MEMOFFSET) = f ∧
          ¬ (sz ≤ f / 2 - MEMOFFSET ∧ MINBLOCKSIZE < f) ∧
          (∀ x ∈ l, x.used = true → x.off ≠ p - MEMOFFSET)) ∧
      ((balloc sz h).1 = none →
        ((balloc sz h).2).next = h.next ∧
        (∀ o, o < h.endp → ((balloc sz h).2).hsize o = h.hsize o ∧
          ((balloc sz h).2).hused o = h.hused o) ∧
        ∃ lapp, l' = l ++ lapp ∧ ∀ x ∈ lapp, x.used = false) := by
  have he16 : 16 ≤ h.endp := by
    have := hi.e16; unfold MINBLOCKSIZE at this; exact this
  cases hscan : scanLoop sz h (h.endp + 2) h.next with
  | found b =>
    have hbe := balloc_eq_found sz b h hscan
    rw [hbe]
    rcases scan_found_valid sz h l hi.seg hi.high hi.e16 (h.endp + 2) h.next b
        hi.nx hscan with
      ⟨blk, hmem, hboff, hfree, hfit⟩ | ⟨hbend, hsz0, hufree⟩
    · subst hboff
      obtain ⟨l', f, hinv', hres, hendp, hmemeq, hnx', hpres, hmem', hf16,
        hpf, hmf, hhsz, hexit, hdist⟩ := ballocAt_inv sz h l blk hi hmem hfree hfit
      refine ⟨l', hinv', hmemeq, le_of_eq hendp.symm, hpres, fun _ => hnx',
        ?_, ?_⟩
      · intro p hp hsz1
        rw [hres] at hp
        have hpe := Option.some.inj hp
        subst hpe
        have hpm : blk.off + MEMOFFSET - MEMOFFSET = blk.off := by omega
        refine ⟨f, by omega, ?_, hf16, hpf, hmf, ?_, hexit, ?_⟩
        · rw [hpm]; exact hmem'
        · rw [hpm]; exact hhsz
        · rw [hpm]; exact hdist
      · intro hnone
        rw [hres] at hnone
        simp at hnone
    · subst hbend
      obtain ⟨hd, tlx, hl, hhd⟩ := AllocInv_head h l hi
      have hsz_end : h.hsize h.endp = 0 := hi.high _ (le_refl _)
      have hsplit : splitLoopA sz h.endp (h.hsize h.endp + 1) h = h := by
        simp only [splitLoopA]
        rw [if_neg]
        intro hcond
        rw [hsz_end] at hcond
        unfold MINBLOCKSIZE at hcond
        omega
      have hkey : ballocAt sz h.endp h =
          (some (h.endp + MEMOFFSET),
            setHused { h with next := 0 } h.endp true) := by
        unfold ballocAt
        rw [hsplit]
        simp [hsz_end]
      rw [hkey]
      have hoffe : ∀ x ∈ l, x.off < h.endp := by
        intro x hx
        have hxf := hi.seg.mem_facts x hx
        have h16x := hxf.2.2.2.1
        unfold MINBLOCKSIZE at h16x
        omega
      have hagree : ∀ x ∈ l,
          (setHused { h with next := 0 } h.endp true).hsize x.off =
            h.hsize x.off ∧
          (setHused { h with next := 0 } h.endp true).hused x.off =
            h.hused x.off := by
        intro x hx
        refine ⟨rfl, ?_⟩
        show (if x.off = h.endp then true else h.hused x.off) = h.hused x.off
        rw [if_neg (by have := hoffe x hx; omega)]
      have hinv3 : AllocInv (setHused { h with next := 0 } h.endp true) l := by
        refine ⟨hi.seg.frame hagree, ?_, hi.high, hi.pend, hi.e16⟩
        exact Or.inr ⟨hd, by rw [hl]; simp, hhd.trans rfl⟩
      refine ⟨l, hinv3, rfl, le_refl _, fun x hx _ => hx, ?_, ?_, ?_⟩
      · intro _
        exact ⟨hd, by rw [hl]; simp, hhd.trans rfl⟩
      · intro p hp hsz1
        omega
      · intro hnone
        simp at hnone
  | wrapped =>
    have hnx : nextAt h l := by
      rcases hi.nx with hne | hs
      · exact absurd hscan (scan_no_wrap_end sz h (by omega) hne (h.endp + 2)
          h.next)
      · exact hs
    obtain ⟨cmem, cnext, cendp, cfail, csucc⟩ := grow_spec sz h l hi hnx
    rcases hgeq : grow sz h with ⟨ob, h1⟩
    rw [hgeq] at cmem cnext cendp cfail csucc
    cases ob with
    | none =>
      have hbe := balloc_eq_grow_none sz h h1 hscan hgeq
      rw [hbe]
      obtain ⟨chead, lapp, cinv, cfree⟩ := cfail rfl
      refine ⟨l ++ lapp, cinv, cmem, cendp, ?_, ?_, ?_, ?_⟩
      · intro x hx _
        exact List.mem_append.mpr (Or.inl hx)
      · intro hcase
        rcases hcase with hS | hN
        · simp at hS
        · obtain ⟨blkn, hbm, hbo⟩ := hN
          refine ⟨blkn, List.mem_append.mpr (Or.inl hbm), ?_⟩
          rw [cnext]
          exact hbo
      · intro p hp
        simp at hp
      · intro _
        exact ⟨cnext, chead, lapp, rfl, cfree⟩
    | some b =>
      have hbe := balloc_eq_grow_some sz b h h1 hscan hgeq
      rw [hbe]
      obtain ⟨l1, blkb, hinv1, hbm, hbo, hbu, hbfit, hpres1⟩ := csucc b rfl
      subst hbo
      obtain ⟨l', f, hinv', hres, hendp, hmemeq, hnx', hpres, hmem', hf16,
        hpf, hmf, hhsz, hexit, hdist⟩ :=
        ballocAt_inv sz h1 l1 blkb hinv1 hbm hbu hbfit
      refine ⟨l', hinv', by rw [hmemeq]; exact cmem, ?_, ?_, fun _ => hnx',
        ?_, ?_⟩
      · rw [hendp]
        exact cendp
      · intro x hx hxu
        exact hpres x (hpres1 x hx hxu) hxu
      · intro p hp hsz1
        rw [hres] at hp
        have hpe := Option.some.inj hp
        subst hpe
        have hpm : blkb.off + MEMOFFSET - MEMOFFSET = blkb.off := by omega
        refine ⟨f, by omega, ?_, hf16, hpf, hmf, ?_, hexit, ?_⟩
        · rw [hpm]; exact hmem'
        · rw [hpm]; exact hhsz
        · rw [hpm]
          intro x hx hxu
          exact hdist x (hpres1 x hx hxu) hxu
      · intro hnone
        rw [hres] at hnone
        simp at hnone
  | stuck =>
    have hbe := balloc_eq_stuck sz h hscan
    rw [hbe]
    refine ⟨l, hi, rfl, le_refl _, fun x hx _ => hx, ?_, ?_, ?_⟩
    · intro hcase
      rcases hcase with hS | hN
      · simp at hS
      · exact hN
    · intro p hp
      simp at hp
    · intro _
      refine ⟨rfl, fun o ho => ⟨rfl, rfl⟩, [], by simp, ?_⟩
      intro x hx
      simp at hx

theorem Seg.disjoint {h : Heap} {o e : Nat} {l : List Blk} (hs : Seg h o e l)
    {x y : Blk} (hx : x ∈ l) (hy : y ∈ l) (hne : x.off ≠ y.off) :
    x.off + x.size ≤ y.off ∨ y.off + y.size ≤ x.off := by
  obtain ⟨l₁, l₂, hdec, hs1, hs2⟩ := hs.mem_decomp x hx
  rw [hdec] at hy
  rcases List.mem_append.mp hy with hy1 | hy2
  · right
    exact (hs1.mem_facts y hy1).2.2.2.2.2.2
  · rcases List.mem_cons.mp hy2 with hyx | hy2'
    · exfalso
      rw [hyx] at hne
      exact hne rfl
    · left
      exact (hs2.mem_facts y hy2').2.2.2.2.2.1

/-- Run a sequence of `balloc` calls, collecting each call's result. -/
def runAllocs : List Nat → Heap → List (Option Nat) × Heap
  | [], h => ([], h)
  | sz :: szs, h =>
    let r := balloc sz h
    let rest := runAllocs szs r.2
    (r.1 :: rest.1, rest.2)

/-- Characterization of a `balloc` sequence: the invariant survives, used
blocks persist, each nonzero-request success is backed by a used block of the
final tiling that fits it, and distinct successes occupy blocks at distinct
offsets. -/
theorem runAllocs_spec (szs : List Nat) :
    ∀ (h : Heap) (l : List Blk), AllocInv h l →
      ∃ l', AllocInv (runAllocs szs h).2 l' ∧
        (∀ x ∈ l, x.used = true → x ∈ l') ∧
        (∀ i p, ((runAllocs szs h).1).getD i none = some p →
          1 ≤ szs.getD i 0 →
          ∃ f, p = p - MEMOFFSET + MEMOFFSET ∧
            (⟨p - MEMOFFSET, f, true⟩ : Blk) ∈ l' ∧
            szs.getD i 0 + MEMOFFSET ≤ f ∧
            (∀ x ∈ l, x.used = true → x.off ≠ p - MEMOFFSET)) ∧
        (∀ i j pi pj, i ≠ j →
          ((runAllocs szs h).1).getD i none = some pi → 1 ≤ szs.getD i 0 →
          ((runAllocs szs h).1).getD j none = some pj → 1 ≤ szs.getD j 0 →
          pi - MEMOFFSET ≠ pj - MEMOFFSET) := by
  induction szs with
  | nil =>
    intro h l hi
    refine ⟨l, hi, fun x hx _ => hx, ?_, ?_⟩
    · intro i p hp hsz
      simp [runAllocs] at hp
    · intro i j pi pj hij hpi
      simp [runAllocs] at hpi
  | cons sz szs ih =>
    intro h l hi
    obtain ⟨l₁, hinv₁, hmem₁, hendp₁, hpres₁, hnx₁, hsucc₁, hfail₁⟩ :=
      balloc_preserves sz h l hi
    obtain ⟨l', hinv', hpres', hsingle, hdistinct⟩ := ih (balloc sz h).2 l₁ hinv₁
    have hrun1 : (runAllocs (sz :: szs) h).1 =
        (balloc sz h).1 :: (runAllocs szs (balloc sz h).2).1 := rfl
    have hrun2 : (runAllocs (sz :: szs) h).2 =
        (runAllocs szs (balloc sz h).2).2 := rfl
    refine ⟨l', ?_, ?_, ?_, ?_⟩
    · rw [hrun2]
      exact hinv'
    · intro x hx hxu
      exact hpres' x (hpres₁ x hx hxu) hxu
    · intro i p hp hsz
      rw [hrun1] at hp
      cases i with
      | zero =>
        rw [List.getD_cons_zero] at hp hsz
        obtain ⟨f, hpe, hbm, hbf, hpow, hmin, hhs, hexit, hdist⟩ :=
          hsucc₁ p hp hsz
        exact ⟨f, hpe, hpres' _ hbm rfl, hbf, hdist⟩
      | succ k =>
        rw [List.getD_cons_succ] at hp hsz
        obtain ⟨f, hpe, hbm, hbf, hdist⟩ := hsingle k p hp hsz
        refine ⟨f, hpe, hbm, hbf, ?_⟩
        intro x hx hxu
        exact hdist x (hpres₁ x hx hxu) hxu
    · intro i j pi pj hij hpi hszi hpj hszj
      rw [hrun1] at hpi hpj
      cases i with
      | zero =>
        cases j with
        | zero => exact absurd rfl hij
        | succ k =>
          rw [List.getD_cons_zero] at hpi hszi
          rw [List.getD_cons_succ] at hpj hszj
          obtain ⟨f, hpe, hbm, hbf, hpow, hmin, hhs, hexit, hdist⟩ :=
            hsucc₁ pi hpi hszi
          obtain ⟨g, hqe, hqm, hqf, hqdist⟩ := hsingle k pj hpj hszj
          exact hqdist _ hbm rfl
      | succ k =>
        cases j with
        | zero =>
          rw [List.getD_cons_succ] at hpi hszi
          rw [List.getD_cons_zero] at hpj hszj
          obtain ⟨f, hpe, hbm, hbf, hpow, hmin, hhs, hexit, hdist⟩ :=
            hsucc₁ pj hpj hszj
          obtain ⟨g, hqe, hqm, hqf, hqdist⟩ := hsingle k pi hpi hszi
          exact (hqdist _ hbm rfl).symm
        | succ m =>
          rw [List.getD_cons_succ] at hpi hszi hpj hszj
          exact hdistinct k m pi pj (by omega) hpi hszi hpj hszj

/-- **C1.**  For any sequence of `balloc` calls on a freshly initialized
region, the payload ranges `[p, p + size)` of any two distinct successful
calls are disjoint: no address lies in both, as long as neither block has
been freed (no `bfree`/`brealloc` occurs in the sequence). -/
theorem C1_alloc_payloads_disjoint (B : Nat) (gs : List Bool) (szs : List Nat)
    (hp : isPow2 B) (h16 : MINBLOCKSIZE ≤ B)
    (i j pi pj a : Nat) (hij : i ≠ j)
    (hpi : ((runAllocs szs (initHeap B gs)).1).getD i none = some pi)
    (hpj : ((runAllocs szs (initHeap B gs)).1).getD j none = some pj)
    (hai : pi ≤ a ∧ a < pi + szs.getD i 0) :
    ¬ (pj ≤ a ∧ a < pj + szs.getD j 0) := by
  intro haj
  obtain ⟨l', hinv', hpres', hsingle, hdistinct⟩ :=
    runAllocs_spec szs (initHeap B gs) [⟨0, B, false⟩] (initHeap_inv B gs hp h16)
  have hszi : 1 ≤ szs.getD i 0 := by omega
  have hszj : 1 ≤ szs.getD j 0 := by omega
  obtain ⟨fi, hpei, hbmi, hbfi, hdisti⟩ := hsingle i pi hpi hszi
  obtain ⟨fj, hpej, hbmj, hbfj, hdistj⟩ := hsingle j pj hpj hszj
  have hne := hdistinct i j pi pj hij hpi hszi hpj hszj
  have hd2 : pi - MEMOFFSET + fi ≤ pj - MEMOFFSET ∨
      pj - MEMOFFSET + fj ≤ pi - MEMOFFSET :=
    hinv'.seg.disjoint hbmi hbmj hne
  unfold MEMOFFSET at hpei hpej hbfi hbfj hd2
  rcases hd2 with hlt | hlt
  · omega
  · omega

/-- **C1, witness.**  Two 16-byte allocations from a fresh 4096-byte region
land at payloads 16 and 48; address 20 lies in the first range and the
theorem rules it out of the second. -/
theorem C1_alloc_payloads_disjoint_witness :
    ¬ ((48 : Nat) ≤ 20 ∧ 20 < 48 + [16, 16].getD 1 0) :=
  C1_alloc_payloads_disjoint 4096 [] [16, 16] ⟨12, by norm_num⟩
    (by decide) 0 1 16 48 20 (by decide) (by decide) (by decide)
    (by decide)

/-- **C5 (amended).**  When `balloc` fails it returns the failure sentinel
with every existing block header, the cursor and all payload bytes unchanged
(the region bound may have moved if growth partially succeeded, see the
counterexample), and a subsequent allocation of any size some free block of
the old tiling already fits still succeeds. -/
theorem C5_fail_safe (sz : Nat) (h : Heap) (l : List Blk) (hi : AllocInv h l)
    (hfail : (balloc sz h).1 = none) :
    (∀ o, o < h.endp → ((balloc sz h).2).hsize o = h.hsize o ∧
      ((balloc sz h).2).hused o = h.hused o) ∧
    ((balloc sz h).2).next = h.next ∧
    ((balloc sz h).2).mem = h.mem ∧
    (∀ sz', (∃ blk ∈ l, blk.used = false ∧ sz' + MEMOFFSET ≤ blk.size) →
      ((balloc sz' ((balloc sz h).2)).1).isSome = true) := by
  obtain ⟨l', hinv', hmem', hendp', hpres', hnx', hsucc', hfail'⟩ :=
    balloc_preserves sz h l hi
  obtain ⟨hnext, hhead, lapp, hl', hfree⟩ := hfail' hfail
  refine ⟨hhead, hnext, hmem', ?_⟩
  intro sz' ⟨blk, hbm, hbu, hbf⟩
  have hbm' : blk ∈ l' := by
    rw [hl']
    exact List.mem_append.mpr (Or.inl hbm)
  obtain ⟨b, hfound⟩ := scan_finds sz' ((balloc sz h).2) l' hinv'
    ⟨blk, hbm', hbu, hbf⟩
  rw [balloc_eq_found sz' b ((balloc sz h).2) hfound, ballocAt_isSome]
  rfl

/-- **C5 (amended), witness.**  `balloc 5000` on a fresh 4096-byte region
with growth denied fails; headers and cursor are untouched and a `balloc 7`
(which the original free block fits) then succeeds. -/
theorem C5_fail_safe_witness :
    (balloc 5000 (initHeap 4096 [])).1 = none ∧
    ((balloc 7 ((balloc 5000 (initHeap 4096 [])).2)).1).isSome = true := by
  refine ⟨by decide, ?_⟩
  have h := C5_fail_safe 5000 (initHeap 4096 []) [⟨0, 4096, false⟩]
    (initHeap_inv 4096 [] ⟨12, by norm_num⟩ (by decide)) (by decide)
  exact h.2.2.2 7 ⟨⟨0, 4096, false⟩, by decide, rfl, by decide⟩

/-- **C7.**  Whenever `balloc` succeeds on a nonzero request, the block
finally marked used (found at `p - MEMOFFSET`) is the smallest power-of-two
block that fits the request: it satisfies the minimum block size, holds
`sz + MEMOFFSET` bytes, the split guard fails on it (splitting further would
either be too small for the request or undercut the minimum block size), and
every power-of-two size that fits the request is at least as large. -/
theorem C7_best_fit (sz : Nat) (h : Heap) (l : List Blk) (hi : AllocInv h l)
    (hsz : 1 ≤ sz) (p : Nat) (hp : (balloc sz h).1 = some p) :
    ∃ f l', AllocInv (balloc sz h).2 l' ∧
      (⟨p - MEMOFFSET, f, true⟩ : Blk) ∈ l' ∧
      ((balloc sz h).2).hsize (p - MEMOFFSET) = f ∧
      isPow2 f ∧ MINBLOCKSIZE ≤ f ∧ sz + MEMOFFSET ≤ f ∧
      ¬ (sz ≤ f / 2 - MEMOFFSET ∧ MINBLOCKSIZE < f) ∧
      (∀ g, isPow2 g → MINBLOCKSIZE ≤ g → sz + MEMOFFSET ≤ g → f ≤ g) := by
  obtain ⟨l', hinv', hmem', hendp', hpres', hnx', hsucc', hfail'⟩ :=
    balloc_preserves sz h l hi
  obtain ⟨f, hpe, hbm, hbf, hpow, hmin, hhs, hexit, hdist⟩ := hsucc' p hp hsz
  refine ⟨f, l', hinv', hbm, hhs, hpow, hmin, hbf, hexit, ?_⟩
  intro g hgp hg16 hgf
  by_cases hf16 : MINBLOCKSIZE < f
  · have hnot : ¬ sz ≤ f / 2 - MEMOFFSET := by
      intro hcon
      exact hexit ⟨hcon, hf16⟩
    have hf32 : 32 ≤ f := isPow2_ge32 hpow hf16
    have hhalf : f / 2 < g := by
      unfold MEMOFFSET at hnot
      unfold MINBLOCKSIZE at hg16
      unfold MEMOFFSET at hgf
      omega
    exact isPow2_gt_half hgp hpow (by omega) hhalf
  · unfold MINBLOCKSIZE at hf16 hg16
    omega

/-- **C7, witness.**  `balloc 20` on a fresh 4096-byte region returns payload
16; the block is split down to exactly 64 bytes, the least power of two
holding `20 + 16` bytes. -/
theorem C7_best_fit_witness :
    ∃ f l', AllocInv (balloc 20 (initHeap 4096 [])).2 l' ∧
      (⟨16 - MEMOFFSET, f, true⟩ : Blk) ∈ l' ∧
      ((balloc 20 (initHeap 4096 [])).2).hsize (16 - MEMOFFSET) = f ∧
      isPow2 f ∧ MINBLOCKSIZE ≤ f ∧ 20 + MEMOFFSET ≤ f ∧
      ¬ (20 ≤ f / 2 - MEMOFFSET ∧ MINBLOCKSIZE < f) ∧
      (∀ g, isPow2 g → MINBLOCKSIZE ≤ g → 20 + MEMOFFSET ≤ g → f ≤ g) :=
  C7_best_fit 20 (initHeap 4096 []) [⟨0, 4096, false⟩]
    (initHeap_inv 4096 [] ⟨12, by norm_num⟩ (by decide)) (by decide) 16
    (by decide)

/-- The stop condition of `join`'s coalescing loop at state `(b, size)`:
the buddy computed from offset and size is `end`, or its header's size
differs, or it is in use. -/
def joinGuard (h : Heap) (b size : Nat) : Prop :=
  (if b % (size * 2) = 0 then b + size else b - size) = h.endp ∨
  h.hsize (if b % (size * 2) = 0 then b + size else b - size) ≠ size ∨
  h.hused (if b % (size * 2) = 0 then b + size else b - size) = true

theorem joinLoop_zero (h : Heap) (b size : Nat) :
    joinLoop h 0 b size = (b, size) := by
  cases size with
  | zero => rfl
  | succ n => rfl

theorem joinLoop_succ (h : Heap) (fuel b size : Nat) (hs : size ≠ 0) :
    joinLoop h (fuel + 1) b size =
      (if (if b % (size * 2) = 0 then b + size else b - size) = h.endp ∨
          h.hsize (if b % (size * 2) = 0 then b + size else b - size) ≠ size ∨
          h.hused (if b % (size * 2) = 0 then b + size else b - size) = true
       then (b, size)
       else joinLoop h fuel
         (if b % (size * 2) = 0 then b else b - size) (size * 2)) := by
  cases size with
  | zero => exact absurd rfl hs
  | succ n => rfl

theorem Seg.tail {h : Heap} {o e : Nat} {blk : Blk} {l : List Blk}
    (hs : Seg h o e (blk :: l)) : Seg h (o + blk.size) e l := by
  cases hs with
  | cons hsz hu hp h16 hal hle tl => exact tl

theorem Seg.single {h : Heap} {o e : Nat} {x : Blk}
    (hs : h.hsize x.off = x.size) (hu : h.hused x.off = x.used)
    (hp : isPow2 x.size) (h16 : MINBLOCKSIZE ≤ x.size)
    (hal : x.off % x.size = 0)
    (hoe : o = x.off) (hee : e = x.off + x.size) : Seg h o e [x] := by
  obtain ⟨xo, xs, xu⟩ := x
  subst hoe
  subst hee
  exact Seg.cons hs hu hp h16 hal (le_refl _) (Seg.nil _)

/-- A block boundary at an odd multiple of its size moves to an even
multiple when the size is subtracted once. -/
theorem sub_align {B S : Nat} (hS : 0 < S) (hal : B % S = 0)
    (hmis : B % (S * 2) ≠ 0) : (B - S) % (S * 2) = 0 := by
  obtain ⟨q, hq⟩ := Nat.dvd_of_mod_eq_zero hal
  have hqodd : q % 2 = 1 := by
    rcases Nat.mod_two_eq_zero_or_one q with h0 | h1
    · exfalso
      apply hmis
      rw [hq, Nat.mul_mod_mul_left, h0, Nat.mul_zero]
    · exact h1
  obtain ⟨m, hm⟩ : ∃ m, q = 2 * m + 1 := ⟨q / 2, by omega⟩
  have hqq : S * q = S * 2 * m + S := by rw [hm]; ring
  have hbs : B - S = S * 2 * m := by
    rw [hq, hqq]
    omega
  rw [hbs]
  exact Nat.mul_mod_right _ _

theorem isPow2_lt_double {s r : Nat} (hs : isPow2 s) (hr : isPow2 r)
    (h : s < r) : s * 2 ≤ r := by
  obtain ⟨i, rfl⟩ := hs
  obtain ⟨j, rfl⟩ := hr
  have hij : i < j := (Nat.pow_lt_pow_iff_right (by omega)).mp h
  calc 2 ^ i * 2 = 2 ^ (i + 1) := by rw [pow_succ]
    _ ≤ 2 ^ j := Nat.pow_le_pow_right (by omega) (by omega)

/-- Invariant of `join`'s loop: the tiling splits into a prefix below `b`, a
middle part tiling exactly `[b, b + size)` in which every block except the
one being freed is already free, and a suffix, with `(b, size)` a well-formed
buddy interval. -/
structure JoinInv (h : Heap) (blk : Blk) (b size : Nat)
    (l₁ lm l₂ : List Blk) : Prop where
  seg1 : Seg h 0 b l₁
  segm : Seg h b (b + size) lm
  seg2 : Seg h (b + size) h.endp l₂
  pw : isPow2 size
  m16 : MINBLOCKSIZE ≤ size
  al : b % size = 0
  bnd : b + size ≤ h.endp
  fr : ∀ x ∈ lm, x ≠ blk → x.used = false

/-- The coalescing loop preserves `JoinInv`: the result interval contains the
start interval, absorbs only whole free neighbour blocks of the tiling, and,
unless the fuel ran out (impossible with `join`'s fuel), stops exactly when
the stop condition holds of the result. -/
theorem joinLoop_spec (h : Heap) (blk : Blk) :
    ∀ (fuel b size : Nat) (l₁ lm l₂ : List Blk),
      JoinInv h blk b size l₁ lm l₂ →
      ∃ l₁' lm' l₂',
        JoinInv h blk (joinLoop h fuel b size).1 (joinLoop h fuel b size).2
          l₁' lm' l₂' ∧
        (joinLoop h fuel b size).1 ≤ b ∧
        size ≤ (joinLoop h fuel b size).2 ∧
        b + size ≤ (joinLoop h fuel b size).1 + (joinLoop h fuel b size).2 ∧
        l₁' ++ lm' ++ l₂' = l₁ ++ lm ++ l₂ ∧
        (∀ x ∈ l₁', x ∈ l₁) ∧ (∀ x ∈ l₂', x ∈ l₂) ∧
        ((joinLoop h fuel b size).2 < size * 2 ^ fuel →
          joinGuard h (joinLoop h fuel b size).1 (joinLoop h fuel b size).2) := by
  intro fuel
  induction fuel with
  | zero =>
    intro b size l₁ lm l₂ inv
    rw [joinLoop_zero]
    refine ⟨l₁, lm, l₂, inv, le_refl _, le_refl _, le_refl _, rfl,
      fun x hx => hx, fun x hx => hx, ?_⟩
    intro hlt
    rw [pow_zero, Nat.mul_one] at hlt
    exact absurd hlt (lt_irrefl _)
  | succ fuel ih =>
    intro b size l₁ lm l₂ inv
    have hs0 : size ≠ 0 := by
      have := inv.m16; unfold MINBLOCKSIZE at this; omega
    rw [joinLoop_succ h fuel b size hs0]
    by_cases hg : (if b % (size * 2) = 0 then b + size else b - size) = h.endp ∨
        h.hsize (if b % (size * 2) = 0 then b + size else b - size) ≠ size ∨
        h.hused (if b % (size * 2) = 0 then b + size else b - size) = true
    · rw [if_pos hg]
      refine ⟨l₁, lm, l₂, inv, le_refl _, le_refl _, le_refl _, rfl,
        fun x hx => hx, fun x hx => hx, fun _ => ?_⟩
      unfold joinGuard
      exact hg
    · rw [if_neg hg]
      push_neg at hg
      obtain ⟨hg1, hg2, hg3⟩ := hg
      have hg3' : h.hused (if b % (size * 2) = 0 then b + size else b - size)
          = false := by
        simpa using hg3
      by_cases hal2 : b % (size * 2) = 0
      · rw [if_pos hal2] at hg1 hg2 hg3'
        rw [if_pos hal2]
        have hend : b + size < h.endp := by
          have := inv.bnd
          omega
        rcases l₂ with _ | ⟨z, l₂t⟩
        · exfalso
          have := inv.seg2.nil_eq
          omega
        · have hseg2 := inv.seg2
          have hzoff : z.off = b + size := Seg.head_off hseg2
          have hzf := hseg2.mem_facts z (List.mem_cons_self _ _)
          have hzsize : z.size = size := by
            have h1 : h.hsize z.off = z.size := hzf.1
            rw [hzoff] at h1
            omega
          have hzused : z.used = false := by
            have h1 : h.hused z.off = z.used := hzf.2.1
            rw [hzoff, hg3'] at h1
            exact h1.symm
          have hztail := Seg.tail hseg2
          have hztail' : Seg h (b + size * 2) h.endp l₂t := by
            have he : b + size + z.size = b + size * 2 := by omega
            rw [he] at hztail
            exact hztail
          have hzeq : z = ⟨b + size, size, false⟩ := by
            obtain ⟨zo, zs, zu⟩ := z
            simp only at hzoff hzsize hzused
            rw [hzoff, hzsize, hzused]
          have hsm' : Seg h b (b + size * 2)
              (lm ++ [(⟨b + size, size, false⟩ : Blk)]) := by
            refine inv.segm.append ?_
            refine Seg.cons hg2 hg3' inv.pw inv.m16 ?_ (by omega) ?_
            · rw [Nat.add_mod_right]
              exact inv.al
            · have he : b + size + size = b + size * 2 := by omega
              rw [he]
              exact Seg.nil _
          have hinv' : JoinInv h blk b (size * 2) l₁
              (lm ++ [(⟨b + size, size, false⟩ : Blk)]) l₂t := by
            refine ⟨inv.seg1, hsm', hztail', isPow2_double inv.pw, ?_, hal2,
              ?_, ?_⟩
            · have := inv.m16; unfold MINBLOCKSIZE at this ⊢; omega
            · have := hzf.2.2.2.2.2.2
              omega
            · intro x hx hxb
              rcases List.mem_append.mp hx with hx1 | hx2
              · exact inv.fr x hx1 hxb
              · rw [List.mem_singleton] at hx2
                subst hx2
                rfl
          obtain ⟨l₁', lm', l₂', hinv'', hle1, hle2, hle3, heq, hsub1, hsub2,
            hguard⟩ := ih b (size * 2) l₁
              (lm ++ [(⟨b + size, size, false⟩ : Blk)]) l₂t hinv'
          refine ⟨l₁', lm', l₂', hinv'', hle1, by omega, by omega, ?_, hsub1,
            ?_, ?_⟩
          · rw [heq, hzeq]
            simp
          · intro x hx
            exact List.mem_cons_of_mem _ (hsub2 x hx)
          · intro hlt
            apply hguard
            have hpow : size * 2 * 2 ^ fuel = size * 2 ^ (fuel + 1) := by
              rw [pow_succ]
              ring
            omega
      · rw [if_neg hal2] at hg1 hg2 hg3'
        rw [if_neg hal2]
        obtain ⟨hsb, blkc, hcm, hcoff, hcsize⟩ :=
          buddy_left h inv.seg1 inv.pw inv.m16 inv.al hal2
        have hcf := inv.seg1.mem_facts blkc hcm
        have hcsz : blkc.size = size := by
          have h1 : h.hsize blkc.off = blkc.size := hcf.1
          rw [hcoff] at h1
          omega
        have hcu : blkc.used = false := by
          have h1 : h.hused blkc.off = blkc.used := hcf.2.1
          rw [hcoff, hg3'] at h1
          exact h1.symm
        obtain ⟨la, lb, hdec, hsla, hslb⟩ := inv.seg1.mem_decomp blkc hcm
        have hlb : lb = [] := by
          have h1 : blkc.off + blkc.size = b := by
            rw [hcoff, hcsz]
            omega
          rw [h1] at hslb
          exact hslb.eq_nil
        have hdec' : l₁ = la ++ [blkc] := by
          rw [hdec, hlb]
        have hsla' : Seg h 0 (b - size) la := by
          rw [hcoff] at hsla
          exact hsla
        have hceq : blkc = ⟨b - size, size, false⟩ := by
          obtain ⟨co, cs, cu⟩ := blkc
          simp only at hcoff hcsz hcu
          rw [hcoff, hcsz, hcu]
        have halnew : (b - size) % (size * 2) = 0 :=
          sub_align (by omega) inv.al hal2
        have hsm' : Seg h (b - size) (b - size + size * 2)
            ((⟨b - size, size, false⟩ : Blk) :: lm) := by
          refine Seg.cons hg2 hg3' inv.pw inv.m16 ?_ (by omega) ?_
          · have hd1 : size ∣ b := Nat.dvd_of_mod_eq_zero inv.al
            have hd2 : size ∣ b - size := Nat.dvd_sub' hd1 dvd_rfl
            exact Nat.mod_eq_zero_of_dvd hd2
          · have he1 : b - size + size = b := by omega
            have he2 : b - size + size * 2 = b + size := by omega
            rw [he1, he2]
            exact inv.segm
        have hseg2' : Seg h (b - size + size * 2) h.endp l₂ := by
          have he2 : b - size + size * 2 = b + size := by omega
          rw [he2]
          exact inv.seg2
        have hinv' : JoinInv h blk (b - size) (size * 2) la
            ((⟨b - size, size, false⟩ : Blk) :: lm) l₂ := by
          refine ⟨hsla', hsm', hseg2', isPow2_double inv.pw, ?_, halnew,
            ?_, ?_⟩
          · have := inv.m16; unfold MINBLOCKSIZE at this ⊢; omega
          · have := inv.bnd; omega
          · intro x hx hxb
            rcases List.mem_cons.mp hx with hx1 | hx2
            · subst hx1
              rfl
            · exact inv.fr x hx2 hxb
        obtain ⟨l₁', lm', l₂', hinv'', hle1, hle2, hle3, heq, hsub1, hsub2,
          hguard⟩ := ih (b - size) (size * 2) la
            ((⟨b - size, size, false⟩ : Blk) :: lm) l₂ hinv'
        refine ⟨l₁', lm', l₂', hinv'', by omega, by omega, by omega, ?_, ?_,
          hsub2, ?_⟩
        · rw [heq, hdec', hceq]
          simp
        · intro x hx
          rw [hdec']
          exact List.mem_append.mpr (Or.inl (hsub1 x hx))
        · intro hlt
          apply hguard
          have hpow : size * 2 * 2 ^ fuel = size * 2 ^ (fuel + 1) := by
            rw [pow_succ]
            ring
          omega

/-- `bfree` under the invariant, on a used block of the tiling: the freed
block is coalesced with whole free neighbour blocks into one free,
buddy-aligned block containing it; every other used block, all payload
bytes and the region bound are untouched; the cursor parks at the coalesced
block; and the stop condition holds of the final interval. -/
theorem bfree_preserves (p : Nat) (h : Heap) (l : List Blk) (blk : Blk)
    (hi : AllocInv h l) (hmem : blk ∈ l) (hu : blk.used = true)
    (hoff : p - MEMOFFSET = blk.off) :
    ∃ l₁ l₂ r1 r2,
      AllocInv (bfree p h) (l₁ ++ (⟨r1, r2, false⟩ : Blk) :: l₂) ∧
      (bfree p h).next = r1 ∧
      (bfree p h).endp = h.endp ∧
      (bfree p h).mem = h.mem ∧
      (bfree p h).sbrks = h.sbrks ∧
      (∀ o, o ≠ r1 → (bfree p h).hsize o = h.hsize o ∧
        (bfree p h).hused o = h.hused o) ∧
      r1 ≤ blk.off ∧ blk.off + blk.size ≤ r1 + r2 ∧ blk.size ≤ r2 ∧
      r1 % r2 = 0 ∧ isPow2 r2 ∧ r1 + r2 ≤ h.endp ∧
      joinGuard h r1 r2 ∧
      (∀ x ∈ l, x.used = true → x ≠ blk →
        x ∈ l₁ ++ (⟨r1, r2, false⟩ : Blk) :: l₂) ∧
      (∀ x ∈ l₁, x ∈ l) ∧ (∀ x ∈ l₂, x ∈ l) := by
  have hf := hi.seg.mem_facts blk hmem
  obtain ⟨la, lb, hdec, hsla, hslb⟩ := hi.seg.mem_decomp blk hmem
  have hinv0 : JoinInv h blk blk.off blk.size la [blk] lb :=
    ⟨hsla,
     Seg.single hf.1 hf.2.1 hf.2.2.1 hf.2.2.2.1 hf.2.2.2.2.1 rfl rfl,
     hslb, hf.2.2.1, hf.2.2.2.1, hf.2.2.2.2.1, hf.2.2.2.2.2.2,
     fun x hx hxb => absurd (List.mem_singleton.mp hx) hxb⟩
  obtain ⟨l₁', lm', l₂', hinv', hle1, hle2, hle3, heq, hsub1, hsub2, hguardf⟩ :=
    joinLoop_spec h blk (h.endp + 1) blk.off blk.size la [blk] lb hinv0
  set R := joinLoop h (h.endp + 1) blk.off blk.size with hR
  have hguard : joinGuard h R.1 R.2 := by
    apply hguardf
    have h1 : R.2 ≤ h.endp := by
      have := hinv'.bnd
      omega
    have h2 : h.endp < 2 ^ (h.endp + 1) := by
      have h2a := Nat.lt_two_pow h.endp
      have h3 : (2 : Nat) ^ h.endp ≤ 2 ^ (h.endp + 1) :=
        Nat.pow_le_pow_right (by omega) (by omega)
      omega
    have h4 : 2 ^ (h.endp + 1) ≤ blk.size * 2 ^ (h.endp + 1) := by
      have h5 : 1 ≤ blk.size := by
        have := hf.2.2.2.1
        unfold MINBLOCKSIZE at this
        omega
      calc 2 ^ (h.endp + 1) = 1 * 2 ^ (h.endp + 1) := by omega
        _ ≤ blk.size * 2 ^ (h.endp + 1) := Nat.mul_le_mul_right _ h5
    omega
  have hbf : bfree p h =
      { setHused (setHsize h R.1 R.2) R.1 false with next := R.1 } := by
    unfold bfree join
    rw [hoff, hf.1]
  set h' : Heap := { setHused (setHsize h R.1 R.2) R.1 false with next := R.1 }
    with hh'
  have hsz' : ∀ o, h'.hsize o = if o = R.1 then R.2 else h.hsize o := by
    intro o
    rfl
  have hus' : ∀ o, h'.hused o = if o = R.1 then false else h.hused o := by
    intro o
    rfl
  have hr2min : MINBLOCKSIZE ≤ R.2 := hinv'.m16
  have hbnd : R.1 + R.2 ≤ h.endp := hinv'.bnd
  have hr1lt : R.1 < h.endp := by
    unfold MINBLOCKSIZE at hr2min
    omega
  have hfr1 : ∀ x ∈ l₁', x.off + x.size ≤ R.1 ∧ x.off < R.1 := by
    intro x hx
    have hxf := hinv'.seg1.mem_facts x hx
    have h16x := hxf.2.2.2.1
    unfold MINBLOCKSIZE at h16x
    exact ⟨hxf.2.2.2.2.2.2, by omega⟩
  have hfr2 : ∀ x ∈ l₂', R.1 + R.2 ≤ x.off := by
    intro x hx
    exact (hinv'.seg2.mem_facts x hx).2.2.2.2.2.1
  have hseg1' : Seg h' 0 R.1 l₁' := by
    refine hinv'.seg1.frame ?_
    intro x hx
    have hne : x.off ≠ R.1 := by
      have := hfr1 x hx
      omega
    rw [hsz' x.off, hus' x.off, if_neg hne, if_neg hne]
    exact ⟨rfl, rfl⟩
  have hseg2' : Seg h' (R.1 + R.2) h.endp l₂' := by
    refine hinv'.seg2.frame ?_
    intro x hx
    have hne : x.off ≠ R.1 := by
      have := hfr2 x hx
      unfold MINBLOCKSIZE at hr2min
      omega
    rw [hsz' x.off, hus' x.off, if_neg hne, if_neg hne]
    exact ⟨rfl, rfl⟩
  have hsegall : Seg h' 0 h.endp
      (l₁' ++ (⟨R.1, R.2, false⟩ : Blk) :: l₂') := by
    refine hseg1'.append ?_
    refine Seg.cons ?_ ?_ hinv'.pw hinv'.m16 hinv'.al hbnd hseg2'
    · rw [hsz' R.1, if_pos rfl]
    · rw [hus' R.1, if_pos rfl]
  have hinvf : AllocInv h' (l₁' ++ (⟨R.1, R.2, false⟩ : Blk) :: l₂') := by
    refine ⟨?_, ?_, ?_, ?_, ?_⟩
    · show Seg h' 0 h'.endp _
      have he : h'.endp = h.endp := rfl
      rw [he]
      exact hsegall
    · refine Or.inr ⟨⟨R.1, R.2, false⟩, ?_, rfl⟩
      exact List.mem_append.mpr (Or.inr (List.mem_cons_self _ _))
    · intro o ho
      have ho' : h.endp ≤ o := ho
      rw [hsz' o, if_neg (by omega)]
      exact hi.high o ho'
    · exact hi.pend
    · exact hi.e16
  refine ⟨l₁', l₂', R.1, R.2, ?_, ?_, ?_, ?_, ?_, ?_, hle1, hle3, hle2,
    hinv'.al, hinv'.pw, hbnd, hguard, ?_, ?_, ?_⟩
  · rw [hbf]
    exact hinvf
  · rw [hbf]
  · rw [hbf]
    rfl
  · rw [hbf]
    rfl
  · rw [hbf]
    rfl
  · rw [hbf]
    intro o hne
    rw [hsz' o, hus' o, if_neg hne, if_neg hne]
    exact ⟨rfl, rfl⟩
  · intro x hx hxu hxb
    have hx2 : x ∈ la ++ [blk] ++ lb := by
      have hx3 : x ∈ la ++ blk :: lb := by
        rw [← hdec]
        exact hx
      simpa using hx3
    rw [← heq] at hx2
    rcases List.mem_append.mp hx2 with hx3 | hx4
    · rcases List.mem_append.mp hx3 with hx5 | hx6
      · exact List.mem_append.mpr (Or.inl hx5)
      · exfalso
        have hx7 := hinv'.fr x hx6 hxb
        rw [hxu] at hx7
        cases hx7
    · exact List.mem_append.mpr (Or.inr (List.mem_cons_of_mem _ hx4))
  · intro x hx
    rw [hdec]
    exact List.mem_append.mpr (Or.inl (hsub1 x hx))
  · intro x hx
    rw [hdec]
    exact List.mem_append.mpr (Or.inr (List.mem_cons_of_mem _ (hsub2 x hx)))

theorem joinLoop_stop (h : Heap) (b size : Nat) (hg : joinGuard h b size) :
    ∀ fuel, joinLoop h fuel b size = (b, size) := by
  intro fuel
  cases fuel with
  | zero => exact joinLoop_zero h b size
  | succ n =>
    by_cases hs : size = 0
    · subst hs
      rfl
    · have hg' : (if b % (size * 2) = 0 then b + size else b - size) = h.endp ∨
          h.hsize (if b % (size * 2) = 0 then b + size else b - size) ≠ size ∨
          h.hused (if b % (size * 2) = 0 then b + size else b - size) = true :=
        hg
      rw [joinLoop_succ h n b size hs, if_pos hg']

/-- When the stop condition already holds of the freed block itself, `bfree`
just clears its `used` flag (rewriting the same size) and parks the cursor
on it. -/
theorem bfree_noMerge (p b : Nat) (h : Heap)
    (hoff : p - MEMOFFSET = b) (hg : joinGuard h b (h.hsize b)) :
    bfree p h =
      { setHused (setHsize h b (h.hsize b)) b false with next := b } := by
  unfold bfree join
  rw [hoff, joinLoop_stop h b (h.hsize b) hg]

/-- Freeing a used block of the tiling whose buddy cannot be merged: the
block is freed in place and the tiling keeps every other block. -/
theorem bfree_used_buddy (p : Nat) (h : Heap) (l : List Blk) (blk : Blk)
    (hi : AllocInv h l) (hmem : blk ∈ l) (hu : blk.used = true)
    (hoff : p - MEMOFFSET = blk.off)
    (hg : joinGuard h blk.off blk.size) :
    ∃ la lb, l = la ++ blk :: lb ∧
      bfree p h = { setHused (setHsize h blk.off blk.size) blk.off false
        with next := blk.off } ∧
      AllocInv (bfree p h)
        (la ++ (⟨blk.off, blk.size, false⟩ : Blk) :: lb) := by
  have hf := hi.seg.mem_facts blk hmem
  have hg' : joinGuard h blk.off (h.hsize blk.off) := by
    rw [hf.1]
    exact hg
  have hbfeq : bfree p h = { setHused (setHsize h blk.off (h.hsize blk.off))
      blk.off false with next := blk.off } :=
    bfree_noMerge p blk.off h hoff hg'
  rw [hf.1] at hbfeq
  obtain ⟨la, lb, hdec, hsla, hslb⟩ := hi.seg.mem_decomp blk hmem
  refine ⟨la, lb, hdec, hbfeq, ?_⟩
  rw [hbfeq]
  set h' : Heap := { setHused (setHsize h blk.off blk.size) blk.off false
    with next := blk.off } with hh'
  have hsz' : ∀ o, h'.hsize o = if o = blk.off then blk.size else h.hsize o :=
    fun _ => rfl
  have hus' : ∀ o, h'.hused o = if o = blk.off then false else h.hused o :=
    fun _ => rfl
  have hoffe : blk.off + blk.size ≤ h.endp := hf.2.2.2.2.2.2
  have h16b : MINBLOCKSIZE ≤ blk.size := hf.2.2.2.1
  have hbe : blk.off < h.endp := by
    unfold MINBLOCKSIZE at h16b
    omega
  have hsega : Seg h' 0 blk.off la := by
    refine hsla.frame ?_
    intro x hx
    have hxm := hsla.mem_facts x hx
    have h16x := hxm.2.2.2.1
    unfold MINBLOCKSIZE at h16x
    have hne : x.off ≠ blk.off := by
      have := hxm.2.2.2.2.2.2
      omega
    rw [hsz' x.off, hus' x.off, if_neg hne, if_neg hne]
    exact ⟨rfl, rfl⟩
  have hsegb : Seg h' (blk.off + blk.size) h.endp lb := by
    refine hslb.frame ?_
    intro x hx
    have hxm := hslb.mem_facts x hx
    have hne : x.off ≠ blk.off := by
      have := hxm.2.2.2.2.2.1
      unfold MINBLOCKSIZE at h16b
      omega
    rw [hsz' x.off, hus' x.off, if_neg hne, if_neg hne]
    exact ⟨rfl, rfl⟩
  have hsegall : Seg h' 0 h.endp
      (la ++ (⟨blk.off, blk.size, false⟩ : Blk) :: lb) := by
    refine hsega.append ?_
    refine Seg.cons ?_ ?_ hf.2.2.1 h16b hf.2.2.2.2.1 hoffe hsegb
    · rw [hsz' blk.off, if_pos rfl]
    · rw [hus' blk.off, if_pos rfl]
  refine ⟨?_, ?_, ?_, ?_, ?_⟩
  · show Seg h' 0 h'.endp _
    have he : h'.endp = h.endp := rfl
    rw [he]
    exact hsegall
  · refine Or.inr ⟨⟨blk.off, blk.size, false⟩, ?_, rfl⟩
    exact List.mem_append.mpr (Or.inr (List.mem_cons_self _ _))
  · intro o ho
    have ho' : h.endp ≤ o := ho
    rw [hsz' o, if_neg (by omega)]
    exact hi.high o ho'
  · exact hi.pend
  · exact hi.e16

/-- **C3 (amended).**  Free two same-size used buddy blocks in either order:
the first free cannot merge (its buddy is still used) and the second merges
transitively into one free block at an address at or below the lower buddy,
covering both blocks (its size is at least double, and can exceed double if
further free neighbours cascade, see the counterexample); a subsequent
allocation of exactly double the size then succeeds with the region bound
unchanged — no growth occurs. -/
theorem C3_coalesce_refit (h : Heap) (l : List Blk) (B S first second : Nat)
    (hi : AllocInv h l)
    (hx : (⟨B, S, true⟩ : Blk) ∈ l) (hy : (⟨B + S, S, true⟩ : Blk) ∈ l)
    (hal : B % (S * 2) = 0)
    (horder : (first = B + MEMOFFSET ∧ second = B + S + MEMOFFSET) ∨
      (first = B + S + MEMOFFSET ∧ second = B + MEMOFFSET)) :
    ∃ l₂ r1 r2,
      AllocInv (bfree second (bfree first h)) l₂ ∧
      (⟨r1, r2, false⟩ : Blk) ∈ l₂ ∧
      r1 ≤ B ∧ B + S * 2 ≤ r1 + r2 ∧
      (bfree second (bfree first h)).endp = h.endp ∧
      ((balloc (S * 2 - MEMOFFSET) (bfree second (bfree first h))).1).isSome
        = true ∧
      ((balloc (S * 2 - MEMOFFSET) (bfree second (bfree first h))).2).endp
        = h.endp := by
  have hfx := hi.seg.mem_facts _ hx
  have hfy := hi.seg.mem_facts _ hy
  have hxs : h.hsize B = S := hfx.1
  have hxu : h.hused B = true := hfx.2.1
  have hpw : isPow2 S := hfx.2.2.1
  have hm16 : MINBLOCKSIZE ≤ S := hfx.2.2.2.1
  have hxal : B % S = 0 := hfx.2.2.2.2.1
  have hxbnd : B + S ≤ h.endp := hfx.2.2.2.2.2.2
  have hys : h.hsize (B + S) = S := hfy.1
  have hyu : h.hused (B + S) = true := hfy.2.1
  have hybnd : B + S + S ≤ h.endp := hfy.2.2.2.2.2.2
  have hS16 : 16 ≤ S := by
    unfold MINBLOCKSIZE at hm16
    exact hm16
  have hmod : (B + S) % (S * 2) = S := by
    obtain ⟨k, hk⟩ := Nat.dvd_of_mod_eq_zero hal
    rw [hk, Nat.mul_add_mod]
    exact Nat.mod_eq_of_lt (by omega)
  have hmodne : (B + S) % (S * 2) ≠ 0 := by
    rw [hmod]
    omega
  have hdB : S * 2 ∣ B := Nat.dvd_of_mod_eq_zero hal
  rcases horder with ⟨hf1, hs1⟩ | ⟨hf1, hs1⟩
  · -- free the block at B first
    have hguard1 : joinGuard h B S := by
      unfold joinGuard
      rw [if_pos hal]
      exact Or.inr (Or.inr hyu)
    obtain ⟨la, lb, hdecl, hbfeq, hinv1⟩ :=
      bfree_used_buddy first h l ⟨B, S, true⟩ hi hx rfl
        (by show first - MEMOFFSET = B; rw [hf1]; omega) hguard1
    have h1endp : (bfree first h).endp = h.endp := by
      rw [hbfeq]
      rfl
    have hh1szB : (bfree first h).hsize B = S := by
      rw [hbfeq]
      show (if B = B then S else h.hsize B) = S
      rw [if_pos rfl]
    have hh1usB : (bfree first h).hused B = false := by
      rw [hbfeq]
      show (if B = B then false else h.hused B) = false
      rw [if_pos rfl]
    have hyne : (⟨B + S, S, true⟩ : Blk) ≠ (⟨B, S, true⟩ : Blk) := by
      intro hcon
      have hco := congrArg Blk.off hcon
      simp only at hco
      omega
    have hymem1 : (⟨B + S, S, true⟩ : Blk) ∈
        la ++ (⟨B, S, false⟩ : Blk) :: lb := by
      have hyin : (⟨B + S, S, true⟩ : Blk) ∈ la ++ (⟨B, S, true⟩ : Blk) :: lb := by
        rw [← hdecl]
        exact hy
      rcases List.mem_append.mp hyin with hin1 | hin2
      · exact List.mem_append.mpr (Or.inl hin1)
      · rcases List.mem_cons.mp hin2 with hin3 | hin4
        · exact absurd hin3 hyne
        · exact List.mem_append.mpr (Or.inr (List.mem_cons_of_mem _ hin4))
    obtain ⟨l₁₂, l₂₂, r1, r2, hinv2, hnext2, hendp2, hmem2, hsbrks2, hframe2,
      hble1, hble3, hble2, hal2, hpw2, hbnd2, hguard2, hpres2, hsubA, hsubB⟩ :=
      bfree_preserves second (bfree first h)
        (la ++ (⟨B, S, false⟩ : Blk) :: lb) ⟨B + S, S, true⟩ hinv1 hymem1 rfl
        (by show second - MEMOFFSET = B + S; rw [hs1]; omega)
    have hc1 : r1 ≤ B + S := hble1
    have hc2 : B + S + S ≤ r1 + r2 := hble3
    have hc3 : S ≤ r2 := hble2
    have hr2 : S < r2 := by
      rcases Nat.lt_or_ge S r2 with hlt | hge
      · exact hlt
      · exfalso
        have hr2S : r2 = S := by omega
        have hr1B : r1 = B + S := by omega
        unfold joinGuard at hguard2
        rw [hr1B, hr2S, if_neg hmodne] at hguard2
        have hsubeq : B + S - S = B := by omega
        rw [hsubeq] at hguard2
        rcases hguard2 with hA | hA | hA
        · rw [h1endp] at hA
          omega
        · exact hA hh1szB
        · rw [hh1usB] at hA
          cases hA
    have hlt2 : S * 2 ≤ r2 := isPow2_lt_double hpw hpw2 hr2
    have hd2r : S * 2 ∣ r2 := isPow2_dvd (isPow2_double hpw) hpw2 hlt2
    have hdr1 : S * 2 ∣ r1 :=
      dvd_trans hd2r (Nat.dvd_of_mod_eq_zero hal2)
    have hr1B : r1 ≤ B := by
      by_contra hcon
      push_neg at hcon
      have hd : S * 2 ∣ r1 - B := Nat.dvd_sub' hdr1 hdB
      have hpos : 0 < r1 - B := by omega
      have := Nat.le_of_dvd hpos hd
      omega
    have hcontain : B + S * 2 ≤ r1 + r2 := by omega
    have hfit : (S * 2 - MEMOFFSET) + MEMOFFSET ≤ r2 := by
      unfold MEMOFFSET
      omega
    obtain ⟨bb, hfound⟩ := scan_finds (S * 2 - MEMOFFSET)
      (bfree second (bfree first h))
      (l₁₂ ++ (⟨r1, r2, false⟩ : Blk) :: l₂₂) hinv2
      ⟨⟨r1, r2, false⟩,
        List.mem_append.mpr (Or.inr (List.mem_cons_self _ _)), rfl, hfit⟩
    refine ⟨l₁₂ ++ (⟨r1, r2, false⟩ : Blk) :: l₂₂, r1, r2, hinv2,
      List.mem_append.mpr (Or.inr (List.mem_cons_self _ _)), hr1B, hcontain,
      by rw [hendp2, h1endp], ?_, ?_⟩
    · rw [balloc_eq_found _ _ _ hfound, ballocAt_isSome]
      rfl
    · rw [balloc_eq_found _ _ _ hfound, ballocAt_endp, hendp2, h1endp]
  · -- free the block at B + S first
    have hguard1 : joinGuard h (B + S) S := by
      unfold joinGuard
      rw [if_neg hmodne]
      have hsubeq : B + S - S = B := by omega
      rw [hsubeq]
      exact Or.inr (Or.inr hxu)
    obtain ⟨la, lb, hdecl, hbfeq, hinv1⟩ :=
      bfree_used_buddy first h l ⟨B + S, S, true⟩ hi hy rfl
        (by show first - MEMOFFSET = B + S; rw [hf1]; omega) hguard1
    have h1endp : (bfree first h).endp = h.endp := by
      rw [hbfeq]
      rfl
    have hh1szB : (bfree first h).hsize (B + S) = S := by
      rw [hbfeq]
      show (if B + S = B + S then S else h.hsize (B + S)) = S
      rw [if_pos rfl]
    have hh1usB : (bfree first h).hused (B + S) = false := by
      rw [hbfeq]
      show (if B + S = B + S then false else h.hused (B + S)) = false
      rw [if_pos rfl]
    have hxne : (⟨B, S, true⟩ : Blk) ≠ (⟨B + S, S, true⟩ : Blk) := by
      intro hcon
      have hco := congrArg Blk.off hcon
      simp only at hco
      omega
    have hxmem1 : (⟨B, S, true⟩ : Blk) ∈
        la ++ (⟨B + S, S, false⟩ : Blk) :: lb := by
      have hxin : (⟨B, S, true⟩ : Blk) ∈
          la ++ (⟨B + S, S, true⟩ : Blk) :: lb := by
        rw [← hdecl]
        exact hx
      rcases List.mem_append.mp hxin with hin1 | hin2
      · exact List.mem_append.mpr (Or.inl hin1)
      · rcases List.mem_cons.mp hin2 with hin3 | hin4
        · exact absurd hin3 hxne
        · exact List.mem_append.mpr (Or.inr (List.mem_cons_of_mem _ hin4))
    obtain ⟨l₁₂, l₂₂, r1, r2, hinv2, hnext2, hendp2, hmem2, hsbrks2, hframe2,
      hble1, hble3, hble2, hal2, hpw2, hbnd2, hguard2, hpres2, hsubA, hsubB⟩ :=
      bfree_preserves second (bfree first h)
        (la ++ (⟨B + S, S, false⟩ : Blk) :: lb) ⟨B, S, true⟩ hinv1 hxmem1 rfl
        (by show second - MEMOFFSET = B; rw [hs1]; omega)
    have hc1 : r1 ≤ B := hble1
    have hc2 : B + S ≤ r1 + r2 := hble3
    have hc3 : S ≤ r2 := hble2
    have hr2 : S < r2 := by
      rcases Nat.lt_or_ge S r2 with hlt | hge
      · exact hlt
      · exfalso
        have hr2S : r2 = S := by omega
        have hr1B : r1 = B := by omega
        unfold joinGuard at hguard2
        rw [hr1B, hr2S, if_pos hal] at hguard2
        rcases hguard2 with hA | hA | hA
        · rw [h1endp] at hA
          omega
        · exact hA hh1szB
        · rw [hh1usB] at hA
          cases hA
    have hlt2 : S * 2 ≤ r2 := isPow2_lt_double hpw hpw2 hr2
    have hd2r : S * 2 ∣ r2 := isPow2_dvd (isPow2_double hpw) hpw2 hlt2
    have hdr1 : S * 2 ∣ r1 :=
      dvd_trans hd2r (Nat.dvd_of_mod_eq_zero hal2)
    have hcontain : B + S * 2 ≤ r1 + r2 := by
      have hsum : S * 2 ∣ r1 + r2 := Dvd.dvd.add hdr1 hd2r
      have hd : S * 2 ∣ r1 + r2 - B := Nat.dvd_sub' hsum hdB
      have hpos : 0 < r1 + r2 - B := by omega
      have := Nat.le_of_dvd hpos hd
      omega
    have hfit : (S * 2 - MEMOFFSET) + MEMOFFSET ≤ r2 := by
      unfold MEMOFFSET
      omega
    obtain ⟨bb, hfound⟩ := scan_finds (S * 2 - MEMOFFSET)
      (bfree second (bfree first h))
      (l₁₂ ++ (⟨r1, r2, false⟩ : Blk) :: l₂₂) hinv2
      ⟨⟨r1, r2, false⟩,
        List.mem_append.mpr (Or.inr (List.mem_cons_self _ _)), rfl, hfit⟩
    refine ⟨l₁₂ ++ (⟨r1, r2, false⟩ : Blk) :: l₂₂, r1, r2, hinv2,
      List.mem_append.mpr (Or.inr (List.mem_cons_self _ _)), hc1, hcontain,
      by rw [hendp2, h1endp], ?_, ?_⟩
    · rw [balloc_eq_found _ _ _ hfound, ballocAt_isSome]
      rfl
    · rw [balloc_eq_found _ _ _ hfound, ballocAt_endp, hendp2, h1endp]

/-- A 64-byte region holding exactly two used 32-byte buddies. -/
def heapC3w : Heap :=
  { hsize := fun o => if o = 0 then 32 else if o = 32 then 32 else 0
    hused := fun o => if o = 0 then true else if o = 32 then true else false
    mem := fun _ => 0
    endp := 64
    next := 0
    sbrks := [] }

theorem heapC3w_inv :
    AllocInv heapC3w [⟨0, 32, true⟩, ⟨32, 32, true⟩] := by
  refine ⟨?_, ?_, ?_, ?_, ?_⟩
  · refine Seg.cons (by decide) (by decide) ⟨5, by decide⟩ (by decide)
      (by decide) (by decide) ?_
    refine Seg.cons (by decide) (by decide) ⟨5, by decide⟩ (by decide)
      (by decide) (by decide) ?_
    have he : (0 : Nat) + 32 + 32 = heapC3w.endp := by decide
    rw [he]
    exact Seg.nil _
  · exact Or.inr ⟨⟨0, 32, true⟩, by simp, by decide⟩
  · intro o ho
    have ho' : (64 : Nat) ≤ o := ho
    show (if o = 0 then 32 else if o = 32 then 32 else 0) = 0
    rw [if_neg (by omega), if_neg (by omega)]
  · exact ⟨6, by decide⟩
  · decide

/-- **C3 (amended), witness.**  Two used 32-byte buddies at 0 and 32 in a
64-byte region: freeing payload 16 then payload 48 coalesces them into the
single free block of size 64 at 0, and `balloc 48` (a 64-byte block) then
succeeds without growth. -/
theorem C3_coalesce_refit_witness :
    ∃ l₂ r1 r2,
      AllocInv (bfree 48 (bfree 16 heapC3w)) l₂ ∧
      (⟨r1, r2, false⟩ : Blk) ∈ l₂ ∧
      r1 ≤ 0 ∧ 0 + 32 * 2 ≤ r1 + r2 ∧
      (bfree 48 (bfree 16 heapC3w)).endp = heapC3w.endp ∧
      ((balloc (32 * 2 - MEMOFFSET) (bfree 48 (bfree 16 heapC3w))).1).isSome
        = true ∧
      ((balloc (32 * 2 - MEMOFFSET) (bfree 48 (bfree 16 heapC3w))).2).endp
        = heapC3w.endp :=
  C3_coalesce_refit heapC3w [⟨0, 32, true⟩, ⟨32, 32, true⟩] 0 32 16 48
    heapC3w_inv (List.mem_cons_self _ _)
    (List.mem_cons_of_mem _ (List.mem_cons_self _ _)) (by decide)
    (Or.inl ⟨by decide, by decide⟩)

theorem Seg.end_eq {h : Heap} {l : List Blk} :
    ∀ {o e e' : Nat}, Seg h o e l → Seg h o e' l → e = e' := by
  induction l with
  | nil =>
    intro o e e' h1 h2
    rw [← h1.nil_eq, ← h2.nil_eq]
  | cons hd tl ih =>
    intro o e e' h1 h2
    exact ih h1.tail h2.tail

/-- The forward copy writes only payload bytes. -/
theorem copyF_state (dst src : Nat) :
    ∀ (r i : Nat) (h : Heap),
      (copyF dst src h i r).hsize = h.hsize ∧
      (copyF dst src h i r).hused = h.hused ∧
      (copyF dst src h i r).endp = h.endp ∧
      (copyF dst src h i r).next = h.next ∧
      (copyF dst src h i r).sbrks = h.sbrks := by
  intro r
  induction r with
  | zero => intro i h; exact ⟨rfl, rfl, rfl, rfl, rfl⟩
  | succ n ih =>
    intro i h
    have hstep : copyF dst src h i (n + 1) =
        copyF dst src (setMem h (dst + i) (h.mem (src + i))) (i + 1) n := rfl
    rw [hstep]
    exact ih (i + 1) (setMem h (dst + i) (h.mem (src + i)))

/-- The backward copy writes only payload bytes. -/
theorem copyB_state (dst src : Nat) :
    ∀ (r : Nat) (h : Heap),
      (copyB dst src h r).hsize = h.hsize ∧
      (copyB dst src h r).hused = h.hused ∧
      (copyB dst src h r).endp = h.endp ∧
      (copyB dst src h r).next = h.next ∧
      (copyB dst src h r).sbrks = h.sbrks := by
  intro r
  induction r with
  | zero => intro h; exact ⟨rfl, rfl, rfl, rfl, rfl⟩
  | succ n ih =>
    intro h
    have hstep : copyB dst src h (n + 1) =
        copyB dst src (setMem h (dst + n) (h.mem (src + n))) n := rfl
    rw [hstep]
    exact ih (setMem h (dst + n) (h.mem (src + n)))

/-- The in-place growth check of `brealloc` only reads; when it answers
`some ns`, the interval `[b, b + ns)` is tiled by the block at `b` followed
by whole free blocks of the tiling, `ns` is a buddy-aligned power of two
holding the request, and the remainder of the tiling is untouched. -/
theorem growRight_spec (sz b : Nat) (h : Heap) (blk : Blk) :
    ∀ (fuel blockSize : Nat) (lm l₂ : List Blk),
      Seg h b (b + blockSize) lm →
      Seg h (b + blockSize) h.endp l₂ →
      isPow2 blockSize → MINBLOCKSIZE ≤ blockSize → b % blockSize = 0 →
      b + blockSize ≤ h.endp →
      (∀ x ∈ lm, x ≠ blk → x.used = false) →
      ∀ ns, growRight sz b h fuel blockSize = some ns →
        ∃ lm' l₂',
          Seg h b (b + ns) lm' ∧ Seg h (b + ns) h.endp l₂' ∧
          (∀ x ∈ lm', x ≠ blk → x.used = false) ∧
          isPow2 ns ∧ MINBLOCKSIZE ≤ ns ∧ b % ns = 0 ∧ b + ns ≤ h.endp ∧
          sz + MEMOFFSET ≤ ns ∧ blockSize ≤ ns ∧
          (∀ x ∈ l₂', x ∈ l₂) := by
  intro fuel
  induction fuel with
  | zero =>
    intro blockSize lm l₂ _ _ _ _ _ _ _ ns hns
    simp [growRight] at hns
  | succ n ih =>
    intro blockSize lm l₂ hsm hs2 hpw hm16 hal hbnd hfr ns hns
    simp only [growRight] at hns
    by_cases hfit : blockSize ≥ sz + MEMOFFSET
    · rw [if_pos hfit] at hns
      have hbs := Option.some.inj hns
      subst hbs
      exact ⟨lm, l₂, hsm, hs2, hfr, hpw, hm16, hal, hbnd, hfit, le_refl _,
        fun x hx => hx⟩
    · rw [if_neg hfit] at hns
      by_cases hg : b % (blockSize * 2) > 0 ∨ b + blockSize = h.endp ∨
          h.hsize (b + blockSize) ≠ blockSize ∨ h.hused (b + blockSize) = true
      · rw [if_pos hg] at hns
        cases hns
      · rw [if_neg hg] at hns
        push_neg at hg
        obtain ⟨hg0, hg1, hg2, hg3⟩ := hg
        have hg0' : b % (blockSize * 2) = 0 := by omega
        have hg3' : h.hused (b + blockSize) = false := by simpa using hg3
        have hend : b + blockSize < h.endp := by omega
        rcases l₂ with _ | ⟨z, l₂t⟩
        · exfalso
          have := hs2.nil_eq
          omega
        · have hzoff : z.off = b + blockSize := Seg.head_off hs2
          have hzf := hs2.mem_facts z (List.mem_cons_self _ _)
          have hzsize : z.size = blockSize := by
            have h1 : h.hsize z.off = z.size := hzf.1
            rw [hzoff] at h1
            omega
          have hztail := Seg.tail hs2
          have hztail' : Seg h (b + blockSize * 2) h.endp l₂t := by
            have he : b + blockSize + z.size = b + blockSize * 2 := by omega
            rw [he] at hztail
            exact hztail
          have hsm' : Seg h b (b + blockSize * 2)
              (lm ++ [(⟨b + blockSize, blockSize, false⟩ : Blk)]) := by
            refine hsm.append ?_
            refine Seg.cons hg2 hg3' hpw hm16 ?_ (by omega) ?_
            · rw [Nat.add_mod_right]
              exact hal
            · have he : b + blockSize + blockSize = b + blockSize * 2 := by
                omega
              rw [he]
              exact Seg.nil _
          have hbnd' : b + blockSize * 2 ≤ h.endp := by
            have := hzf.2.2.2.2.2.2
            omega
          have hfr' : ∀ x ∈ lm ++ [(⟨b + blockSize, blockSize, false⟩ : Blk)],
              x ≠ blk → x.used = false := by
            intro x hx hxb
            rcases List.mem_append.mp hx with hx1 | hx2
            · exact hfr x hx1 hxb
            · rw [List.mem_singleton] at hx2
              subst hx2
              rfl
          obtain ⟨lm', l₂', ih1, ih2, ih3, ih4, ih5, ih6, ih7, ih8, ih9,
            ih10⟩ := ih (blockSize * 2)
              (lm ++ [(⟨b + blockSize, blockSize, false⟩ : Blk)]) l₂t
              hsm' hztail' (isPow2_double hpw)
              (by unfold MINBLOCKSIZE at hm16 ⊢; omega) hg0' hbnd' hfr' ns hns
          refine ⟨lm', l₂', ih1, ih2, ih3, ih4, ih5, ih6, ih7, ih8,
            by omega, ?_⟩
          intro x hx
          exact List.mem_cons_of_mem _ (ih10 x hx)

theorem brealloc_eq_zero (p : Nat) (h : Heap) :
    brealloc p 0 h = (none, bfree p h) := by
  unfold brealloc
  rw [if_pos rfl]

theorem brealloc_eq_shrink (p sz : Nat) (h : Heap) (hsz : ¬ sz = 0)
    (hge : memsize h (p - MEMOFFSET) ≥ sz) :
    brealloc p sz h =
      (some (p - MEMOFFSET + MEMOFFSET),
       { splitLoopR sz (p - MEMOFFSET) (h.hsize (p - MEMOFFSET) + 1) h with
         next := p - MEMOFFSET +
           (splitLoopR sz (p - MEMOFFSET) (h.hsize (p - MEMOFFSET) + 1)
             h).hsize (p - MEMOFFSET) }) := by
  simp only [brealloc]
  rw [if_neg hsz, if_pos hge]

theorem brealloc_eq_growR (p sz : Nat) (h : Heap) (hsz : ¬ sz = 0)
    (hlt : ¬ memsize h (p - MEMOFFSET) ≥ sz) (ns : Nat)
    (hgr : growRight sz (p - MEMOFFSET) h (sz + MEMOFFSET + 1)
      (h.hsize (p - MEMOFFSET)) = some ns) :
    brealloc p sz h =
      (some (p - MEMOFFSET + MEMOFFSET),
       { setHsize h (p - MEMOFFSET) ns with next := p - MEMOFFSET + ns }) := by
  simp only [brealloc]
  rw [if_neg hsz, if_neg hlt, hgr]

theorem brealloc_eq_fb_fail (p sz : Nat) (h : Heap) (hsz : ¬ sz = 0)
    (hlt : ¬ memsize h (p - MEMOFFSET) ≥ sz)
    (hgr : growRight sz (p - MEMOFFSET) h (sz + MEMOFFSET + 1)
      (h.hsize (p - MEMOFFSET)) = none)
    (h2 : Heap) (hb : balloc sz (bfree p h) = (none, h2)) :
    brealloc p sz h =
      (none, setHused (setHsize h2 (p - MEMOFFSET)
        (h.hsize (p - MEMOFFSET))) (p - MEMOFFSET) true) := by
  simp only [brealloc]
  rw [if_neg hsz, if_neg hlt, hgr, hb]

theorem brealloc_eq_fb_succ (p sz : Nat) (h : Heap) (hsz : ¬ sz = 0)
    (hlt : ¬ memsize h (p - MEMOFFSET) ≥ sz)
    (hgr : growRight sz (p - MEMOFFSET) h (sz + MEMOFFSET + 1)
      (h.hsize (p - MEMOFFSET)) = none)
    (np : Nat) (h2 : Heap) (hb : balloc sz (bfree p h) = (some np, h2)) :
    brealloc p sz h =
      (some np,
       if np < p then copyF np p h2 0 (memsize h2 (p - MEMOFFSET))
       else copyB np p h2 (memsize h2 (p - MEMOFFSET))) := by
  simp only [brealloc]
  rw [if_neg hsz, if_neg hlt, hgr, hb]

/-- `brealloc` on a used block of an invariant tiling: whatever path it
takes (free at size 0, shrink in place, grow in place, relocate, or fail and
roll back), some tiling satisfies the invariant afterwards and the cursor is
at or below the region bound (it can land exactly on `end`). -/
theorem brealloc_preserves (p sz : Nat) (h : Heap) (l : List Blk) (blk : Blk)
    (hi : AllocInv h l) (hmem : blk ∈ l) (hu : blk.used = true)
    (hoff : p - MEMOFFSET = blk.off) :
    ∃ l', AllocInv (brealloc p sz h).2 l' ∧
      ((brealloc p sz h).2).next ≤ ((brealloc p sz h).2).endp := by
  have hf := hi.seg.mem_facts blk hmem
  have h16b : MINBLOCKSIZE ≤ blk.size := hf.2.2.2.1
  have hbbnd : blk.off + blk.size ≤ h.endp := hf.2.2.2.2.2.2
  have hblt : blk.off < h.endp := by
    unfold MINBLOCKSIZE at h16b
    omega
  by_cases hsz : sz = 0
  · subst hsz
    rw [brealloc_eq_zero]
    obtain ⟨l₁, l₂, r1, r2, hinv2, hnext2, hendp2, hmem2, hsbrks2, hframe2,
      hr1le, hr12, hszle, halB, hpwB, hbndB, hguardB, hpresB, hsubA, hsubB⟩ :=
      bfree_preserves p h l blk hi hmem hu hoff
    refine ⟨l₁ ++ (⟨r1, r2, false⟩ : Blk) :: l₂, hinv2, ?_⟩
    show (bfree p h).next ≤ (bfree p h).endp
    rw [hnext2, hendp2]
    omega
  · by_cases hge : memsize h (p - MEMOFFSET) ≥ sz
    · -- shrink in place
      have hgeb : memsize h blk.off ≥ sz := by
        rw [← hoff]
        exact hge
      have hbe0 := brealloc_eq_shrink p sz h hsz hge
      rw [hoff] at hbe0
      have heqRA := splitLoopR_eq_splitLoopA sz blk.off (by omega)
        (h.hsize blk.off + 1) h
      rw [heqRA] at hbe0
      obtain ⟨frame1, endp1, next1, sbrks1, used1, p1, m1, le1, al1, fit1,
        exit1, tl, segTl, freeTl⟩ :=
        splitLoopA_spec sz blk.off (h.hsize blk.off + 1) h (by omega)
          (by rw [hf.1]; exact hf.2.2.1) (by rw [hf.1]; exact h16b)
          (by rw [hf.1]; exact hf.2.2.2.2.1)
      obtain ⟨l₁, l₂, hdec, hs1, hs2⟩ := hi.seg.mem_decomp blk hmem
      set h₁ := splitLoopA sz blk.off (h.hsize blk.off + 1) h with h₁def
      set f := h₁.hsize blk.off with hfdef
      set h₂ : Heap := { h₁ with next := blk.off + f } with h₂def
      rw [hbe0]
      show ∃ l', AllocInv h₂ l' ∧ h₂.next ≤ h₂.endp
      have h2size : ∀ o, h₂.hsize o = h₁.hsize o := fun _ => rfl
      have h2used : ∀ o, h₂.hused o = h₁.hused o := fun _ => rfl
      have h2endp : h₂.endp = h.endp := endp1
      have hfle : f ≤ blk.size := by
        rw [← hf.1]
        exact le1
      have hf16 : MINBLOCKSIZE ≤ f := m1
      have hseg1 : Seg h₂ 0 blk.off l₁ := by
        refine hs1.frame ?_
        intro x hx
        have hxm := hs1.mem_facts x hx
        have h16x := hxm.2.2.2.1
        unfold MINBLOCKSIZE at h16x
        have hxb : x.off < blk.off := by
          have := hxm.2.2.2.2.2.2
          omega
        have hfr := frame1 x.off (Or.inl hxb)
        rw [h2size, h2used]
        exact hfr
      have hseg2 : Seg h₂ (blk.off + blk.size) h.endp l₂ := by
        refine hs2.frame ?_
        intro x hx
        have hxb := (hs2.mem_facts x hx).2.2.2.2.2.1
        have hfr := frame1 x.off (Or.inr (by rw [hf.1]; omega))
        rw [h2size, h2used]
        exact hfr
      have hsegTl : Seg h₂ (blk.off + f) (blk.off + blk.size) tl := by
        have hfrm : Seg h₂ (blk.off + f) (blk.off + h.hsize blk.off) tl := by
          refine segTl.frame ?_
          intro x hx
          rw [h2size, h2used]
          exact ⟨rfl, rfl⟩
        rw [hf.1] at hfrm
        exact hfrm
      have husedb : h₂.hused blk.off = true := by
        rw [h2used, used1, hf.2.1]
        exact hu
      have hsegHead : Seg h₂ blk.off h.endp
          ((⟨blk.off, f, true⟩ : Blk) :: (tl ++ l₂)) := by
        refine Seg.cons ?_ husedb p1 m1 al1 (by omega) ?_
        · rw [h2size]
        · exact Seg.append hsegTl hseg2
      have hsegAll : Seg h₂ 0 h.endp
          (l₁ ++ ((⟨blk.off, f, true⟩ : Blk) :: (tl ++ l₂))) :=
        Seg.append hseg1 hsegHead
      have hnx : h₂.next = h₂.endp ∨
          ∃ blk' ∈ l₁ ++ ((⟨blk.off, f, true⟩ : Blk) :: (tl ++ l₂)),
            blk'.off = h₂.next := by
        have hnxv : h₂.next = blk.off + f := rfl
        rcases tl with _ | ⟨w, tl'⟩
        · have hfb : blk.off + f = blk.off + blk.size := hsegTl.nil_eq
          rcases l₂ with _ | ⟨w2, l₂'⟩
          · left
            have := hseg2.nil_eq
            rw [hnxv, h2endp]
            omega
          · right
            have hwo := hseg2.head_off
            refine ⟨w2, by simp, ?_⟩
            rw [hnxv]
            omega
        · right
          have hwo := hsegTl.head_off
          refine ⟨w, by simp, ?_⟩
          rw [hnxv]
          omega
      refine ⟨l₁ ++ ((⟨blk.off, f, true⟩ : Blk) :: (tl ++ l₂)),
        ⟨?_, hnx, ?_, ?_, ?_⟩, ?_⟩
      · rw [h2endp]
        exact hsegAll
      · intro o ho
        rw [h2endp] at ho
        rw [h2size]
        rw [(frame1 o (Or.inr (by rw [hf.1]; omega))).1]
        exact hi.high o ho
      · rw [h2endp]
        exact hi.pend
      · rw [h2endp]
        exact hi.e16
      · show blk.off + f ≤ h₂.endp
        rw [h2endp]
        omega
    · rcases hgr : growRight sz (p - MEMOFFSET) h (sz + MEMOFFSET + 1)
          (h.hsize (p - MEMOFFSET)) with _ | ns
      · -- fallback: free, allocate, possibly roll back or copy
        obtain ⟨l₁₂, l₂₂, r1, r2, hinvB, hnextB, hendpB, hmemB, hsbrksB,
          hframeB, hr1le, hr12, hszle, halB, hpwB, hbndB, hguardB, hpresB,
          hsubA, hsubB⟩ := bfree_preserves p h l blk hi hmem hu hoff
        obtain ⟨lA, hinvA, hmemA, hendpA, hpresA, hnxA, hsuccA, hfailA⟩ :=
          balloc_preserves sz (bfree p h)
            (l₁₂ ++ (⟨r1, r2, false⟩ : Blk) :: l₂₂) hinvB
        set h₂ : Heap := (balloc sz (bfree p h)).2 with hh₂
        have h2ge : h.endp ≤ h₂.endp := by
          have h1 : (bfree p h).endp ≤ h₂.endp := hendpA
          rw [hendpB] at h1
          exact h1
        rcases hobd : (balloc sz (bfree p h)).1 with _ | np
        · have hb2 : balloc sz (bfree p h) = (none, h₂) := by
            rw [← hobd, hh₂]
          have hbe0 := brealloc_eq_fb_fail p sz h hsz hge hgr h₂ hb2
          rw [hoff, hf.1] at hbe0
          obtain ⟨hnext2, hhead2, lapp, hlA, happfree⟩ := hfailA hobd
          set h₃ : Heap := setHused (setHsize h₂ blk.off blk.size) blk.off true
            with h₃def
          rw [hbe0]
          show ∃ l', AllocInv h₃ l' ∧ h₃.next ≤ h₃.endp
          have h3size : ∀ o, h₃.hsize o =
              if o = blk.off then blk.size else h₂.hsize o := fun _ => rfl
          have h3used : ∀ o, h₃.hused o =
              if o = blk.off then true else h₂.hused o := fun _ => rfl
          have hnext_val : h₂.next = r1 := by
            have h1 : h₂.next = (bfree p h).next := hnext2
            rw [h1, hnextB]
          by_cases hcase : r1 = blk.off
          · have hagree : ∀ o, o < h.endp →
                h₃.hsize o = h.hsize o ∧ h₃.hused o = h.hused o := by
              intro o ho
              by_cases hob : o = blk.off
              · subst hob
                rw [h3size, h3used, if_pos rfl, if_pos rfl]
                refine ⟨hf.1.symm, ?_⟩
                rw [hf.2.1]
                exact hu.symm
              · have hstep1 : h₃.hsize o = h₂.hsize o ∧
                    h₃.hused o = h₂.hused o := by
                  rw [h3size, h3used, if_neg hob, if_neg hob]
                  exact ⟨rfl, rfl⟩
                have hstep2 := hhead2 o (by rw [hendpB]; exact ho)
                have hstep3 := hframeB o (by omega)
                exact ⟨hstep1.1.trans (hstep2.1.trans hstep3.1),
                  hstep1.2.trans (hstep2.2.trans hstep3.2)⟩
            have hsegl : Seg h₂ 0 h₂.endp
                ((l₁₂ ++ (⟨r1, r2, false⟩ : Blk) :: l₂₂) ++ lapp) := by
              have hsl := hinvA.seg
              rw [hlA] at hsl
              exact hsl
            obtain ⟨m, hm1, hm2⟩ := Seg.append_inv hsegl
            have htil2 : Seg h₂ 0 h.endp
                (l₁₂ ++ (⟨r1, r2, false⟩ : Blk) :: l₂₂) := by
              have hsrc := hinvB.seg
              rw [hendpB] at hsrc
              refine hsrc.frame ?_
              intro x hx
              have hxm := hsrc.mem_facts x hx
              have h16x := hxm.2.2.2.1
              unfold MINBLOCKSIZE at h16x
              have hxlt : x.off < h.endp := by
                have := hxm.2.2.2.2.2.2
                omega
              exact hhead2 x.off (by rw [hendpB]; omega)
            have hmEq : m = h.endp := Seg.end_eq hm1 htil2
            rw [hmEq] at hm2
            have hseglapp : Seg h₃ h.endp h₂.endp lapp := by
              refine hm2.frame ?_
              intro x hx
              have hxm := hm2.mem_facts x hx
              have hne : x.off ≠ blk.off := by
                have h1 := hxm.2.2.2.2.2.1
                omega
              rw [h3size, h3used, if_neg hne, if_neg hne]
              exact ⟨rfl, rfl⟩
            have hsegOrig : Seg h₃ 0 h.endp l := by
              refine hi.seg.frame ?_
              intro x hx
              have hxm := hi.seg.mem_facts x hx
              have h16x := hxm.2.2.2.1
              unfold MINBLOCKSIZE at h16x
              exact hagree x.off (by have := hxm.2.2.2.2.2.2; omega)
            have hsegFull : Seg h₃ 0 h₂.endp (l ++ lapp) :=
              Seg.append hsegOrig hseglapp
            refine ⟨l ++ lapp, ⟨hsegFull, ?_, ?_, hinvA.pend, hinvA.e16⟩, ?_⟩
            · right
              refine ⟨blk, List.mem_append.mpr (Or.inl hmem), ?_⟩
              have h1 : h₃.next = h₂.next := rfl
              rw [h1, hnext_val, hcase]
            · intro o ho
              have ho2 : h₂.endp ≤ o := ho
              have hne : o ≠ blk.off := by omega
              rw [h3size, if_neg hne]
              exact hinvA.high o ho2
            · show h₂.next ≤ h₂.endp
              rw [hnext_val]
              omega
          · have hr1lt : r1 < blk.off := by omega
            have hmrgA : (⟨r1, r2, false⟩ : Blk) ∈ lA := by
              rw [hlA]
              exact List.mem_append.mpr (Or.inl (List.mem_append.mpr
                (Or.inr (List.mem_cons_self _ _))))
            have hneb : ∀ x ∈ lA, x.off ≠ blk.off := by
              intro x hx hcon
              by_cases hxm : x.off = r1
              · omega
              · have hdisj : r1 + r2 ≤ x.off ∨ x.off + x.size ≤ r1 :=
                  hinvA.seg.disjoint hmrgA hx (by show r1 ≠ x.off; omega)
                have hxf := hinvA.seg.mem_facts x hx
                have h16x : MINBLOCKSIZE ≤ x.size := hxf.2.2.2.1
                have h16b2 : 16 ≤ blk.size := h16b
                unfold MINBLOCKSIZE at h16x
                rcases hdisj with hd | hd
                · omega
                · omega
            have hsegA3 : Seg h₃ 0 h₂.endp lA := by
              refine hinvA.seg.frame ?_
              intro x hx
              have hne := hneb x hx
              rw [h3size, h3used, if_neg hne, if_neg hne]
              exact ⟨rfl, rfl⟩
            refine ⟨lA, ⟨hsegA3, ?_, ?_, hinvA.pend, hinvA.e16⟩, ?_⟩
            · rcases hinvA.nx with hA | ⟨w, hwmem, hwoff⟩
              · left
                show h₂.next = h₂.endp
                exact hA
              · right
                exact ⟨w, hwmem, hwoff⟩
            · intro o ho
              have ho2 : h₂.endp ≤ o := ho
              have hne : o ≠ blk.off := by omega
              rw [h3size, if_neg hne]
              exact hinvA.high o ho2
            · show h₂.next ≤ h₂.endp
              rw [hnext_val]
              omega
        · have hb2 : balloc sz (bfree p h) = (some np, h₂) := by
            rw [← hobd, hh₂]
          have hbe0 := brealloc_eq_fb_succ p sz h hsz hge hgr np h₂ hb2
          rw [hoff] at hbe0
          have hnxA' := hnxA (Or.inl (by rw [hobd]; rfl))
          obtain ⟨w, hwmem, hwoff⟩ := hnxA'
          set h₃ : Heap := (if np < p then copyF np p h₂ 0 (memsize h₂ blk.off)
            else copyB np p h₂ (memsize h₂ blk.off)) with h₃def
          have hstate : h₃.hsize = h₂.hsize ∧ h₃.hused = h₂.hused ∧
              h₃.endp = h₂.endp ∧ h₃.next = h₂.next := by
            rw [h₃def]
            by_cases hnp : np < p
            · rw [if_pos hnp]
              obtain ⟨a1, a2, a3, a4, a5⟩ :=
                copyF_state np p (memsize h₂ blk.off) 0 h₂
              exact ⟨a1, a2, a3, a4⟩
            · rw [if_neg hnp]
              obtain ⟨a1, a2, a3, a4, a5⟩ :=
                copyB_state np p (memsize h₂ blk.off) h₂
              exact ⟨a1, a2, a3, a4⟩
          rw [hbe0]
          show ∃ l', AllocInv h₃ l' ∧ h₃.next ≤ h₃.endp
          refine ⟨lA, ⟨?_, ?_, ?_, ?_, ?_⟩, ?_⟩
          · have hfr : Seg h₃ 0 h₂.endp lA := by
              refine hinvA.seg.frame ?_
              intro x hx
              rw [hstate.1, hstate.2.1]
              exact ⟨rfl, rfl⟩
            have he3 : h₃.endp = h₂.endp := hstate.2.2.1
            rw [he3]
            exact hfr
          · rcases hinvA.nx with hA | ⟨w2, hw2, hw2o⟩
            · left
              rw [hstate.2.2.2, hstate.2.2.1]
              exact hA
            · right
              refine ⟨w2, hw2, ?_⟩
              rw [hstate.2.2.2]
              exact hw2o
          · intro o ho
            rw [hstate.2.2.1] at ho
            rw [hstate.1]
            exact hinvA.high o ho
          · rw [hstate.2.2.1]
            exact hinvA.pend
          · rw [hstate.2.2.1]
            exact hinvA.e16
          · have hwb : w.off + w.size ≤ h₂.endp := hinvA.seg.mem_facts w hwmem
              |>.2.2.2.2.2.2
            have hwo2 : w.off = h₂.next := hwoff
            rw [hstate.2.2.2, hstate.2.2.1, ← hwo2]
            omega
      · -- in-place growth by right-buddy merging
        have hgrb : growRight sz blk.off h (sz + MEMOFFSET + 1)
            (h.hsize blk.off) = some ns := by
          rw [← hoff]
          exact hgr
        have hbe0 := brealloc_eq_growR p sz h hsz hge ns hgr
        rw [hoff] at hbe0
        obtain ⟨l₁, l₂, hdec, hs1, hs2⟩ := hi.seg.mem_decomp blk hmem
        have hsm0 : Seg h blk.off (blk.off + h.hsize blk.off) [blk] := by
          rw [hf.1]
          exact Seg.single hf.1 hf.2.1 hf.2.2.1 hf.2.2.2.1 hf.2.2.2.2.1 rfl rfl
        have hs20 : Seg h (blk.off + h.hsize blk.off) h.endp l₂ := by
          rw [hf.1]
          exact hs2
        obtain ⟨lm', l₂', g1, g2, g3, g4, g5, g6, g7, g8, g9, g10⟩ :=
          growRight_spec sz blk.off h blk (sz + MEMOFFSET + 1)
            (h.hsize blk.off) [blk] l₂ hsm0 hs20
            (by rw [hf.1]; exact hf.2.2.1) (by rw [hf.1]; exact h16b)
            (by rw [hf.1]; exact hf.2.2.2.2.1) (by rw [hf.1]; exact hbbnd)
            (fun x hx hxb => absurd (List.mem_singleton.mp hx) hxb) ns hgrb
        set h₂ : Heap := { setHsize h blk.off ns with next := blk.off + ns }
          with h₂def
        rw [hbe0]
        show ∃ l', AllocInv h₂ l' ∧ h₂.next ≤ h₂.endp
        have h2size : ∀ o, h₂.hsize o =
            if o = blk.off then ns else h.hsize o := fun _ => rfl
        have h2used : ∀ o, h₂.hused o = h.hused o := fun _ => rfl
        have h2endp : h₂.endp = h.endp := rfl
        have hseg1 : Seg h₂ 0 blk.off l₁ := by
          refine hs1.frame ?_
          intro x hx
          have hxm := hs1.mem_facts x hx
          have h16x := hxm.2.2.2.1
          unfold MINBLOCKSIZE at h16x
          have hne : x.off ≠ blk.off := by
            have := hxm.2.2.2.2.2.2
            omega
          rw [h2size, h2used, if_neg hne]
          exact ⟨rfl, rfl⟩
        have hseg2 : Seg h₂ (blk.off + ns) h.endp l₂' := by
          refine g2.frame ?_
          intro x hx
          have hxm := g2.mem_facts x hx
          have hne : x.off ≠ blk.off := by
            have h1 := hxm.2.2.2.2.2.1
            unfold MINBLOCKSIZE at g5
            omega
          rw [h2size, h2used, if_neg hne]
          exact ⟨rfl, rfl⟩
        have hsegHead : Seg h₂ blk.off h.endp
            ((⟨blk.off, ns, true⟩ : Blk) :: l₂') := by
          refine Seg.cons ?_ ?_ g4 g5 g6 g7 hseg2
          · rw [h2size, if_pos rfl]
          · rw [h2used, hf.2.1]
            exact hu
        have hsegAll : Seg h₂ 0 h.endp
            (l₁ ++ ((⟨blk.off, ns, true⟩ : Blk) :: l₂')) :=
          Seg.append hseg1 hsegHead
        have hnx : h₂.next = h₂.endp ∨
            ∃ blk' ∈ l₁ ++ ((⟨blk.off, ns, true⟩ : Blk) :: l₂'),
              blk'.off = h₂.next := by
          have hnxv : h₂.next = blk.off + ns := rfl
          rcases l₂' with _ | ⟨w, l₂''⟩
          · left
            have := hseg2.nil_eq
            rw [hnxv, h2endp]
            omega
          · right
            have hwo := hseg2.head_off
            refine ⟨w, by simp, ?_⟩
            rw [hnxv]
            omega
        refine ⟨l₁ ++ ((⟨blk.off, ns, true⟩ : Blk) :: l₂'),
          ⟨?_, hnx, ?_, ?_, ?_⟩, ?_⟩
        · rw [h2endp]
          exact hsegAll
        · intro o ho
          rw [h2endp] at ho
          rw [h2size, if_neg (by omega)]
          exact hi.high o ho
        · rw [h2endp]
          exact hi.pend
        · rw [h2endp]
          exact hi.e16
        · show blk.off + ns ≤ h₂.endp
          rw [h2endp]
          exact g7

/-! ## Claims C2 and C10: the per-operation invariants -/

/-- A single public allocator operation. -/
inductive Op where
  | alloc (sz : Nat)
  | free (p : Nat)
  | realloc (p sz : Nat)

/-- The heap after running one public operation (the returned pointer, if
any, is discarded). -/
def applyOp (op : Op) (h : Heap) : Heap :=
  match op with
  | Op.alloc sz => (balloc sz h).2
  | Op.free p => bfree p h
  | Op.realloc p sz => (brealloc p sz h).2

/-- The precondition of a public operation: `balloc` may always be called;
`bfree` and `brealloc` must receive the payload pointer of a live block of
the current tiling (the C contract for `free`/`realloc` arguments). -/
def opOk (op : Op) (l : List Blk) : Prop :=
  match op with
  | Op.alloc _ => True
  | Op.free p => ∃ blk ∈ l, blk.used = true ∧ p = blk.off + MEMOFFSET
  | Op.realloc p _ => ∃ blk ∈ l, blk.used = true ∧ p = blk.off + MEMOFFSET

/-- **C2.**  After any single public operation — an allocation, a free of a
live block's payload pointer, or a reallocation of one — on a heap
satisfying the allocator invariant, the region is again tiled by blocks
whose sizes are powers of two of at least `MINBLOCKSIZE`, whose offsets are
exact multiples of their own sizes, and whose headers record those sizes. -/
theorem C2_block_shape (op : Op) (h : Heap) (l : List Blk)
    (hi : AllocInv h l) (hok : opOk op l) :
    ∃ l', AllocInv (applyOp op h) l' ∧
      ∀ x ∈ l', isPow2 x.size ∧ MINBLOCKSIZE ≤ x.size ∧
        x.off % x.size = 0 ∧ (applyOp op h).hsize x.off = x.size := by
  have key : ∀ (h' : Heap) (l' : List Blk), AllocInv h' l' →
      ∀ x ∈ l', isPow2 x.size ∧ MINBLOCKSIZE ≤ x.size ∧
        x.off % x.size = 0 ∧ h'.hsize x.off = x.size := by
    intro h' l' hi' x hx
    have hf := hi'.seg.mem_facts x hx
    exact ⟨hf.2.2.1, hf.2.2.2.1, hf.2.2.2.2.1, hf.1⟩
  cases op with
  | alloc sz =>
    obtain ⟨l', hinv, _⟩ := balloc_preserves sz h l hi
    exact ⟨l', hinv, key _ _ hinv⟩
  | free p =>
    simp only [opOk] at hok
    obtain ⟨blk, hmem, hu, hp⟩ := hok
    have hoff : p - MEMOFFSET = blk.off := by omega
    obtain ⟨l₁, l₂, r1, r2, hinv, _⟩ :=
      bfree_preserves p h l blk hi hmem hu hoff
    exact ⟨_, hinv, key _ _ hinv⟩
  | realloc p sz =>
    simp only [opOk] at hok
    obtain ⟨blk, hmem, hu, hp⟩ := hok
    have hoff : p - MEMOFFSET = blk.off := by omega
    obtain ⟨l', hinv, _⟩ :=
      brealloc_preserves p sz h l blk hi hmem hu hoff
    exact ⟨l', hinv, key _ _ hinv⟩

/-- **C2, witness.**  A 16-byte allocation from a fresh 4096-byte region:
the resulting tiling again consists of power-of-two, aligned blocks. -/
theorem C2_block_shape_witness :
    ∃ l', AllocInv (applyOp (Op.alloc 16) (initHeap 4096 [])) l' ∧
      ∀ x ∈ l', isPow2 x.size ∧ MINBLOCKSIZE ≤ x.size ∧
        x.off % x.size = 0 ∧
        (applyOp (Op.alloc 16) (initHeap 4096 [])).hsize x.off = x.size :=
  C2_block_shape (Op.alloc 16) (initHeap 4096 []) [⟨0, 4096, false⟩]
    (initHeap_inv 4096 [] ⟨12, by norm_num⟩ (by decide)) True.intro

/-- **C10 (amended).**  On a heap satisfying the allocator invariant whose
cursor sits at a block header, `balloc` leaves the cursor at a block header
strictly inside the region, and `bfree` of a live payload pointer leaves it
at the merged block's header, strictly inside the region; `brealloc` only
guarantees `next ≤ end` — the counterexample shows a returning `brealloc`
that leaves `next = end`, where the invariant's weak cursor disjunction
still holds but the cursor no longer points at an existing block. -/
theorem C10_cursor_in_region (h : Heap) (l : List Blk) (hi : AllocInv h l) :
    (∀ sz, nextAt h l →
      ((balloc sz h).2).next < ((balloc sz h).2).endp) ∧
    (∀ p blk, blk ∈ l → blk.used = true → p - MEMOFFSET = blk.off →
      (bfree p h).next < (bfree p h).endp) ∧
    (∀ p sz blk, blk ∈ l → blk.used = true → p - MEMOFFSET = blk.off →
      ((brealloc p sz h).2).next ≤ ((brealloc p sz h).2).endp) := by
  refine ⟨?_, ?_, ?_⟩
  · intro sz hnx
    obtain ⟨l', hinv, _, _, _, hnx', _, _⟩ := balloc_preserves sz h l hi
    obtain ⟨blk, hbm, hboff⟩ := hnx' (Or.inr hnx)
    have hf := hinv.seg.mem_facts blk hbm
    have h16 : MINBLOCKSIZE ≤ blk.size := hf.2.2.2.1
    have hbnd : blk.off + blk.size ≤ ((balloc sz h).2).endp :=
      hf.2.2.2.2.2.2
    have hboff' : blk.off = ((balloc sz h).2).next := hboff
    unfold MINBLOCKSIZE at h16
    omega
  · intro p blk hmem hu hoff
    obtain ⟨l₁, l₂, r1, r2, hinv, hnext, hendp, hmm, hsb, hfr, hr1le, hr12,
      hszle, hmod, hpw, hbnd, hg, hpres, hs1, hs2⟩ :=
      bfree_preserves p h l blk hi hmem hu hoff
    have hfb := hi.seg.mem_facts blk hmem
    have h16 : MINBLOCKSIZE ≤ blk.size := hfb.2.2.2.1
    unfold MINBLOCKSIZE at h16
    rw [hnext, hendp]
    omega
  · intro p sz blk hmem hu hoff
    obtain ⟨l', _, hle⟩ := brealloc_preserves p sz h l blk hi hmem hu hoff
    exact hle

/-- **C10 (amended), witness.**  A 16-byte allocation from a fresh
4096-byte region leaves the cursor strictly inside the region. -/
theorem C10_cursor_in_region_witness :
    ((balloc 16 (initHeap 4096 [])).2).next
      < ((balloc 16 (initHeap 4096 [])).2).endp :=
  (C10_cursor_in_region (initHeap 4096 []) [⟨0, 4096, false⟩]
    (initHeap_inv 4096 [] ⟨12, by norm_num⟩ (by decide))).1 16
    (initHeap_nextAt 4096 [])
